import Mathlib

/-!
Verification development for the ipapp application framework.

Shallow embedding of the parts of the code base relevant to the checked
properties: the JSON value encoder (`ipapp/misc.py`), the component
lifecycle orchestrator (`ipapp/app.py`), the B3 span-header round trip
(`ipapp/logger/span.py`), URL secret masking (`ipapp/http/_base.py`),
the distributed lock (`ipapp/utils/lock.py`) and the span delivery
substrate (`ipapp/logger/span.py`, `ipapp/logger/logger.py`).

Python byte strings are lists of naturals below 256, Python exceptions
are an explicit error type, coroutines are small-step state machines
over explicit event traces.
-/

namespace Ipapp

/-! ### Python exception kinds used by the modelled code.

The source raises `UserWarning` for configuration errors; `ipapp.error`
(referenced by `app.py` but not present under the sources) additionally
declares `ConfigurationError`, `PrepareError` and `GracefulExit`. -/

inductive PyErr where
  | userWarning (msg : String)
  | configurationError (msg : String)
  | prepareError (msg : String)
  | exception (msg : String)
  deriving DecidableEq, Repr

/-! ### C4: `json_encode` on bytes, `ipapp/misc.py` lines 145-167.

The source branch for `bytes` is:

    if isinstance(obj, bytes):
        try:
            return obj.decode('UTF8')
        except Exception:
            return str(obj)

whereas the repository test `tests/test_json_encode.py` (and the spec)
require `BASE64_MARKER + base64.b64encode(obj).decode()`, with
`BASE64_MARKER` imported from `ipapp.misc` where it does not exist.
We model both encoders and evaluate them at a failing input. -/

/-- A Python bytes value: a list of octets. -/
def PyBytes : Type := List Nat

/-- The base64 alphabet of RFC 4648 used by Python `base64.b64encode`. -/
def b64alphabet : List Char :=
  ("ABCDEFGHIJKLMNOPQRSTUVWXYZabcdefghijklmnopqrstuvwxyz0123456789+/").toList

/-- Character of the base64 alphabet at a 6-bit index. -/
def b64char (n : Nat) : Char := b64alphabet.getD n (Char.ofNat 63)

/-- Python `base64.b64encode`: 3-octet groups become 4 alphabet
characters, a trailing group of 1 or 2 octets is padded with `=`. -/
def b64encode : List Nat → List Char
  | [] => []
  | [a] => [b64char (a / 4), b64char (a % 4 * 16), Char.ofNat 61, Char.ofNat 61]
  | [a, b] => [b64char (a / 4), b64char (a % 4 * 16 + b / 16),
               b64char (b % 16 * 4), Char.ofNat 61]
  | a :: b :: c :: rest =>
      b64char (a / 4) :: b64char (a % 4 * 16 + b / 16) ::
      b64char (b % 16 * 4 + c / 64) :: b64char (c % 64) :: b64encode rest

/-- Whether an octet is a UTF-8 continuation byte (`0x80..0xBF`). -/
def isUtf8Cont (b : Nat) : Bool := 0x80 ≤ b && b < 0xC0

/-- Strict UTF-8 decoding, fuel-structural (the fuel bounds the number
of decoded sequences; `utf8Decode` passes the list length, which always
suffices): rejects stray continuation bytes, overlong forms, surrogates
and code points above `0x10FFFF`; `none` models `UnicodeDecodeError`. -/
def utf8DecodeF : Nat → List Nat → Option (List Char)
  | _, [] => some []
  | 0, _ :: _ => none
  | fuel + 1, b :: rest =>
    if b < 0x80 then
      (utf8DecodeF fuel rest).map (fun cs => Char.ofNat b :: cs)
    else if b < 0xC2 then
      none
    else if b < 0xE0 then
      match rest with
      | c :: rest2 =>
        if isUtf8Cont c then
          (utf8DecodeF fuel rest2).map
            (fun cs => Char.ofNat ((b - 0xC0) * 64 + (c - 0x80)) :: cs)
        else none
      | [] => none
    else if b < 0xF0 then
      match rest with
      | c :: d :: rest2 =>
        if isUtf8Cont c && isUtf8Cont d
            && !(b == 0xE0 && c < 0xA0) && !(b == 0xED && c ≥ 0xA0) then
          (utf8DecodeF fuel rest2).map
            (fun cs =>
              Char.ofNat ((b - 0xE0) * 4096 + (c - 0x80) * 64 + (d - 0x80)) :: cs)
        else none
      | _ => none
    else if b < 0xF5 then
      match rest with
      | c :: d :: e :: rest2 =>
        if isUtf8Cont c && isUtf8Cont d && isUtf8Cont e
            && !(b == 0xF0 && c < 0x90) && !(b == 0xF4 && c ≥ 0x90) then
          (utf8DecodeF fuel rest2).map
            (fun cs =>
              Char.ofNat ((b - 0xF0) * 262144 + (c - 0x80) * 4096
                + (d - 0x80) * 64 + (e - 0x80)) :: cs)
        else none
      | _ => none
    else none

/-- Python `bytes.decode('UTF8')`: `none` models `UnicodeDecodeError`. -/
def utf8Decode (l : List Nat) : Option (List Char) := utf8DecodeF l.length l

/-- Lower-case hexadecimal digit. -/
def hexDigit (n : Nat) : Char :=
  if n < 10 then Char.ofNat (48 + n) else Char.ofNat (87 + n)

/-- Python `repr` of a single byte inside a bytes literal with the given
quote character: backslash, the quote, `\t`, `\n`, `\r` are escaped,
printable ASCII is kept, everything else becomes `\xhh`. -/
def pyByteItem (quote : Char) (b : Nat) : List Char :=
  if b == 92 then [Char.ofNat 92, Char.ofNat 92]
  else if b == quote.toNat then [Char.ofNat 92, quote]
  else if b == 9 then [Char.ofNat 92, Char.ofNat 116]
  else if b == 10 then [Char.ofNat 92, Char.ofNat 110]
  else if b == 13 then [Char.ofNat 92, Char.ofNat 114]
  else if 32 ≤ b && b < 127 then [Char.ofNat b]
  else [Char.ofNat 92, Char.ofNat 120, hexDigit (b / 16), hexDigit (b % 16)]

/-- Python `str()` of a bytes object, e.g. `b'\xff'`: prefix `b`, a
quote (single unless the bytes contain `'` but no `"`), the escaped
octets, the closing quote. -/
def pyBytesStr (bs : List Nat) : String :=
  let quote : Char :=
    if bs.contains 39 && !(bs.contains 34) then Char.ofNat 34 else Char.ofNat 39
  String.mk (Char.ofNat 98 :: quote :: (bs.map (pyByteItem quote)).flatten ++ [quote])

/-- The `bytes` branch of `_json_encoder` in `ipapp/misc.py` lines
158-162: decode as UTF-8, or fall back to `str(obj)`. -/
def json_encoder_bytes (bs : PyBytes) : String :=
  match utf8Decode bs with
  | some cs => String.mk cs
  | none => pyBytesStr bs

/-- The constant prefix required by the spec and by
`tests/test_json_encode.py`. -/
def BASE64_MARKER : String := "data:application/octet-stream;base64,"

/-- Modelled from the spec: the canonical serialization of a bytes
value required by the specification and asserted by the repository
tests, `BASE64_MARKER + base64.b64encode(obj).decode()`; missing from
`ipapp/misc.py` under the sources. -/
def json_encoder_bytes_spec (bs : PyBytes) : String :=
  BASE64_MARKER ++ String.mk (b64encode bs)

/-- C4: the canonical serialization of a bytes value is NOT the tagged
base64 string required by the spec and by `tests/test_json_encode.py`:
on the non-UTF-8 input `b"\xff"` the source encoder returns the Python
`str()` of the bytes object, and on the UTF-8 input `b"abc"` it returns
the decoded text; the tests (which even import the absent
`BASE64_MARKER` from `ipapp.misc`) require the marker-prefixed base64
form in both cases. The claim is what the repository's own tests
assert, so the source code is the bug. -/
theorem C4_json_encode_bytes_divergence :
    json_encoder_bytes [255] = "b\x27\\xff\x27" ∧
    json_encoder_bytes_spec [255] = "data:application/octet-stream;base64,/w==" ∧
    json_encoder_bytes [255] ≠ json_encoder_bytes_spec [255] ∧
    json_encoder_bytes [97, 98, 99] = "abc" ∧
    json_encoder_bytes [97, 98, 99] ≠ json_encoder_bytes_spec [97, 98, 99] := by
  refine ⟨by decide, by decide, by decide, by decide, by decide⟩

/-! ### C5, C6: the component lifecycle orchestrator, `ipapp/app.py`.

`Application` keeps an ordered mapping of components (`_components`, a
Python dict, modelled as an association list in registration order),
the stop-after graph (`_stop_deps`) and the memo list `_stopped`.  For
the stop path the only relevant behaviour of a component is whether
its `stop()` coroutine raises, recorded in `stopErr`.  Methods that
mutate the object and can raise are modelled as functions returning
the mutated state paired with `Option PyErr` (`none` = returned
normally), which preserves the state reached at the moment an
exception propagates. -/

/-- A registered component: `stopErr` is the exception raised by its
`stop()` coroutine, if any. -/
structure Component where
  stopErr : Option PyErr
  deriving DecidableEq, Repr

/-- The `Application` state relevant to `add` / `stop`. -/
structure Application where
  components : List (String × Component)
  stop_deps : List (String × List String)
  stopped : List String
  loggerStopped : Bool
  deriving DecidableEq, Repr

/-- Names of the registered components, in registration order. -/
def Application.names (app : Application) : List String :=
  app.components.map Prod.fst

/-- `Application.add`, `ipapp/app.py` lines 63-76: raise `UserWarning`
for a duplicate name, raise `UserWarning('Unknown component %s')` for
the first `stop_after` entry that is not registered, else append the
component and its stop-after edges.  (The `isinstance` check of line
65 is enforced by typing here.) -/
def Application.add (app : Application) (name : String) (comp : Component)
    (stop_after : List String) : Application × Option PyErr :=
  if name ∈ app.names then
    (app, some (PyErr.userWarning ""))
  else
    match stop_after.find? (fun cmp => decide (cmp ∉ app.names)) with
    | some cmp => (app, some (PyErr.userWarning ("Unknown component " ++ cmp)))
    | none =>
        ({ app with
            components := app.components ++ [(name, comp)],
            stop_deps := app.stop_deps ++ [(name, stop_after)] }, none)

/-- Dictionary lookup in the stop-after graph (`self._stop_deps[name]`,
with `name in self._stop_deps` guarding absence). -/
def Application.depsOf (app : Application) (name : String) : List String :=
  match app.stop_deps.find? (fun p => p.1 == name) with
  | some p => p.2
  | none => []

/-- Lookup in `self._components`. -/
def Application.compOf (app : Application) (name : String) : Option Component :=
  (app.components.find? (fun p => p.1 == name)).map Prod.snd

/-- Tail of `_stop_comp` after the dependency walk: an exception from a
dependency propagates, otherwise the component itself is stopped (its
`stop()` exception propagating) and recorded in `_stopped`. -/
def Application.stopFinish (name : String) :
    Application × Option PyErr → Application × Option PyErr
  | (st2, some e) => (st2, some e)
  | (st2, none) =>
    match st2.compOf name with
    | none => (st2, some (PyErr.exception "KeyError"))
    | some comp =>
      match comp.stopErr with
      | some e => (st2, some e)
      | none => ({ st2 with stopped := st2.stopped ++ [name] }, none)

/-- `Application._stop_comp`, `ipapp/app.py` lines 161-168: skip if
already stopped, first stop the `stop_after` dependencies recursively,
then the component itself; an exception from a dependency or from the
component's `stop()` propagates immediately and the name is not added
to `_stopped`.  The Python recursion is bounded because `add` only
accepts previously registered names as dependencies; `fuel` makes the
recursion structural, and `fuel = app.components.length` suffices for
states built by `add` (exhausted fuel is reported as an error). -/
def Application.stopComp : Nat → Application → String → Application × Option PyErr
  | 0, app, _ => (app, some (PyErr.exception "recursion limit"))
  | fuel + 1, app, name =>
    if name ∈ app.stopped then (app, none)
    else
      Application.stopFinish name
        ((app.depsOf name).foldl
          (fun acc dep =>
            match acc.2 with
            | some _ => acc
            | none => Application.stopComp fuel acc.1 dep)
          (app, none))

/-- Tail of `stop`: on a clean walk `_stop_logger` runs (modelled by
the `loggerStopped` flag); an exception skips it and propagates. -/
def Application.stopWrap : Application × Option PyErr → Application × Option PyErr
  | (st2, none) => ({ st2 with loggerStopped := true }, none)
  | (st2, some e) => (st2, some e)

/-- One iteration of the `for comp_name in self._components` loop of
`stop`: once an exception is pending nothing further runs (it is
propagating), otherwise `_stop_comp` is called on the next name. -/
def stopStep (acc : Application × Option PyErr) (name : String) :
    Application × Option PyErr :=
  match acc.2 with
  | some _ => acc
  | none => Application.stopComp acc.1.components.length acc.1 name

/-- `Application.stop`, `ipapp/app.py` lines 154-159: walk the
components in registration order calling `_stop_comp`, then stop the
logger.  There is no exception handling: the first exception raised by
a component's `stop()` propagates out of `Application.stop` and the
logger is not stopped. -/
def Application.stop (app : Application) : Application × Option PyErr :=
  Application.stopWrap (app.names.foldl stopStep (app, none))

/-- Classifier: is the raised exception a `ConfigurationError`? -/
def isConfigurationError : Option PyErr → Bool
  | some (PyErr.configurationError _) => true
  | _ => false

/-- Classifier: is the raised exception a `UserWarning`? -/
def isUserWarning : Option PyErr → Bool
  | some (PyErr.userWarning _) => true
  | _ => false

/-- An application with one registered component `a` (healthy stop). -/
def app0 : Application :=
  { components := [("a", { stopErr := none })],
    stop_deps := [("a", [])], stopped := [], loggerStopped := false }

/-- C5 counterexample: registering a duplicate name does fail, but the
exception raised by `Application.add` is `UserWarning()` (line 68 of
`ipapp/app.py`), not `ConfigurationError` as claimed. -/
theorem C5_add_counterexample :
    (Application.add app0 "a" { stopErr := none } []).2
      = some (PyErr.userWarning "") ∧
    isConfigurationError (Application.add app0 "a" { stopErr := none } []).2
      = false ∧
    isConfigurationError
      (Application.add app0 "b" { stopErr := none } ["nope"]).2 = false ∧
    isUserWarning
      (Application.add app0 "b" { stopErr := none } ["nope"]).2 = true := by
  refine ⟨by decide, by decide, by decide, by decide⟩

/-- If some element of a list satisfies the predicate, `find?` finds
one. -/
theorem find?_eq_some_of_mem {α : Type} (p : α → Bool) :
    ∀ (l : List α) (d : α), d ∈ l → p d = true → ∃ x, l.find? p = some x := by
  intro l
  induction l with
  | nil => intro d hd _; cases hd
  | cons a l ih =>
    intro d hd hp
    by_cases ha : p a = true
    · exact ⟨a, by simp [List.find?_cons, ha]⟩
    · cases hd with
      | head => exact absurd hp ha
      | tail _ hd =>
        obtain ⟨x, hx⟩ := ih d hd hp
        exact ⟨x, by simp [List.find?_cons, ha, hx]⟩

/-- C5 amended: `Application.add` fails with `UserWarning` (not
`ConfigurationError`) when the name is already registered or some
`stop_after` entry is not a previously registered component, and on
such a failure the component mapping and the stop-after graph are
unchanged. -/
theorem C5_add_fails_userwarning (app : Application) (name : String)
    (comp : Component) (stop_after : List String)
    (h : name ∈ app.names ∨ ∃ d ∈ stop_after, d ∉ app.names) :
    (Application.add app name comp stop_after).1 = app ∧
    isUserWarning (Application.add app name comp stop_after).2 = true := by
  unfold Application.add
  by_cases hdup : name ∈ app.names
  · simp [hdup, isUserWarning]
  · rcases h with h | h
    · exact absurd h hdup
    · obtain ⟨d, hd, hdp⟩ := h
      obtain ⟨x, hx⟩ := find?_eq_some_of_mem
        (fun cmp => decide (cmp ∉ app.names)) stop_after d hd (by simpa using hdp)
      simp only [decide_not] at hx
      simp [hdup, hx, isUserWarning]

/-- C5 witness: the amended theorem applied to a concrete duplicate
registration. -/
theorem C5_add_fails_userwarning_witness :
    ("a" ∈ app0.names ∨ ∃ d ∈ ([] : List String), d ∉ app0.names) ∧
    ((Application.add app0 "a" { stopErr := none } []).1 = app0 ∧
      isUserWarning (Application.add app0 "a" { stopErr := none } []).2 = true) :=
  ⟨Or.inl (by decide),
    C5_add_fails_userwarning app0 "a" { stopErr := none } [] (Or.inl (by decide))⟩

/-! Frame lemmas for `Application.stopComp`: stopping never touches the
component mapping, the stop-after graph or the logger flag, and only
appends to the `_stopped` memo list. -/

/-- Relation between a starting state and the result of a stop walk:
components, stop-after graph and logger flag preserved, `stopped` only
extended at the end. -/
def FrameOf (st : Application) (p : Application × Option PyErr) : Prop :=
  p.1.components = st.components ∧ p.1.stop_deps = st.stop_deps ∧
  p.1.loggerStopped = st.loggerStopped ∧ st.stopped <+: p.1.stopped

theorem frameOf_refl (st : Application) (e : Option PyErr) : FrameOf st (st, e) :=
  ⟨rfl, rfl, rfl, List.prefix_rfl⟩

theorem FrameOf.self (p : Application × Option PyErr) : FrameOf p.1 p :=
  ⟨rfl, rfl, rfl, List.prefix_rfl⟩

theorem frameOf_trans {st : Application} {st1 : Application} {e : Option PyErr}
    {p : Application × Option PyErr}
    (h1 : FrameOf st (st1, e)) (h2 : FrameOf st1 p) : FrameOf st p := by
  obtain ⟨a1, b1, c1, d1⟩ := h1
  obtain ⟨a2, b2, c2, d2⟩ := h2
  exact ⟨a2.trans a1, b2.trans b1, c2.trans c1, d1.trans d2⟩

/-- A fold whose step preserves the frame preserves the frame. -/
theorem foldl_frame {α : Type} (st : Application)
    (g : Application × Option PyErr → α → Application × Option PyErr)
    (hg : ∀ acc d, FrameOf st acc → FrameOf st (g acc d)) :
    ∀ (l : List α) (acc : Application × Option PyErr),
      FrameOf st acc → FrameOf st (l.foldl g acc) := by
  intro l
  induction l with
  | nil => intro acc h; simpa using h
  | cons d l ih => intro acc h; exact ih (g acc d) (hg acc d h)

/-- The per-dependency step of `_stop_comp` preserves the frame. -/
theorem stopDepsStep_frame (f : Nat) (st : Application)
    (ih : ∀ (st1 : Application) (d : String), FrameOf st1 (Application.stopComp f st1 d))
    (acc : Application × Option PyErr) (d : String) (hacc : FrameOf st acc) :
    FrameOf st
      (match acc.2 with
        | some _ => acc
        | none => Application.stopComp f acc.1 d) := by
  rcases acc with ⟨st1, err⟩
  cases err with
  | some e => exact hacc
  | none => exact frameOf_trans hacc (ih st1 d)

theorem stopComp_frame (f : Nat) :
    ∀ (st : Application) (n : String), FrameOf st (Application.stopComp f st n) := by
  induction f with
  | zero => intro st n; exact frameOf_refl st _
  | succ f ih =>
    intro st n
    rw [Application.stopComp]
    split
    · exact frameOf_refl st _
    · have hfold : FrameOf st
          ((st.depsOf n).foldl
            (fun acc dep =>
              match acc.2 with
              | some _ => acc
              | none => Application.stopComp f acc.1 dep) (st, none)) :=
        foldl_frame st _ (stopDepsStep_frame f st ih) _ _ (frameOf_refl st none)
      obtain ⟨st2, err, hres⟩ :
          ∃ st2 err, ((st.depsOf n).foldl
            (fun acc dep =>
              match acc.2 with
              | some _ => acc
              | none => Application.stopComp f acc.1 dep) (st, none)) = (st2, err) :=
        ⟨_, _, rfl⟩
      rw [hres] at hfold ⊢
      cases err with
      | some e => simpa [Application.stopFinish] using hfold
      | none =>
        cases hc : st2.compOf n with
        | none => simpa [Application.stopFinish, hc] using hfold
        | some comp =>
          cases hs : comp.stopErr with
          | some e => simpa [Application.stopFinish, hc, hs] using hfold
          | none =>
            simp only [Application.stopFinish, hc, hs]
            obtain ⟨a, b, c, d⟩ := hfold
            exact ⟨a, b, c, d.trans (List.prefix_append _ _)⟩

/-- A successful `_stop_comp` leaves the component in the `_stopped`
memo list. -/
theorem stopComp_success_mem (f : Nat) (st : Application) (n : String)
    (h : (Application.stopComp f st n).2 = none) :
    n ∈ (Application.stopComp f st n).1.stopped := by
  match f with
  | 0 => simp [Application.stopComp] at h
  | f + 1 =>
    rw [Application.stopComp] at h ⊢
    by_cases hmem : n ∈ st.stopped
    · rw [if_pos hmem] at h ⊢; exact hmem
    · rw [if_neg hmem] at h ⊢
      obtain ⟨st2, err, hres⟩ :
          ∃ st2 err, ((st.depsOf n).foldl
            (fun acc dep =>
              match acc.2 with
              | some _ => acc
              | none => Application.stopComp f acc.1 dep) (st, none)) = (st2, err) :=
        ⟨_, _, rfl⟩
      rw [hres] at h ⊢
      cases err with
      | some e => simp [Application.stopFinish] at h
      | none =>
        cases hc : st2.compOf n with
        | none => simp [Application.stopFinish, hc] at h
        | some comp =>
          cases hs : comp.stopErr with
          | some e => simp [Application.stopFinish, hc, hs] at h
          | none => simp [Application.stopFinish, hc, hs]

/-- One step of the `stop` walk preserves the frame. -/
theorem stopStep_frame (st : Application) (acc : Application × Option PyErr)
    (d : String) (hacc : FrameOf st acc) : FrameOf st (stopStep acc d) := by
  rcases acc with ⟨st1, err⟩
  cases err with
  | some e => exact hacc
  | none => exact frameOf_trans hacc (stopComp_frame _ st1 d)

/-- A pending exception freezes the rest of the `stop` walk. -/
theorem foldl_stopStep_stuck (l : List String) :
    ∀ (acc : Application × Option PyErr) (e : PyErr), acc.2 = some e →
      l.foldl stopStep acc = acc := by
  induction l with
  | nil => intro acc e _; rfl
  | cons d l ih =>
    intro acc e h
    have hstep : stopStep acc d = acc := by
      rcases acc with ⟨st1, err⟩
      cases err with
      | some e2 => rfl
      | none => simp at h
    rw [List.foldl_cons, hstep]
    exact ih acc e h

/-- If the `stop` walk ends without an exception, it also started
without one. -/
theorem foldl_stopStep_none (l : List String) (acc : Application × Option PyErr)
    (h : (l.foldl stopStep acc).2 = none) : acc.2 = none := by
  cases hacc : acc.2 with
  | none => rfl
  | some e => rw [foldl_stopStep_stuck l acc e hacc] at h; rw [h] at hacc; cases hacc

/-- On a clean `stop` walk every walked component ends up in the
`_stopped` memo list. -/
theorem foldl_stopStep_mem (l : List String) :
    ∀ (acc : Application × Option PyErr),
      (l.foldl stopStep acc).2 = none →
      ∀ n ∈ l, n ∈ (l.foldl stopStep acc).1.stopped := by
  induction l with
  | nil => intro acc _ n hn; cases hn
  | cons d l ih =>
    intro acc h n hn
    rw [List.foldl_cons] at h ⊢
    cases hn with
    | head =>
      have hs1 : (stopStep acc d).2 = none := foldl_stopStep_none l _ h
      have hacc : acc.2 = none := by
        cases hacc : acc.2 with
        | none => rfl
        | some e =>
          have : stopStep acc d = acc := by
            rcases acc with ⟨st1, err⟩
            cases err with
            | some e2 => rfl
            | none => simp at hacc
          rw [this] at hs1; rw [hs1] at hacc; cases hacc
      have hstep : stopStep acc d
          = Application.stopComp acc.1.components.length acc.1 d := by
        unfold stopStep; rw [hacc]
      have hmem : d ∈ (stopStep acc d).1.stopped := by
        rw [hstep] at hs1 ⊢
        exact stopComp_success_mem _ _ _ hs1
      have hframe : FrameOf (stopStep acc d).1 (l.foldl stopStep (stopStep acc d)) :=
        foldl_frame _ stopStep (stopStep_frame _) l _ (FrameOf.self _)
      exact hframe.2.2.2.sublist.subset hmem
    | tail _ hn => exact ih (stopStep acc d) h n hn

/-- An application whose component `b` raises on stop. -/
def app6 : Application :=
  { components := [("a", { stopErr := none }),
                   ("b", { stopErr := some (PyErr.exception "boom") })],
    stop_deps := [("a", []), ("b", [])], stopped := [], loggerStopped := false }

/-- C6 counterexample: `Application.stop()` does not always return
normally: with component `b` raising on stop, the exception propagates
out of `stop()`, the logger is not stopped, and only `a` (stopped
before the failure) is recorded as stopped. -/
theorem C6_stop_counterexample :
    (Application.stop app6).2 = some (PyErr.exception "boom") ∧
    (Application.stop app6).1.loggerStopped = false ∧
    (Application.stop app6).1.stopped = ["a"] := by
  refine ⟨by decide, by decide, by decide⟩

/-- C6 amended: `Application.stop()` catches nothing: when every
component's stop returns normally, `stop()` returns normally, every
registered component is recorded as stopped and the logger is stopped;
when some component's stop raises, the exception propagates out of
`Application.stop()`, the logger is not stopped, the component mapping
is unchanged and only components stopped before the failure are added
to the stopped record. -/
theorem C6_stop_error_propagates (app : Application) :
    ((Application.stop app).2 = none →
      (Application.stop app).1.loggerStopped = true ∧
      ∀ n ∈ app.names, n ∈ (Application.stop app).1.stopped) ∧
    (∀ e, (Application.stop app).2 = some e →
      (Application.stop app).1.loggerStopped = app.loggerStopped ∧
      (Application.stop app).1.components = app.components ∧
      app.stopped <+: (Application.stop app).1.stopped) := by
  unfold Application.stop
  obtain ⟨st2, err, hres⟩ :
      ∃ st2 err, app.names.foldl stopStep (app, none) = (st2, err) := ⟨_, _, rfl⟩
  have hframe : FrameOf app (app.names.foldl stopStep (app, none)) :=
    foldl_frame app stopStep (stopStep_frame app) _ _ (frameOf_refl app none)
  have hmem := foldl_stopStep_mem app.names (app, none)
  rw [hres] at hframe hmem ⊢
  cases err with
  | none =>
    constructor
    · intro _
      refine ⟨rfl, ?_⟩
      intro n hn
      simpa [Application.stopWrap] using hmem rfl n hn
    · intro e he
      simp [Application.stopWrap] at he
  | some e2 =>
    constructor
    · intro he; simp [Application.stopWrap] at he
    · intro e he
      obtain ⟨ha, hb, hc, hd⟩ := hframe
      exact ⟨hc, ha, hd⟩

/-- C6 witness: the amended theorem applied to the concrete failing
application `app6`. -/
theorem C6_stop_error_propagates_witness :
    ((Application.stop app6).2 = some (PyErr.exception "boom")) ∧
    ((Application.stop app6).1.loggerStopped = app6.loggerStopped ∧
      (Application.stop app6).1.components = app6.components ∧
      app6.stopped <+: (Application.stop app6).1.stopped) :=
  ⟨by decide, (C6_stop_error_propagates app6).2 (PyErr.exception "boom") (by decide)⟩

/-! ### C2: B3 header round trip, `ipapp/logger/span.py` lines 74-113.

`Span.to_headers` emits the B3 headers, `Span.from_headers` parses
them back.  Python dicts over header names are association lists with
first-occurrence update; `headers = {k.lower(): v for k, v in
headers.items()}` is a fold of such inserts.  The aiozipkin helpers
(`azh.TRACE_ID_HEADER` and friends, `azh.parse_sampled_header`) and
the id generators (`azu.generate_random_…`) are external; the header
constants and the sampled parser are modelled from aiozipkin, and the
generated fresh ids are passed as explicit arguments (the claim's
conclusions do not depend on their values). -/

def TRACE_ID_HEADER : String := "X-B3-TraceId"

def SPAN_ID_HEADER : String := "X-B3-SpanId"

def PARENT_ID_HEADER : String := "X-B3-ParentSpanId"

def FLAGS_HEADER : String := "X-B3-Flags"

def SAMPLED_ID_HEADER : String := "X-B3-Sampled"

/-- Python dict insert: overwrite the first binding of the key in
place, else append. -/
def dictInsert (d : List (String × String)) (k v : String) :
    List (String × String) :=
  if d.any (fun p => p.1 == k) then
    d.map (fun p => if p.1 == k then (k, v) else p)
  else d ++ [(k, v)]

/-- Python dict lookup (`headers.get(k)`). -/
def dictGet (d : List (String × String)) (k : String) : Option String :=
  (d.find? (fun p => p.1 == k)).map Prod.snd

/-- Python `str.lower` restricted to ASCII, which covers the header
names involved. -/
def strLower (s : String) : String := String.mk (s.data.map Char.toLower)

/-- `{k.lower(): v for k, v in headers.items()}`. -/
def lowerDict (h : List (String × String)) : List (String × String) :=
  h.foldl (fun d p => dictInsert d (strLower p.1) p.2) []

theorem strLower_traceId : strLower "X-B3-TraceId" = "x-b3-traceid" := rfl

theorem strLower_spanId : strLower "X-B3-SpanId" = "x-b3-spanid" := rfl

theorem strLower_parentId : strLower "X-B3-ParentSpanId" = "x-b3-parentspanid" := rfl

theorem strLower_flags : strLower "X-B3-Flags" = "x-b3-flags" := rfl

theorem strLower_sampled : strLower "X-B3-Sampled" = "x-b3-sampled" := rfl

/-- The identifier/flag state of a span as used by the header round
trip: `trace_id`, `id`, `parent_id` and the `_skip` flag. -/
structure B3Span where
  trace_id : String
  id : String
  parent_id : Option String
  skip : Bool
  deriving DecidableEq, Repr

/-- `Span.to_headers`, lines 74-83: trace id, span id, flags `0`,
sampled `'1' if not self._skip else '0'`, plus the parent id when
present. -/
def B3Span.to_headers (s : B3Span) : List (String × String) :=
  [(TRACE_ID_HEADER, s.trace_id), (SPAN_ID_HEADER, s.id),
   (FLAGS_HEADER, "0"), (SAMPLED_ID_HEADER, if s.skip then "0" else "1")]
  ++ (match s.parent_id with
      | some p => [(PARENT_ID_HEADER, p)]
      | none => [])

/-- Modelled from aiozipkin (`azh.parse_sampled_header`, an external
dependency of `ipapp/logger/span.py`): the lower-cased sampled header,
absent or empty means undecided, `"1"` means sampled, anything else
means not sampled. -/
def parse_sampled_header (h : List (String × String)) : Option Bool :=
  match dictGet h (strLower SAMPLED_ID_HEADER) with
  | none => none
  | some "" => none
  | some s => some (s == "1")

/-- `Span.from_headers`, lines 85-113: lower-case the keys, parse the
sampled flag; a missing trace id header gives a fresh root via
`cls.new()` (which raises `UserWarning` without an ambient app), an
empty trace id value is replaced by a fresh one; otherwise the new
span keeps the incoming trace id, gets a fresh span id, and its
`parent_id` is the incoming span id header; `Sampled = 0` skips the
fresh span.  `appBound` is whether `misc.ctx_app_get()` returns an
application; `freshTraceId`/`freshSpanId` stand for the two random id
generators. -/
def B3Span.from_headers (headers : Option (List (String × String)))
    (appBound : Bool) (freshTraceId : String) (freshSpanId : String) :
    Except PyErr B3Span :=
  let h := match headers with
    | some hs => lowerDict hs
    | none => []
  let sampled := parse_sampled_header h
  let base : Except PyErr B3Span :=
    match dictGet h (strLower TRACE_ID_HEADER) with
    | none =>
        if appBound then Except.ok ⟨freshTraceId, freshSpanId, none, false⟩
        else Except.error (PyErr.userWarning "")
    | some t =>
        if appBound then
          Except.ok ⟨if t = "" then freshTraceId else t, freshSpanId,
                     dictGet h (strLower SPAN_ID_HEADER), false⟩
        else Except.error (PyErr.userWarning "")
  match base with
  | Except.ok sp =>
      Except.ok (if sampled = some false then { sp with skip := true } else sp)
  | e => e

/-- C2: for every span with a non-empty trace id (every creation path
of the source — `Span.new`, `Span.new_child`, `Span.from_headers` —
produces non-empty random hex ids), parsing its emitted headers while
an ambient application is bound yields a span with the same trace id,
with `parent_id` equal to the original span's id, and with the skip
flag preserved. -/
theorem C2_header_roundtrip (s : B3Span) (hT : s.trace_id ≠ "")
    (ft f64 : String) :
    B3Span.from_headers (some (B3Span.to_headers s)) true ft f64
      = Except.ok { trace_id := s.trace_id, id := f64,
                    parent_id := some s.id, skip := s.skip } := by
  rcases s with ⟨tid, sid, pid, skip⟩
  simp only at hT
  cases pid with
  | none =>
    cases skip with
    | false =>
      simp [B3Span.from_headers, B3Span.to_headers, lowerDict, dictInsert,
        dictGet, parse_sampled_header, TRACE_ID_HEADER, SPAN_ID_HEADER,
        FLAGS_HEADER, SAMPLED_ID_HEADER, PARENT_ID_HEADER, hT,
        strLower_traceId, strLower_spanId, strLower_parentId,
        strLower_flags, strLower_sampled]
    | true =>
      simp [B3Span.from_headers, B3Span.to_headers, lowerDict, dictInsert,
        dictGet, parse_sampled_header, TRACE_ID_HEADER, SPAN_ID_HEADER,
        FLAGS_HEADER, SAMPLED_ID_HEADER, PARENT_ID_HEADER, hT,
        strLower_traceId, strLower_spanId, strLower_parentId,
        strLower_flags, strLower_sampled]
  | some p =>
    cases skip with
    | false =>
      simp [B3Span.from_headers, B3Span.to_headers, lowerDict, dictInsert,
        dictGet, parse_sampled_header, TRACE_ID_HEADER, SPAN_ID_HEADER,
        FLAGS_HEADER, SAMPLED_ID_HEADER, PARENT_ID_HEADER, hT,
        strLower_traceId, strLower_spanId, strLower_parentId,
        strLower_flags, strLower_sampled]
    | true =>
      simp [B3Span.from_headers, B3Span.to_headers, lowerDict, dictInsert,
        dictGet, parse_sampled_header, TRACE_ID_HEADER, SPAN_ID_HEADER,
        FLAGS_HEADER, SAMPLED_ID_HEADER, PARENT_ID_HEADER, hT,
        strLower_traceId, strLower_spanId, strLower_parentId,
        strLower_flags, strLower_sampled]

/-- C2 witness: the round trip at a concrete span. -/
theorem C2_header_roundtrip_witness :
    ((B3Span.mk "abc" "def" none false).trace_id ≠ "") ∧
    B3Span.from_headers (some (B3Span.to_headers (B3Span.mk "abc" "def" none false)))
        true "t128" "s64"
      = Except.ok { trace_id := "abc", id := "s64",
                    parent_id := some "def", skip := false } :=
  ⟨by decide, C2_header_roundtrip (B3Span.mk "abc" "def" none false) (by decide) "t128" "s64"⟩

/-! ### C9: URL secret masking, `ipapp/http/_base.py` lines 11-23.

`ClientServerAnnotator._mask_url` iterates over the query items of a
yarl `URL` and replaces the value of every parameter whose name
matches `RE_SECRET_WORDS` (a `re.match`, i.e. prefix match, case
insensitive) with `***` via `url.update_query`, then returns `str(url)`.

A yarl URL is modelled by its non-query part and its decoded query
multidict (an ordered list of key/value pairs); `update_query` with a
single-key mapping replaces the first binding of the key in place,
drops further bindings of that key, and appends when absent (yarl
builds `MultiDict(self.query)` and `update`s it).  `str(url)`
serializes the query back with percent-encoding of the separator
characters.  yarl's parse/serialize pair is the identity on the
normalized URLs that `update_query` produces, so masking the emitted
string again is masking the resulting URL object again. -/

/-- Tail `o?r?d` of the secret regex; `o`, `r`, `d` are distinct so the
greedy reading of the optional letters is exact.  The three optional
layers are merged into one matcher. -/
def matchPasswdORD : List Char → Bool
  | 'o' :: 'r' :: 'd' :: _ => true
  | 'o' :: 'd' :: _ => true
  | 'r' :: 'd' :: _ => true
  | 'd' :: _ => true
  | _ => false

/-- Tail of the secret regex after `pas`: more `s`, then `w`, then
`o?r?d`. -/
def matchPasswdS : List Char → Bool
  | 's' :: rest => matchPasswdS rest
  | 'w' :: rest => matchPasswdORD rest
  | _ => false

/-- The alternative `pas+wo?r?d` of `RE_SECRET_WORDS` as a prefix
matcher on lower-cased characters. -/
def matchPasswd : List Char → Bool
  | 'p' :: 'a' :: 's' :: rest => matchPasswdS rest
  | _ => false

/-- `RE_SECRET_WORDS.match(key)`: the case-insensitive prefix match of
`(pas+wo?r?d|pass(phrase)?|pwd|token|secrete?)`.  For a prefix match
the trailing optional groups `(phrase)?` and `e?` are irrelevant, so
those alternatives reduce to the prefixes `pass` and `secret`. -/
def RE_SECRET_WORDS_match (s : String) : Bool :=
  let l := s.data.map Char.toLower
  matchPasswd l || "pass".toList.isPrefixOf l || "pwd".toList.isPrefixOf l
    || "token".toList.isPrefixOf l || "secret".toList.isPrefixOf l

/-- A yarl URL: everything before the query string, plus the decoded
query multidict in order. -/
structure Url where
  rest : String
  query : List (String × String)
  deriving DecidableEq, Repr

/-- `MultiDict.update({k: v})` as performed by `URL.update_query`:
replace the first binding of `k` in place, drop its further bindings,
append if absent. -/
def updatePairs : List (String × String) → String → String → List (String × String)
  | [], k, v => [(k, v)]
  | p :: ps, k, v =>
    if p.1 = k then (k, v) :: ps.filter (fun q => !(q.1 == k))
    else p :: updatePairs ps k v

/-- `url.update_query({key: '***'})` (value generalized). -/
def Url.update_query (u : Url) (k v : String) : Url :=
  { u with query := updatePairs u.query k v }

/-- One iteration of the `for key, val in url.query.items()` loop of
`_mask_url`. -/
def mask_query_step (u : Url) (p : String × String) : Url :=
  if RE_SECRET_WORDS_match p.1 then u.update_query p.1 "***" else u

/-- The URL object accumulated by `_mask_url`: the loop iterates over
the snapshot `url.query.items()` of the original URL while rebinding
`url`. -/
def mask_url_obj (u : Url) : Url := u.query.foldl mask_query_step u

/-- Upper-case hexadecimal digit. -/
def hexDigitU (n : Nat) : Char :=
  if n < 10 then Char.ofNat (48 + n) else Char.ofNat (55 + n)

/-- Percent-encoding of the query-string separator characters used
when serializing the query back into `str(url)`. -/
def urlEncodeChar (c : Char) : List Char :=
  if c = Char.ofNat 38 || c = Char.ofNat 61 || c = Char.ofNat 63
      || c = Char.ofNat 35 || c = Char.ofNat 37 || c = Char.ofNat 43
      || c = Char.ofNat 32 then
    [Char.ofNat 37, hexDigitU (c.toNat / 16), hexDigitU (c.toNat % 16)]
  else [c]

/-- Percent-encoding of one query component. -/
def urlEncodeStr (s : String) : String :=
  String.mk ((s.data.map urlEncodeChar).flatten)

/-- `str(url)`. -/
def urlToString (u : Url) : String :=
  u.rest ++
    (if u.query.isEmpty then ""
     else "?" ++ String.intercalate "&"
        (u.query.map (fun p => urlEncodeStr p.1 ++ "=" ++ urlEncodeStr p.2)))

/-- `ClientServerAnnotator._mask_url`. -/
def mask_url (u : Url) : String := urlToString (mask_url_obj u)

/-- A key is clean in a query when it is bound exactly once and its
value is `***`. -/
def cleanKey (q : List (String × String)) (k : String) : Prop :=
  q.countP (fun p => p.1 == k) = 1 ∧ ∀ p ∈ q, p.1 = k → p.2 = "***"

/-- Every pair of an updated query comes from the old query or is the
inserted binding. -/
theorem updatePairs_mem :
    ∀ (q : List (String × String)) (k v : String) (p : String × String),
      p ∈ updatePairs q k v → p ∈ q ∨ p = (k, v) := by
  intro q k v
  induction q with
  | nil => intro p hp; simp [updatePairs] at hp; exact Or.inr hp
  | cons a q ih =>
    intro p hp
    rw [updatePairs] at hp
    by_cases ha : a.1 = k
    · rw [if_pos ha] at hp
      cases hp with
      | head => exact Or.inr rfl
      | tail _ hp => exact Or.inl (List.mem_cons_of_mem a (List.mem_of_mem_filter hp))
    · rw [if_neg ha] at hp
      cases hp with
      | head => exact Or.inl (List.mem_cons_self a q)
      | tail _ hp =>
        rcases ih p hp with h | h
        · exact Or.inl (List.mem_cons_of_mem a h)
        · exact Or.inr h

/-- After an update the key is bound exactly once, to the new value. -/
theorem updatePairs_clean (v : String) :
    ∀ (q : List (String × String)) (k : String),
      (updatePairs q k v).countP (fun p => p.1 == k) = 1 ∧
      ∀ p ∈ updatePairs q k v, p.1 = k → p = (k, v) := by
  intro q
  induction q with
  | nil =>
    intro k
    constructor
    · simp [updatePairs, List.countP_cons]
    · intro p hp _; simpa [updatePairs] using hp
  | cons a q ih =>
    intro k
    rw [updatePairs]
    by_cases ha : a.1 = k
    · rw [if_pos ha]
      constructor
      · rw [List.countP_cons]
        have hz : (q.filter (fun p => !(p.1 == k))).countP (fun p => p.1 == k) = 0 := by
          rw [List.countP_eq_zero]
          intro p hp
          have := List.of_mem_filter hp
          simpa using this
        simp [List.countP_cons, hz]
      · intro p hp hk
        cases hp with
        | head => rfl
        | tail _ hp =>
          have hnk := List.of_mem_filter hp
          simp at hnk
          exact absurd hk hnk
    · rw [if_neg ha]
      constructor
      · rw [List.countP_cons]
        simp [ha, (ih k).1]
      · intro p hp hk
        cases hp with
        | head => exact absurd hk ha
        | tail _ hp => exact (ih k).2 p hp hk

/-- Filtering on a different key commutes with dropping a key. -/
theorem filter_other_key (k k' : String) (hne : k' ≠ k) :
    ∀ (q : List (String × String)),
      (q.filter (fun p => !(p.1 == k))).filter (fun p => p.1 == k')
        = q.filter (fun p => p.1 == k') := by
  have hkk : ¬(k = k') := fun h => hne h.symm
  have hkk2 : ¬(k' = k) := hne
  intro q
  induction q with
  | nil => rfl
  | cons a q ih =>
    by_cases ha : a.1 = k
    · have ha' : ¬(a.1 = k') := fun h => hne (by rw [← h, ha])
      simp [List.filter_cons, ha, ha', ih, hkk, hkk2]
    · by_cases ha' : a.1 = k'
      · simp [List.filter_cons, ha, ha', ih, hkk, hkk2]
      · simp [List.filter_cons, ha, ha', ih, hkk, hkk2]

/-- An update of one key preserves the bindings of every other key. -/
theorem updatePairs_other (k k' v : String) (hne : k' ≠ k) :
    ∀ (q : List (String × String)),
      (updatePairs q k v).filter (fun p => p.1 == k')
        = q.filter (fun p => p.1 == k') := by
  have hkk : ¬(k = k') := fun h => hne h.symm
  intro q
  induction q with
  | nil => simp [updatePairs, List.filter_cons, hkk]
  | cons a q ih =>
    rw [updatePairs]
    by_cases ha : a.1 = k
    · rw [if_pos ha]
      have ha' : ¬(a.1 = k') := fun h => hne (by rw [← h, ha])
      simp only [List.filter_cons]
      simp [hkk, ha', filter_other_key k k' hne q]
    · rw [if_neg ha]
      simp only [List.filter_cons]
      by_cases ha' : a.1 = k'
      · simp [ha', ih]
      · simp [ha', ih]

/-- Cleanliness of other keys survives an update. -/
theorem cleanKey_update (q : List (String × String)) (k k' v : String)
    (hne : k' ≠ k) (hc : cleanKey q k') : cleanKey (updatePairs q k v) k' := by
  obtain ⟨h1, h2⟩ := hc
  constructor
  · rw [List.countP_eq_length_filter, updatePairs_other k k' v hne,
      ← List.countP_eq_length_filter]
    exact h1
  · intro p hp hk
    rcases updatePairs_mem q k v p hp with h | h
    · exact h2 p h hk
    · exfalso
      rw [h] at hk
      exact hne hk.symm

/-- Updating an already clean key with `***` changes nothing. -/
theorem updatePairs_id (k : String) :
    ∀ (q : List (String × String)), cleanKey q k → updatePairs q k "***" = q := by
  intro q
  induction q with
  | nil => intro hc; simpa [cleanKey] using hc.1
  | cons a q ih =>
    intro hc
    obtain ⟨h1, h2⟩ := hc
    rw [updatePairs]
    by_cases ha : a.1 = k
    · rw [if_pos ha]
      have hval : a.2 = "***" := h2 a (List.mem_cons_self a q) ha
      have hz : q.countP (fun p => p.1 == k) = 0 := by
        rw [List.countP_cons] at h1
        simpa [ha] using h1
      have hfq : q.filter (fun p => !(p.1 == k)) = q := by
        rw [List.filter_eq_self]
        intro p hp
        rw [List.countP_eq_zero] at hz
        simpa using hz p hp
      rw [hfq]
      rw [← ha, ← hval]
    · rw [if_neg ha]
      have : cleanKey q k := by
        constructor
        · rw [List.countP_cons] at h1; simpa [ha] using h1
        · intro p hp hk; exact h2 p (List.mem_cons_of_mem a hp) hk
      rw [ih this]

/-- A fold whose step fixes the accumulator is the identity. -/
theorem foldl_fixed {α β : Type} (f : β → α → β) (u : β) :
    ∀ (l : List α), (∀ p ∈ l, f u p = u) → l.foldl f u = u := by
  intro l
  induction l with
  | nil => intro _; rfl
  | cons a l ih =>
    intro h
    rw [List.foldl_cons, h a (List.mem_cons_self a l)]
    exact ih (fun p hp => h p (List.mem_cons_of_mem a hp))

/-- Main invariant of the `_mask_url` loop: every secret key bound in
the final query is either still to be processed or already clean, so
at the end every bound secret key is clean. -/
theorem mask_fold_clean :
    ∀ (l : List (String × String)) (acc : Url),
      (∀ k, (∃ p ∈ acc.query, p.1 = k) → RE_SECRET_WORDS_match k = true →
        (k ∈ l.map Prod.fst ∨ cleanKey acc.query k)) →
      ∀ k, (∃ p ∈ (l.foldl mask_query_step acc).query, p.1 = k) →
        RE_SECRET_WORDS_match k = true →
        cleanKey (l.foldl mask_query_step acc).query k := by
  intro l
  induction l with
  | nil =>
    intro acc h k hk hsec
    rcases h k hk hsec with h | h
    · cases h
    · exact h
  | cons p l ih =>
    intro acc h k hk hsec
    rw [List.foldl_cons] at hk ⊢
    refine ih (mask_query_step acc p) ?_ k hk hsec
    intro k2 hk2 hsec2
    unfold mask_query_step at hk2 ⊢
    by_cases hps : RE_SECRET_WORDS_match p.1 = true
    · rw [if_pos hps] at hk2 ⊢
      by_cases hkp : k2 = p.1
      · right
        subst hkp
        obtain ⟨hcount, hval⟩ := updatePairs_clean "***" acc.query p.1
        exact ⟨hcount, fun q hq hq1 => by rw [hval q hq hq1]⟩
      · obtain ⟨q2, hq2, hq2k⟩ := hk2
        rcases updatePairs_mem acc.query p.1 "***" q2 hq2 with hmem | heq
        · rcases h k2 ⟨q2, hmem, hq2k⟩ hsec2 with hin | hclean
          · left
            rw [List.map_cons] at hin
            cases hin with
            | head => exact absurd rfl hkp
            | tail _ hin => exact hin
          · right
            exact cleanKey_update acc.query p.1 k2 "***" hkp hclean
        · exfalso
          apply hkp
          rw [heq] at hq2k
          exact hq2k.symm
    · rw [if_neg hps] at hk2 ⊢
      rcases h k2 hk2 hsec2 with hin | hclean
      · rw [List.map_cons] at hin
        cases hin with
        | head => exact absurd hsec2 hps
        | tail _ hin => exact Or.inl hin
      · exact Or.inr hclean

/-- After one `_mask_url` pass every bound secret key is clean. -/
theorem mask_url_obj_clean (u : Url) :
    ∀ k, (∃ p ∈ (mask_url_obj u).query, p.1 = k) →
      RE_SECRET_WORDS_match k = true → cleanKey (mask_url_obj u).query k := by
  intro k hk hsec
  refine mask_fold_clean u.query u ?_ k hk hsec
  intro k2 hk2 _
  left
  obtain ⟨p, hp, hpk⟩ := hk2
  exact hpk ▸ List.mem_map_of_mem Prod.fst hp

/-- The `_mask_url` loop is idempotent on the URL object. -/
theorem mask_url_obj_idem (u : Url) :
    mask_url_obj (mask_url_obj u) = mask_url_obj u := by
  unfold mask_url_obj
  refine foldl_fixed mask_query_step (mask_url_obj u) _ ?_
  intro p hp
  unfold mask_query_step
  by_cases hps : RE_SECRET_WORDS_match p.1 = true
  · rw [if_pos hps]
    have hclean := mask_url_obj_clean u p.1 ⟨p, hp, rfl⟩ hps
    unfold Url.update_query
    rw [updatePairs_id p.1 (mask_url_obj u).query hclean]
  · rw [if_neg hps]

/-- C9: URL secret masking is idempotent: masking the URL object that
the first `_mask_url` pass produced (which is what re-parsing the
returned string yields, yarl's parse/serialize being the identity on
normalized URLs) returns the same string as the first pass.  Masking
replaces the value of every query parameter whose name prefix-matches
the case-insensitive secret-word regex with `***`. -/
theorem C9_mask_url_idempotent (u : Url) :
    mask_url (mask_url_obj u) = mask_url u := by
  unfold mask_url
  rw [mask_url_obj_idem]

/-! ### C3, C7, C10: the distributed lock, `ipapp/utils/lock.py`.

`Lock.acquire` (lines 120-145) loops: create a future, append it to
`self.waiters[key]` (creating the entry), `SET key 1 PX ttl NX`; on
success return, otherwise `asyncio.wait_for(fut, est)` and loop; the
`finally` of every iteration removes the future and pops the entry
when empty.  `Lock.release` (lines 147-151) is `DEL key` then
`PUBLISH 'locks' key`; the `_reader` task (lines 158-163) resolves
*every* waiting future of the published key.

The concurrent execution is a small-step machine over explicit event
traces.  Each potential caller of `acquire` is a record with its key
and timeout argument; its `phase` tracks the coroutine's position:

* `notArrived`: has not called `acquire` yet;
* `sentSet r`: future appended, `SET … NX` round trip in flight
  (`r` is whether `_reader` already resolved the future meanwhile);
* `waiting`: the `SET` lost and `wait_for` awaits the unresolved
  future;
* `woken`: the future was resolved; the continuation (the `finally`
  and the next loop iteration) has not run yet;
* `acquired` / `timedOut` / `failed`: the call completed by returning,
  raising `TimeoutError`, or raising another exception out of
  `redis.execute`.

Events: `arrive c` (the caller enters the loop and sends its `SET`),
`procSet c` (redis answers that `SET`), `setFail c` (`redis.execute`
raises), `timeoutFire c` (`wait_for` gives up — only possible while
the future is unresolved and the deadline has passed; the recomputed
`est` keeps the absolute deadline `start_time + timeout` of the
source), `retry c` (the woken continuation runs its `finally` and next
iteration), `redisDel k` / `redisPub k` (the two awaits of `release`),
`readerStep` (`_reader` consumes one published message; resolving an
already-resolved future would raise `InvalidStateError` in the reader
task, so the step requires all of the key's futures unresolved), and
`tick` (time).  Timeouts are naturals; `timeout or default_timeout`
follows Python truthiness (0 means the default). -/

inductive CallerPhase where
  | notArrived
  | sentSet (resolved : Bool)
  | waiting
  | woken
  | acquired
  | timedOut
  | failed
  deriving DecidableEq, Repr

/-- One potential `acquire` caller. `deadline` and `seq` (arrival
order stamp) are meaningful once the caller has arrived. -/
structure CallerRec where
  key : String
  timeout : Option Nat
  phase : CallerPhase
  deadline : Nat
  seq : Nat
  deriving DecidableEq, Repr

/-- State of one `Lock` component plus its redis: the callers, the
`self.waiters` dict (key, list of futures identified by caller index),
the set of redis keys currently held, the published wake-up messages
not yet consumed by `_reader`, the clock, and the arrival counter. -/
structure LockSys where
  defaultTimeout : Nat
  callers : List CallerRec
  waiters : List (String × List Nat)
  held : List String
  pubs : List String
  now : Nat
  arrivals : Nat
  deriving DecidableEq, Repr

/-- `timeout or self.cfg.default_timeout` (Python truthiness: `None`
and `0` both select the default). -/
def effTimeout (timeout : Option Nat) (dflt : Nat) : Nat :=
  match timeout with
  | none => dflt
  | some t => if t = 0 then dflt else t

/-- `self.waiters[key]` (first — and in a dict only — binding). -/
def wlookup (w : List (String × List Nat)) (k : String) : Option (List Nat) :=
  (w.find? (fun p => p.1 == k)).map Prod.snd

/-- `if key not in self.waiters: self.waiters[key] = []` followed by
`self.waiters[key].append(fut)`. -/
def wappend : List (String × List Nat) → String → Nat → List (String × List Nat)
  | [], k, c => [(k, [c])]
  | p :: ps, k, c =>
    if p.1 = k then (p.1, p.2 ++ [c]) :: ps else p :: wappend ps k c

/-- `self.waiters[key].remove(fut)` followed by popping the entry when
its list became empty (lines 143-145). -/
def wremove : List (String × List Nat) → String → Nat → List (String × List Nat)
  | [], _, _ => []
  | p :: ps, k, c =>
    if p.1 = k then
      if (p.2.erase c).isEmpty then ps else (p.1, p.2.erase c) :: ps
    else p :: wremove ps k c

/-- `fut.set_result(None)` on one waiter of the published key. -/
def wakeOne (cs : List CallerRec) (c : Nat) : List CallerRec :=
  match cs.get? c with
  | none => cs
  | some r =>
    match r.phase with
    | CallerPhase.sentSet _ => cs.set c { r with phase := CallerPhase.sentSet true }
    | CallerPhase.waiting => cs.set c { r with phase := CallerPhase.woken }
    | _ => cs

/-- Whether the caller's future is unresolved (so that `set_result`
does not raise `InvalidStateError`). -/
def unresolvedFut (cs : List CallerRec) (c : Nat) : Bool :=
  match (cs.get? c).map CallerRec.phase with
  | some (CallerPhase.sentSet false) => true
  | some CallerPhase.waiting => true
  | _ => false

inductive LockEvent where
  | arrive (c : Nat)
  | procSet (c : Nat)
  | setFail (c : Nat)
  | timeoutFire (c : Nat)
  | retry (c : Nat)
  | redisDel (k : String)
  | redisPub (k : String)
  | readerStep
  | tick
  deriving DecidableEq, Repr

/-- One scheduler step; `none` when the event is not enabled. -/
def applyEvent : LockEvent → LockSys → Option LockSys
  | LockEvent.arrive c, s =>
    match s.callers.get? c with
    | some r =>
      match r.phase with
      | CallerPhase.notArrived =>
        some { s with
          callers := s.callers.set c
            { r with phase := CallerPhase.sentSet false,
                     deadline := s.now + effTimeout r.timeout s.defaultTimeout,
                     seq := s.arrivals },
          waiters := wappend s.waiters r.key c,
          arrivals := s.arrivals + 1 }
      | _ => none
    | none => none
  | LockEvent.procSet c, s =>
    match s.callers.get? c with
    | some r =>
      match r.phase with
      | CallerPhase.sentSet res =>
        if r.key ∈ s.held then
          if res then
            some { s with
              callers := s.callers.set c { r with phase := CallerPhase.sentSet false },
              waiters := wappend (wremove s.waiters r.key c) r.key c }
          else
            some { s with
              callers := s.callers.set c { r with phase := CallerPhase.waiting } }
        else
          some { s with
            callers := s.callers.set c { r with phase := CallerPhase.acquired },
            waiters := wremove s.waiters r.key c,
            held := s.held ++ [r.key] }
      | _ => none
    | none => none
  | LockEvent.setFail c, s =>
    match s.callers.get? c with
    | some r =>
      match r.phase with
      | CallerPhase.sentSet _ =>
        some { s with
          callers := s.callers.set c { r with phase := CallerPhase.failed },
          waiters := wremove s.waiters r.key c }
      | _ => none
    | none => none
  | LockEvent.timeoutFire c, s =>
    match s.callers.get? c with
    | some r =>
      match r.phase with
      | CallerPhase.waiting =>
        if r.deadline ≤ s.now then
          some { s with
            callers := s.callers.set c { r with phase := CallerPhase.timedOut },
            waiters := wremove s.waiters r.key c }
        else none
      | _ => none
    | none => none
  | LockEvent.retry c, s =>
    match s.callers.get? c with
    | some r =>
      match r.phase with
      | CallerPhase.woken =>
        some { s with
          callers := s.callers.set c { r with phase := CallerPhase.sentSet false },
          waiters := wappend (wremove s.waiters r.key c) r.key c }
      | _ => none
    | none => none
  | LockEvent.redisDel k, s => some { s with held := s.held.erase k }
  | LockEvent.redisPub k, s => some { s with pubs := s.pubs ++ [k] }
  | LockEvent.readerStep, s =>
    match s.pubs with
    | [] => none
    | k :: rest =>
      match wlookup s.waiters k with
      | none => some { s with pubs := rest }
      | some l =>
        if l.all (unresolvedFut s.callers) then
          some { s with pubs := rest, callers := l.foldl wakeOne s.callers }
        else none
  | LockEvent.tick, s => some { s with now := s.now + 1 }

/-- Run a trace of events. -/
def runLock (evs : List LockEvent) (s : LockSys) : Option LockSys :=
  evs.foldl (fun acc e => acc.bind (applyEvent e)) (some s)

/-- Initial state: no caller has arrived, the waiters map is empty,
nothing is held or published. -/
def initLock (dflt : Nat) (specs : List (String × Option Nat)) : LockSys :=
  { defaultTimeout := dflt,
    callers := specs.map (fun p =>
      { key := p.1, timeout := p.2, phase := CallerPhase.notArrived,
        deadline := 0, seq := 0 }),
    waiters := [], held := [], pubs := [], now := 0, arrivals := 0 }

theorem get?_set_self {α : Type} (l : List α) (i : Nat) (a b : α)
    (h : l.get? i = some b) : (l.set i a).get? i = some a := by
  rw [List.get?_eq_getElem?] at h ⊢
  have hl : i < l.length := by
    by_contra hc
    rw [List.getElem?_eq_none (by omega)] at h
    cases h
  exact List.getElem?_set_self hl

theorem get?_set_ne {α : Type} (l : List α) (i j : Nat) (a : α) (h : i ≠ j) :
    (l.set i a).get? j = l.get? j := by
  rw [List.get?_eq_getElem?, List.get?_eq_getElem?]
  exact List.getElem?_set_ne h

/-- Total number of occurrences of a future among all waiter lists. -/
def countOcc (w : List (String × List Nat)) (c : Nat) : Nat :=
  (w.map (fun p => p.2.count c)).sum

theorem countOcc_nil (c : Nat) : countOcc [] c = 0 := rfl

theorem countOcc_cons (p : String × List Nat) (w : List (String × List Nat))
    (c : Nat) : countOcc (p :: w) c = p.2.count c + countOcc w c := by
  simp [countOcc]

/-- A future with no occurrence is in no waiter list. -/
theorem not_mem_of_countOcc_zero (w : List (String × List Nat)) (c : Nat)
    (h : countOcc w c = 0) : ∀ p ∈ w, c ∉ p.2 := by
  induction w with
  | nil => intro p hp; cases hp
  | cons q w ih =>
    rw [countOcc_cons] at h
    intro p hp
    cases hp with
    | head => exact List.count_eq_zero.mp (by omega)
    | tail _ hp => exact ih (by omega) p hp

theorem countOcc_wappend (k : String) (c : Nat) :
    ∀ (w : List (String × List Nat)) (d : Nat),
      countOcc (wappend w k c) d = countOcc w d + if c = d then 1 else 0 := by
  intro w
  induction w with
  | nil =>
    intro d
    by_cases h : c = d <;>
      simp [wappend, countOcc, List.count_cons, h]
  | cons p w ih =>
    intro d
    rw [wappend]
    by_cases hp : p.1 = k
    · rw [if_pos hp, countOcc_cons, countOcc_cons, List.count_append]
      have : List.count d [c] = if c = d then 1 else 0 := by
        by_cases h : c = d <;> simp [List.count_cons, h]
      omega
    · rw [if_neg hp, countOcc_cons, countOcc_cons, ih d]
      omega

/-- A member of the looked-up entry occurs in the map. -/
theorem one_le_countOcc_of_wlookup (k : String) (c : Nat) :
    ∀ (w : List (String × List Nat)) (l : List Nat),
      wlookup w k = some l → c ∈ l → 1 ≤ countOcc w c := by
  intro w
  induction w with
  | nil => intro l hl; simp [wlookup] at hl
  | cons p w ih =>
    intro l hl hc
    rw [wlookup, List.find?_cons] at hl
    by_cases hp : p.1 = k
    · simp [wlookup, hp] at hl
      rw [countOcc_cons]
      have hc2 : c ∈ p.2 := by rw [hl]; exact hc
      have : 1 ≤ p.2.count c := List.one_le_count_iff.mpr hc2
      omega
    · have hp2 : (p.1 == k) = false := by simpa using hp
      rw [hp2] at hl
      rw [countOcc_cons]
      have := ih l hl hc
      omega

/-- Removing a future that is in the looked-up entry decrements its
total occurrence count. -/
theorem countOcc_wremove_mem (k : String) (c : Nat) :
    ∀ (w : List (String × List Nat)) (l : List Nat),
      wlookup w k = some l → c ∈ l →
      countOcc (wremove w k c) c = countOcc w c - 1 := by
  intro w
  induction w with
  | nil => intro l hl; simp [wlookup] at hl
  | cons p w ih =>
    intro l hl hc
    rw [wlookup, List.find?_cons] at hl
    rw [wremove]
    by_cases hp : p.1 = k
    · simp [wlookup, hp] at hl
      have hc2 : c ∈ p.2 := by rw [hl]; exact hc
      have h1 : 1 ≤ p.2.count c := List.one_le_count_iff.mpr hc2
      have hce : (p.2.erase c).count c = p.2.count c - 1 := List.count_erase_self c p.2
      rw [if_pos hp]
      by_cases he : (p.2.erase c).isEmpty
      · rw [if_pos he, countOcc_cons]
        have h0 : (p.2.erase c).count c = 0 := by
          rw [List.isEmpty_iff] at he
          rw [he]; rfl
        omega
      · rw [if_neg he, countOcc_cons, countOcc_cons]
        simp only
        omega
    · have hp2 : (p.1 == k) = false := by simpa using hp
      rw [hp2] at hl
      rw [if_neg hp, countOcc_cons, countOcc_cons, ih l hl hc]
      have := one_le_countOcc_of_wlookup k c w l hl hc
      omega

/-- Removing a future that is in no entry of its key is a no-op on
counts. -/
theorem countOcc_wremove_nomem (k : String) (c : Nat) :
    ∀ (w : List (String × List Nat)),
      (∀ l, wlookup w k = some l → c ∉ l) →
      countOcc (wremove w k c) c = countOcc w c := by
  intro w
  induction w with
  | nil => intro _; rfl
  | cons p w ih =>
    intro h
    rw [wremove]
    by_cases hp : p.1 = k
    · rw [if_pos hp]
      have hentry : wlookup (p :: w) k = some p.2 := by
        simp [wlookup, List.find?_cons, hp]
      have hnm : c ∉ p.2 := h p.2 hentry
      have herase : p.2.erase c = p.2 := List.erase_of_not_mem hnm
      by_cases he : (p.2.erase c).isEmpty
      · rw [if_pos he, countOcc_cons]
        have : p.2 = [] := by
          rw [herase] at he
          exact List.isEmpty_iff.mp he
        rw [this]
        simp
      · rw [if_neg he, countOcc_cons, countOcc_cons, herase]
    · rw [if_neg hp, countOcc_cons, countOcc_cons]
      have hrest : ∀ l, wlookup w k = some l → c ∉ l := by
        intro l hl
        refine h l ?_
        have hp2 : (p.1 == k) = false := by simpa using hp
        rw [wlookup, List.find?_cons, hp2]
        exact hl
      rw [ih hrest]

theorem countOcc_wremove_ne (k : String) (c d : Nat) (hne : d ≠ c) :
    ∀ (w : List (String × List Nat)),
      countOcc (wremove w k c) d = countOcc w d := by
  intro w
  induction w with
  | nil => rfl
  | cons p w ih =>
    rw [wremove]
    by_cases hp : p.1 = k
    · rw [if_pos hp]
      have hcnt : (p.2.erase c).count d = p.2.count d :=
        List.count_erase_of_ne hne p.2
      by_cases he : (p.2.erase c).isEmpty
      · rw [if_pos he, countOcc_cons]
        have h0 : (p.2.erase c).count d = 0 := by
          rw [List.isEmpty_iff] at he
          rw [he]; rfl
        omega
      · rw [if_neg he, countOcc_cons, countOcc_cons]
        simp only
        omega
    · rw [if_neg hp, countOcc_cons, countOcc_cons, ih]

/-- A positive total count exhibits an entry containing the future. -/
theorem exists_mem_of_countOcc_pos (c : Nat) :
    ∀ (w : List (String × List Nat)), 1 ≤ countOcc w c →
      ∃ p ∈ w, c ∈ p.2 := by
  intro w
  induction w with
  | nil => intro h; simp [countOcc] at h
  | cons p w ih =>
    intro h
    rw [countOcc_cons] at h
    by_cases hp : c ∈ p.2
    · exact ⟨p, List.mem_cons_self p w, hp⟩
    · have h0 : p.2.count c = 0 := List.count_eq_zero.mpr hp
      obtain ⟨q, hq, hqc⟩ := ih (by omega)
      exact ⟨q, List.mem_cons_of_mem p hq, hqc⟩

/-- With pairwise distinct keys, lookup of a member entry's key finds
that entry. -/
theorem wlookup_of_mem_nodup :
    ∀ (w : List (String × List Nat)), (w.map Prod.fst).Nodup →
      ∀ p ∈ w, wlookup w p.1 = some p.2 := by
  intro w
  induction w with
  | nil => intro _ p hp; cases hp
  | cons q w ih =>
    intro hnd p hp
    rw [List.map_cons, List.nodup_cons] at hnd
    cases hp with
    | head => simp [wlookup, List.find?_cons]
    | tail _ hp =>
      have hne : ¬(q.1 == p.1) = true := by
        intro hq
        exact hnd.1 (by
          rw [show q.1 = p.1 by simpa using hq]
          exact List.mem_map_of_mem Prod.fst hp)
      rw [wlookup, List.find?_cons]
      rw [Bool.not_eq_true] at hne
      rw [hne]
      exact ih hnd.2 p hp

theorem nonempty_wappend (w : List (String × List Nat)) (k : String) (c : Nat)
    (h : ∀ p ∈ w, p.2 ≠ []) : ∀ p ∈ wappend w k c, p.2 ≠ [] := by
  induction w with
  | nil =>
    intro p hp
    simp [wappend] at hp
    rw [hp]
    simp
  | cons q w ih =>
    intro p hp
    rw [wappend] at hp
    by_cases hq : q.1 = k
    · rw [if_pos hq] at hp
      cases hp with
      | head => simp
      | tail _ hp => exact h p (List.mem_cons_of_mem q hp)
    · rw [if_neg hq] at hp
      cases hp with
      | head => exact h q (List.mem_cons_self q w)
      | tail _ hp =>
        exact ih (fun p2 hp2 => h p2 (List.mem_cons_of_mem q hp2)) p hp

theorem nonempty_wremove (w : List (String × List Nat)) (k : String) (c : Nat)
    (h : ∀ p ∈ w, p.2 ≠ []) : ∀ p ∈ wremove w k c, p.2 ≠ [] := by
  induction w with
  | nil => intro p hp; cases hp
  | cons q w ih =>
    intro p hp
    rw [wremove] at hp
    by_cases hq : q.1 = k
    · rw [if_pos hq] at hp
      by_cases he : (q.2.erase c).isEmpty
      · rw [if_pos he] at hp
        exact h p (List.mem_cons_of_mem q hp)
      · rw [if_neg he] at hp
        cases hp with
        | head => simpa using he
        | tail _ hp => exact h p (List.mem_cons_of_mem q hp)
    · rw [if_neg hq] at hp
      cases hp with
      | head => exact h q (List.mem_cons_self q w)
      | tail _ hp =>
        exact ih (fun p2 hp2 => h p2 (List.mem_cons_of_mem q hp2)) p hp

theorem keys_wappend (w : List (String × List Nat)) (k : String) (c : Nat) :
    (wappend w k c).map Prod.fst = w.map Prod.fst ∨
    (wappend w k c).map Prod.fst = w.map Prod.fst ++ [k] := by
  induction w with
  | nil => right; simp [wappend]
  | cons q w ih =>
    rw [wappend]
    by_cases hq : q.1 = k
    · left; rw [if_pos hq]; simp
    · rw [if_neg hq]
      rcases ih with h | h
      · left; simp [h]
      · right; simp [h]

theorem keys_wappend_mem (w : List (String × List Nat)) (k : String) (c : Nat)
    (h : k ∉ w.map Prod.fst) :
    (wappend w k c).map Prod.fst = w.map Prod.fst ++ [k] := by
  induction w with
  | nil => simp [wappend]
  | cons q w ih =>
    rw [List.map_cons] at h
    rw [wappend]
    by_cases hq : q.1 = k
    · exact absurd (hq ▸ List.mem_cons_self q.1 _) h
    · rw [if_neg hq]
      simp only [List.map_cons, List.cons_append]
      rw [ih (fun hm => h (List.mem_cons_of_mem q.1 hm))]

theorem keys_wappend_present (w : List (String × List Nat)) (k : String) (c : Nat)
    (h : k ∈ w.map Prod.fst) :
    (wappend w k c).map Prod.fst = w.map Prod.fst := by
  induction w with
  | nil => cases h
  | cons q w ih =>
    rw [wappend]
    by_cases hq : q.1 = k
    · rw [if_pos hq]; simp
    · rw [if_neg hq]
      simp only [List.map_cons]
      rw [List.map_cons] at h
      cases h with
      | head => exact absurd rfl hq
      | tail _ h => rw [ih h]

theorem keys_wappend_nodup (w : List (String × List Nat)) (k : String) (c : Nat)
    (h : (w.map Prod.fst).Nodup) : ((wappend w k c).map Prod.fst).Nodup := by
  by_cases hk : k ∈ w.map Prod.fst
  · rw [keys_wappend_present w k c hk]; exact h
  · rw [keys_wappend_mem w k c hk]
    refine List.Nodup.append h (List.nodup_singleton k) ?_
    intro a ha hb
    simp at hb
    subst hb
    exact hk ha

theorem keys_wremove_sublist (w : List (String × List Nat)) (k : String) (c : Nat) :
    List.Sublist ((wremove w k c).map Prod.fst) (w.map Prod.fst) := by
  induction w with
  | nil => simp [wremove]
  | cons q w ih =>
    rw [wremove]
    by_cases hq : q.1 = k
    · rw [if_pos hq]
      by_cases he : (q.2.erase c).isEmpty
      · rw [if_pos he]
        simp only [List.map_cons]
        exact List.Sublist.cons q.1 (List.Sublist.refl _)
      · rw [if_neg he]
        simp only [List.map_cons]
        exact List.Sublist.cons₂ q.1 (List.Sublist.refl _)
    · rw [if_neg hq]
      simp only [List.map_cons]
      exact List.Sublist.cons₂ q.1 ih

theorem mem_wappend (w : List (String × List Nat)) (k : String) (c : Nat) :
    ∀ p ∈ wappend w k c, ∀ d ∈ p.2,
      (∃ q ∈ w, q.1 = p.1 ∧ d ∈ q.2) ∨ (d = c ∧ p.1 = k) := by
  induction w with
  | nil =>
    intro p hp d hd
    simp [wappend] at hp
    rw [hp] at hd ⊢
    simp at hd
    exact Or.inr ⟨hd, rfl⟩
  | cons q w ih =>
    intro p hp d hd
    rw [wappend] at hp
    by_cases hq : q.1 = k
    · rw [if_pos hq] at hp
      cases hp with
      | head =>
        simp only at hd
        rw [List.mem_append] at hd
        rcases hd with hd | hd
        · exact Or.inl ⟨q, List.mem_cons_self q w, rfl, hd⟩
        · simp at hd
          exact Or.inr ⟨hd, hq⟩
      | tail _ hp =>
        exact Or.inl ⟨p, List.mem_cons_of_mem q hp, rfl, hd⟩
    · rw [if_neg hq] at hp
      cases hp with
      | head => exact Or.inl ⟨q, List.mem_cons_self q w, rfl, hd⟩
      | tail _ hp =>
        rcases ih p hp d hd with ⟨q2, hq2, hq2e, hq2d⟩ | h
        · exact Or.inl ⟨q2, List.mem_cons_of_mem q hq2, hq2e, hq2d⟩
        · exact Or.inr h

theorem mem_wremove (w : List (String × List Nat)) (k : String) (c : Nat) :
    ∀ p ∈ wremove w k c, ∀ d ∈ p.2, ∃ q ∈ w, q.1 = p.1 ∧ d ∈ q.2 := by
  induction w with
  | nil => intro p hp; cases hp
  | cons q w ih =>
    intro p hp d hd
    rw [wremove] at hp
    by_cases hq : q.1 = k
    · rw [if_pos hq] at hp
      by_cases he : (q.2.erase c).isEmpty
      · rw [if_pos he] at hp
        exact ⟨p, List.mem_cons_of_mem q hp, rfl, hd⟩
      · rw [if_neg he] at hp
        cases hp with
        | head =>
          simp only at hd
          exact ⟨q, List.mem_cons_self q w, rfl, List.mem_of_mem_erase hd⟩
        | tail _ hp => exact ⟨p, List.mem_cons_of_mem q hp, rfl, hd⟩
    · rw [if_neg hq] at hp
      cases hp with
      | head => exact ⟨q, List.mem_cons_self q w, rfl, hd⟩
      | tail _ hp =>
        obtain ⟨q2, hq2, hq2e, hq2d⟩ := ih p hp d hd
        exact ⟨q2, List.mem_cons_of_mem q hq2, hq2e, hq2d⟩

/-- Phases during which the caller's future sits in the waiters map. -/
def activePhase : CallerPhase → Bool
  | CallerPhase.sentSet _ => true
  | CallerPhase.waiting => true
  | CallerPhase.woken => true
  | _ => false

/-- How `_reader`'s `set_result` loop relates caller lists: every
record is untouched or merely has its phase switched among the active
phases, keeping key, deadline and arrival stamp. -/
def wakeRel (cs cs' : List CallerRec) : Prop :=
  ∀ d, cs'.get? d = cs.get? d ∨
    ∃ r r', cs.get? d = some r ∧ cs'.get? d = some r' ∧
      r'.key = r.key ∧ activePhase r.phase = true ∧ activePhase r'.phase = true ∧
      r'.deadline = r.deadline ∧ r'.seq = r.seq ∧ r'.timeout = r.timeout

theorem wakeRel_refl (cs : List CallerRec) : wakeRel cs cs :=
  fun _ => Or.inl rfl

theorem wakeRel_trans {cs cs1 cs2 : List CallerRec}
    (h1 : wakeRel cs cs1) (h2 : wakeRel cs1 cs2) : wakeRel cs cs2 := by
  intro d
  rcases h2 d with h2d | ⟨r1, r2, hr1, hr2, hk, ha1, ha2, hdl, hseq, hto⟩
  · rcases h1 d with h1d | ⟨r, r1, hr, hr1, hk, ha, ha1, hdl, hseq, hto⟩
    · exact Or.inl (h2d.trans h1d)
    · exact Or.inr ⟨r, r1, hr, h2d.trans hr1, hk, ha, ha1, hdl, hseq, hto⟩
  · rcases h1 d with h1d | ⟨r0, r1', hr0, hr1', hk', ha0, ha1', hdl', hseq', hto'⟩
    · rw [h1d] at hr1
      exact Or.inr ⟨r1, r2, hr1, hr2, hk, ha1, ha2, hdl, hseq, hto⟩
    · rw [hr1'] at hr1
      injection hr1 with he
      subst he
      exact Or.inr ⟨r0, r2, hr0, hr2, hk.trans hk', ha0, ha2,
        hdl.trans hdl', hseq.trans hseq', hto.trans hto'⟩

theorem wakeOne_rel (cs : List CallerRec) (c : Nat) : wakeRel cs (wakeOne cs c) := by
  cases hr : cs.get? c with
  | none =>
    have hw : wakeOne cs c = cs := by simp [wakeOne, ← List.get?_eq_getElem?, hr]
    rw [hw]; exact wakeRel_refl cs
  | some r =>
    cases hph : r.phase with
    | sentSet res =>
      have hw : wakeOne cs c = cs.set c { r with phase := CallerPhase.sentSet true } := by
        simp [wakeOne, ← List.get?_eq_getElem?, hr, hph]
      rw [hw]
      intro d
      by_cases hdc : d = c
      · subst hdc
        exact Or.inr ⟨r, { r with phase := CallerPhase.sentSet true }, hr,
          get?_set_self cs d _ r hr, rfl, by rw [hph]; rfl, rfl, rfl, rfl, rfl⟩
      · exact Or.inl (get?_set_ne _ _ _ _ (fun h => hdc h.symm))
    | waiting =>
      have hw : wakeOne cs c = cs.set c { r with phase := CallerPhase.woken } := by
        simp [wakeOne, ← List.get?_eq_getElem?, hr, hph]
      rw [hw]
      intro d
      by_cases hdc : d = c
      · subst hdc
        exact Or.inr ⟨r, { r with phase := CallerPhase.woken }, hr,
          get?_set_self cs d _ r hr, rfl, by rw [hph]; rfl, rfl, rfl, rfl, rfl⟩
      · exact Or.inl (get?_set_ne _ _ _ _ (fun h => hdc h.symm))
    | notArrived =>
      have hw : wakeOne cs c = cs := by simp [wakeOne, ← List.get?_eq_getElem?, hr, hph]
      rw [hw]; exact wakeRel_refl cs
    | woken =>
      have hw : wakeOne cs c = cs := by simp [wakeOne, ← List.get?_eq_getElem?, hr, hph]
      rw [hw]; exact wakeRel_refl cs
    | acquired =>
      have hw : wakeOne cs c = cs := by simp [wakeOne, ← List.get?_eq_getElem?, hr, hph]
      rw [hw]; exact wakeRel_refl cs
    | timedOut =>
      have hw : wakeOne cs c = cs := by simp [wakeOne, ← List.get?_eq_getElem?, hr, hph]
      rw [hw]; exact wakeRel_refl cs
    | failed =>
      have hw : wakeOne cs c = cs := by simp [wakeOne, ← List.get?_eq_getElem?, hr, hph]
      rw [hw]; exact wakeRel_refl cs

theorem wake_foldl_rel (l : List Nat) :
    ∀ (cs : List CallerRec), wakeRel cs (l.foldl wakeOne cs) := by
  induction l with
  | nil => intro cs; exact wakeRel_refl cs
  | cons c l ih =>
    intro cs
    rw [List.foldl_cons]
    exact wakeRel_trans (wakeOne_rel cs c) (ih (wakeOne cs c))

/-- Invariant of every reachable lock state: waiter lists are
non-empty, the dict keys are pairwise distinct, every future in a list
belongs to a caller of that key in an active phase, and a caller's
future occurs in the map exactly once while the caller is active and
never otherwise. -/
structure WInv (cs : List CallerRec) (w : List (String × List Nat)) : Prop where
  nonempty : ∀ p ∈ w, p.2 ≠ []
  keysNodup : (w.map Prod.fst).Nodup
  entryKey : ∀ p ∈ w, ∀ c ∈ p.2, ∃ r, cs.get? c = some r ∧
    r.key = p.1 ∧ activePhase r.phase = true
  occ : ∀ c r, cs.get? c = some r →
    countOcc w c = (if activePhase r.phase then 1 else 0)
  occNone : ∀ c, cs.get? c = none → countOcc w c = 0

def LockInv (s : LockSys) : Prop := WInv s.callers s.waiters

/-- The future of an active caller is in the entry looked up by the
caller's key. -/
theorem active_mem_wlookup {cs : List CallerRec} {w : List (String × List Nat)}
    (inv : WInv cs w) (c : Nat) (r : CallerRec) (hr : cs.get? c = some r)
    (ha : activePhase r.phase = true) :
    ∃ l, wlookup w r.key = some l ∧ c ∈ l := by
  have h1 : countOcc w c = 1 := by
    rw [inv.occ c r hr, if_pos ha]
  obtain ⟨p, hp, hcp⟩ := exists_mem_of_countOcc_pos c w (by omega)
  obtain ⟨r2, hr2, hk2, _⟩ := inv.entryKey p hp c hcp
  rw [hr] at hr2
  injection hr2 with he
  subst he
  have hl := wlookup_of_mem_nodup w inv.keysNodup p hp
  rw [hk2]
  exact ⟨p.2, hl, hcp⟩

/-- A `set` that leaves a record has the same domain. -/
theorem get?_set_none {α : Type} (l : List α) (i j : Nat) (a : α)
    (h : (l.set i a).get? j = none) : l.get? j = none := by
  rw [List.get?_eq_getElem?] at h ⊢
  rw [List.getElem?_eq_none_iff] at h ⊢
  rw [List.length_set] at h
  exact h

/-- After a deactivating step (return, timeout or exception) the
caller's future is removed and the invariant is preserved. -/
theorem winv_deactivate (cs : List CallerRec) (w : List (String × List Nat))
    (c : Nat) (r r' : CallerRec) (inv : WInv cs w)
    (hr : cs.get? c = some r) (ha : activePhase r.phase = true)
    (ha' : activePhase r'.phase = false) :
    WInv (cs.set c r') (wremove w r.key c) := by
  obtain ⟨l, hl, hcl⟩ := active_mem_wlookup inv c r hr ha
  have hocc1 : countOcc w c = 1 := by rw [inv.occ c r hr, if_pos ha]
  have hocc0 : countOcc (wremove w r.key c) c = 0 := by
    rw [countOcc_wremove_mem r.key c w l hl hcl, hocc1]
  have hnomem := not_mem_of_countOcc_zero (wremove w r.key c) c hocc0
  constructor
  · exact nonempty_wremove w r.key c inv.nonempty
  · exact (keys_wremove_sublist w r.key c).nodup inv.keysNodup
  · intro p hp d hd
    have hdc : d ≠ c := fun he => (he ▸ hnomem p hp) hd
    obtain ⟨q, hq, hqe, hqd⟩ := mem_wremove w r.key c p hp d hd
    obtain ⟨rd, hrd, hrk, hra⟩ := inv.entryKey q hq d hqd
    exact ⟨rd, by rw [get?_set_ne cs c d r' (fun he => hdc he.symm)]; exact hrd,
      hqe ▸ hrk, hra⟩
  · intro d rd hrd
    by_cases hdc : d = c
    · subst hdc
      rw [get?_set_self cs d r' r hr] at hrd
      injection hrd with he
      subst he
      rw [if_neg (by rw [ha']; exact Bool.false_ne_true)]
      exact hocc0
    · rw [get?_set_ne cs c d r' (fun he => hdc he.symm)] at hrd
      rw [countOcc_wremove_ne r.key c d hdc, inv.occ d rd hrd]
  · intro d hrd
    have hdc : d ≠ c := by
      intro he
      subst he
      rw [get?_set_self cs d r' r hr] at hrd
      cases hrd
    rw [countOcc_wremove_ne r.key c d hdc]
    exact inv.occNone d (get?_set_none cs c d r' hrd)

/-- After a requeueing step (`retry`, or a lost `SET` whose future was
already resolved) the caller's future moves to the end of its entry
and the invariant is preserved. -/
theorem winv_requeue (cs : List CallerRec) (w : List (String × List Nat))
    (c : Nat) (r r' : CallerRec) (inv : WInv cs w)
    (hr : cs.get? c = some r) (ha : activePhase r.phase = true)
    (ha' : activePhase r'.phase = true) (hk : r'.key = r.key) :
    WInv (cs.set c r') (wappend (wremove w r.key c) r.key c) := by
  obtain ⟨l, hl, hcl⟩ := active_mem_wlookup inv c r hr ha
  have hocc1 : countOcc w c = 1 := by rw [inv.occ c r hr, if_pos ha]
  have hocc0 : countOcc (wremove w r.key c) c = 0 := by
    rw [countOcc_wremove_mem r.key c w l hl hcl, hocc1]
  have hnomem := not_mem_of_countOcc_zero (wremove w r.key c) c hocc0
  constructor
  · exact nonempty_wappend (wremove w r.key c) r.key c
      (nonempty_wremove w r.key c inv.nonempty)
  · exact keys_wappend_nodup (wremove w r.key c) r.key c
      ((keys_wremove_sublist w r.key c).nodup inv.keysNodup)
  · intro p hp d hd
    rcases mem_wappend (wremove w r.key c) r.key c p hp d hd with
      ⟨q, hq, hqe, hqd⟩ | ⟨hdc, hpk⟩
    · have hdc : d ≠ c := fun he => (he ▸ hnomem q hq) hqd
      obtain ⟨q2, hq2, hq2e, hq2d⟩ := mem_wremove w r.key c q hq d hqd
      obtain ⟨rd, hrd, hrk, hra⟩ := inv.entryKey q2 hq2 d hq2d
      exact ⟨rd, by rw [get?_set_ne cs c d r' (fun he => hdc he.symm)]; exact hrd,
        hqe ▸ hq2e ▸ hrk, hra⟩
    · subst hdc
      exact ⟨r', get?_set_self cs d r' r hr, hpk ▸ hk, ha'⟩
  · intro d rd hrd
    by_cases hdc : d = c
    · subst hdc
      rw [get?_set_self cs d r' r hr] at hrd
      injection hrd with he
      subst he
      rw [if_pos ha', countOcc_wappend, hocc0, if_pos rfl]
    · rw [get?_set_ne cs c d r' (fun he => hdc he.symm)] at hrd
      rw [countOcc_wappend, countOcc_wremove_ne r.key c d hdc,
        if_neg (fun he => hdc he.symm), inv.occ d rd hrd]
      omega
  · intro d hrd
    have hdc : d ≠ c := by
      intro he
      subst he
      rw [get?_set_self cs d r' r hr] at hrd
      cases hrd
    rw [countOcc_wappend, countOcc_wremove_ne r.key c d hdc,
      if_neg (fun he => hdc he.symm),
      inv.occNone d (get?_set_none cs c d r' hrd)]

/-- First arrival of a caller: its fresh future is appended and the
invariant is preserved. -/
theorem winv_insert (cs : List CallerRec) (w : List (String × List Nat))
    (c : Nat) (r r' : CallerRec) (inv : WInv cs w)
    (hr : cs.get? c = some r) (ha : activePhase r.phase = false)
    (ha' : activePhase r'.phase = true) (hk : r'.key = r.key) :
    WInv (cs.set c r') (wappend w r.key c) := by
  have hocc0 : countOcc w c = 0 := by
    rw [inv.occ c r hr, if_neg (by rw [ha]; exact Bool.false_ne_true)]
  have hnomem := not_mem_of_countOcc_zero w c hocc0
  constructor
  · exact nonempty_wappend w r.key c inv.nonempty
  · exact keys_wappend_nodup w r.key c inv.keysNodup
  · intro p hp d hd
    rcases mem_wappend w r.key c p hp d hd with ⟨q, hq, hqe, hqd⟩ | ⟨hdc, hpk⟩
    · have hdc : d ≠ c := fun he => (he ▸ hnomem q hq) hqd
      obtain ⟨rd, hrd, hrk, hra⟩ := inv.entryKey q hq d hqd
      exact ⟨rd, by rw [get?_set_ne cs c d r' (fun he => hdc he.symm)]; exact hrd,
        hqe ▸ hrk, hra⟩
    · subst hdc
      exact ⟨r', get?_set_self cs d r' r hr, hpk ▸ hk, ha'⟩
  · intro d rd hrd
    by_cases hdc : d = c
    · subst hdc
      rw [get?_set_self cs d r' r hr] at hrd
      injection hrd with he
      subst he
      rw [if_pos ha', countOcc_wappend, hocc0, if_pos rfl]
    · rw [get?_set_ne cs c d r' (fun he => hdc he.symm)] at hrd
      rw [countOcc_wappend, if_neg (fun he => hdc he.symm), inv.occ d rd hrd]
      omega
  · intro d hrd
    have hdc : d ≠ c := by
      intro he
      subst he
      rw [get?_set_self cs d r' r hr] at hrd
      cases hrd
    rw [countOcc_wappend, if_neg (fun he => hdc he.symm),
      inv.occNone d (get?_set_none cs c d r' hrd)]

/-- A pure phase change between active phases leaves the map alone and
preserves the invariant. -/
theorem winv_phase (cs : List CallerRec) (w : List (String × List Nat))
    (c : Nat) (r r' : CallerRec) (inv : WInv cs w)
    (hr : cs.get? c = some r) (ha : activePhase r.phase = true)
    (ha' : activePhase r'.phase = true) (hk : r'.key = r.key) :
    WInv (cs.set c r') w := by
  constructor
  · exact inv.nonempty
  · exact inv.keysNodup
  · intro p hp d hd
    obtain ⟨rd, hrd, hrk, hra⟩ := inv.entryKey p hp d hd
    by_cases hdc : d = c
    · subst hdc
      rw [hr] at hrd
      injection hrd with he
      subst he
      exact ⟨r', get?_set_self cs d r' r hr, hk.trans hrk, ha'⟩
    · exact ⟨rd, by rw [get?_set_ne cs c d r' (fun he => hdc he.symm)]; exact hrd,
        hrk, hra⟩
  · intro d rd hrd
    by_cases hdc : d = c
    · subst hdc
      rw [get?_set_self cs d r' r hr] at hrd
      injection hrd with he
      subst he
      rw [if_pos ha']
      rw [inv.occ d r hr, if_pos ha]
    · rw [get?_set_ne cs c d r' (fun he => hdc he.symm)] at hrd
      exact inv.occ d rd hrd
  · intro d hrd
    exact inv.occNone d (get?_set_none cs c d r' hrd)

/-- `_reader`'s wake loop only toggles phases among the active ones,
so the invariant is preserved. -/
theorem winv_wake (cs cs' : List CallerRec) (w : List (String × List Nat))
    (inv : WInv cs w) (hrel : wakeRel cs cs') : WInv cs' w := by
  constructor
  · exact inv.nonempty
  · exact inv.keysNodup
  · intro p hp d hd
    obtain ⟨rd, hrd, hrk, hra⟩ := inv.entryKey p hp d hd
    rcases hrel d with hsame | ⟨r, r', hr, hr', hk, hact, hact', _, _, _⟩
    · exact ⟨rd, hsame.trans hrd, hrk, hra⟩
    · rw [hr] at hrd
      injection hrd with he
      subst he
      exact ⟨r', hr', hk.trans hrk, hact'⟩
  · intro d rd hrd
    rcases hrel d with hsame | ⟨r, r', hr, hr', _, hact, hact', _, _, _⟩
    · rw [hsame] at hrd
      exact inv.occ d rd hrd
    · rw [hr'] at hrd
      injection hrd with he
      subst he
      rw [if_pos hact', inv.occ d r hr, if_pos hact]
  · intro d hrd
    rcases hrel d with hsame | ⟨r, r', hr, hr', _, _, _, _, _, _⟩
    · rw [hsame] at hrd
      exact inv.occNone d hrd
    · rw [hr'] at hrd
      cases hrd

/-- Every enabled event preserves the lock invariant. -/
theorem lockInv_step (s s' : LockSys) (e : LockEvent)
    (inv : LockInv s) (h : applyEvent e s = some s') : LockInv s' := by
  cases e with
  | arrive c =>
    cases hr : s.callers.get? c with
    | none => simp [applyEvent, ← List.get?_eq_getElem?, hr] at h
    | some r =>
      cases hph : r.phase with
      | notArrived =>
        simp only [applyEvent, ← List.get?_eq_getElem?, hr, hph] at h
        injection h with h
        subst h
        exact winv_insert s.callers s.waiters c r _ inv hr
          (by simp [hph, activePhase]) rfl rfl
      | sentSet res => simp [applyEvent, ← List.get?_eq_getElem?, hr, hph] at h
      | waiting => simp [applyEvent, ← List.get?_eq_getElem?, hr, hph] at h
      | woken => simp [applyEvent, ← List.get?_eq_getElem?, hr, hph] at h
      | acquired => simp [applyEvent, ← List.get?_eq_getElem?, hr, hph] at h
      | timedOut => simp [applyEvent, ← List.get?_eq_getElem?, hr, hph] at h
      | failed => simp [applyEvent, ← List.get?_eq_getElem?, hr, hph] at h
  | procSet c =>
    cases hr : s.callers.get? c with
    | none => simp [applyEvent, ← List.get?_eq_getElem?, hr] at h
    | some r =>
      cases hph : r.phase with
      | sentSet res =>
        simp only [applyEvent, ← List.get?_eq_getElem?, hr, hph] at h
        by_cases hheld : r.key ∈ s.held
        · rw [if_pos hheld] at h
          cases res with
          | true =>
            simp only [if_pos] at h
            injection h with h
            subst h
            exact winv_requeue s.callers s.waiters c r _ inv hr
              (by simp [hph, activePhase]) rfl rfl
          | false =>
            simp only [Bool.false_eq_true, if_neg] at h
            injection h with h
            subst h
            exact winv_phase s.callers s.waiters c r _ inv hr
              (by simp [hph, activePhase]) rfl rfl
        · rw [if_neg hheld] at h
          injection h with h
          subst h
          exact winv_deactivate s.callers s.waiters c r _ inv hr
            (by simp [hph, activePhase]) rfl
      | notArrived => simp [applyEvent, ← List.get?_eq_getElem?, hr, hph] at h
      | waiting => simp [applyEvent, ← List.get?_eq_getElem?, hr, hph] at h
      | woken => simp [applyEvent, ← List.get?_eq_getElem?, hr, hph] at h
      | acquired => simp [applyEvent, ← List.get?_eq_getElem?, hr, hph] at h
      | timedOut => simp [applyEvent, ← List.get?_eq_getElem?, hr, hph] at h
      | failed => simp [applyEvent, ← List.get?_eq_getElem?, hr, hph] at h
  | setFail c =>
    cases hr : s.callers.get? c with
    | none => simp [applyEvent, ← List.get?_eq_getElem?, hr] at h
    | some r =>
      cases hph : r.phase with
      | sentSet res =>
        simp only [applyEvent, ← List.get?_eq_getElem?, hr, hph] at h
        injection h with h
        subst h
        exact winv_deactivate s.callers s.waiters c r _ inv hr
          (by simp [hph, activePhase]) rfl
      | notArrived => simp [applyEvent, ← List.get?_eq_getElem?, hr, hph] at h
      | waiting => simp [applyEvent, ← List.get?_eq_getElem?, hr, hph] at h
      | woken => simp [applyEvent, ← List.get?_eq_getElem?, hr, hph] at h
      | acquired => simp [applyEvent, ← List.get?_eq_getElem?, hr, hph] at h
      | timedOut => simp [applyEvent, ← List.get?_eq_getElem?, hr, hph] at h
      | failed => simp [applyEvent, ← List.get?_eq_getElem?, hr, hph] at h
  | timeoutFire c =>
    cases hr : s.callers.get? c with
    | none => simp [applyEvent, ← List.get?_eq_getElem?, hr] at h
    | some r =>
      cases hph : r.phase with
      | waiting =>
        simp only [applyEvent, ← List.get?_eq_getElem?, hr, hph] at h
        by_cases hdl : r.deadline ≤ s.now
        · rw [if_pos hdl] at h
          injection h with h
          subst h
          exact winv_deactivate s.callers s.waiters c r _ inv hr
            (by simp [hph, activePhase]) rfl
        · rw [if_neg hdl] at h
          cases h
      | notArrived => simp [applyEvent, ← List.get?_eq_getElem?, hr, hph] at h
      | sentSet res => simp [applyEvent, ← List.get?_eq_getElem?, hr, hph] at h
      | woken => simp [applyEvent, ← List.get?_eq_getElem?, hr, hph] at h
      | acquired => simp [applyEvent, ← List.get?_eq_getElem?, hr, hph] at h
      | timedOut => simp [applyEvent, ← List.get?_eq_getElem?, hr, hph] at h
      | failed => simp [applyEvent, ← List.get?_eq_getElem?, hr, hph] at h
  | retry c =>
    cases hr : s.callers.get? c with
    | none => simp [applyEvent, ← List.get?_eq_getElem?, hr] at h
    | some r =>
      cases hph : r.phase with
      | woken =>
        simp only [applyEvent, ← List.get?_eq_getElem?, hr, hph] at h
        injection h with h
        subst h
        exact winv_requeue s.callers s.waiters c r _ inv hr
          (by simp [hph, activePhase]) rfl rfl
      | notArrived => simp [applyEvent, ← List.get?_eq_getElem?, hr, hph] at h
      | sentSet res => simp [applyEvent, ← List.get?_eq_getElem?, hr, hph] at h
      | waiting => simp [applyEvent, ← List.get?_eq_getElem?, hr, hph] at h
      | acquired => simp [applyEvent, ← List.get?_eq_getElem?, hr, hph] at h
      | timedOut => simp [applyEvent, ← List.get?_eq_getElem?, hr, hph] at h
      | failed => simp [applyEvent, ← List.get?_eq_getElem?, hr, hph] at h
  | redisDel k =>
    simp only [applyEvent] at h
    injection h with h
    subst h
    exact inv
  | redisPub k =>
    simp only [applyEvent] at h
    injection h with h
    subst h
    exact inv
  | readerStep =>
    cases hp : s.pubs with
    | nil => simp [applyEvent, hp] at h
    | cons k rest =>
      cases hwl : wlookup s.waiters k with
      | none =>
        simp only [applyEvent, hp, hwl] at h
        injection h with h
        subst h
        exact inv
      | some l =>
        by_cases hall : l.all (unresolvedFut s.callers)
        · simp only [applyEvent, hp, hwl, if_pos hall] at h
          injection h with h
          subst h
          exact winv_wake s.callers _ s.waiters inv (wake_foldl_rel l s.callers)
        · simp only [applyEvent, hp, hwl] at h
          rw [if_neg hall] at h
          cases h
  | tick =>
    simp only [applyEvent] at h
    injection h with h
    subst h
    exact inv

/-- The initial state satisfies the invariant. -/
theorem lockInv_init (dflt : Nat) (specs : List (String × Option Nat)) :
    LockInv (initLock dflt specs) := by
  constructor
  · intro p hp; cases hp
  · exact List.nodup_nil
  · intro p hp; cases hp
  · intro c r hr
    rw [initLock] at hr
    simp only [List.get?_eq_getElem?, List.getElem?_map] at hr
    cases hq : specs[c]? with
    | none => rw [hq] at hr; cases hr
    | some q =>
      rw [hq] at hr
      injection hr with he
      subst he
      rfl
  · intro c _
    rfl

/-- A trace from a dead accumulator stays dead. -/
theorem runLock_none (evs : List LockEvent) :
    evs.foldl (fun acc e => acc.bind (applyEvent e)) none = none := by
  induction evs with
  | nil => rfl
  | cons e evs ih => simpa using ih

theorem runLock_cons (e : LockEvent) (evs : List LockEvent) (s : LockSys) :
    runLock (e :: evs) s =
      match applyEvent e s with
      | some s1 => runLock evs s1
      | none => none := by
  rw [runLock, List.foldl_cons]
  cases happ : applyEvent e s with
  | none => simpa [happ] using runLock_none evs
  | some s1 => simp [happ, runLock]

/-- Every reachable lock state satisfies the invariant. -/
theorem lockInv_run (dflt : Nat) (specs : List (String × Option Nat)) :
    ∀ (evs : List LockEvent) (s : LockSys),
      runLock evs (initLock dflt specs) = some s → LockInv s := by
  suffices hgen : ∀ (evs : List LockEvent) (s0 s : LockSys), LockInv s0 →
      runLock evs s0 = some s → LockInv s by
    intro evs s h
    exact hgen evs (initLock dflt specs) s (lockInv_init dflt specs) h
  intro evs
  induction evs with
  | nil =>
    intro s0 s h0 h
    rw [runLock] at h
    simp at h
    subst h
    exact h0
  | cons e evs ih =>
    intro s0 s h0 h
    rw [runLock_cons] at h
    cases happ : applyEvent e s0 with
    | none => rw [happ] at h; cases h
    | some s1 =>
      rw [happ] at h
      exact ih s1 s (lockInv_step s0 s1 e h0 happ) h

/-- C3 counterexample: with the key `k` just released (DEL + PUBLISH
done) and caller 1 still waiting well within its timeout, a later
caller 2 arrives, its `SET … NX` succeeds immediately, and it acquires
the key ahead of caller 1 (who arrived earlier, `seq` 1 < 2, and whose
deadline 100 is far beyond the clock 0): the code gives no FIFO
guarantee against such barging between a release and the woken
waiters' retries. -/
theorem C3_barging_counterexample :
    (runLock
        [LockEvent.arrive 0, LockEvent.procSet 0, LockEvent.arrive 1,
         LockEvent.procSet 1, LockEvent.redisDel "k", LockEvent.redisPub "k",
         LockEvent.arrive 2, LockEvent.procSet 2]
        (initLock 100 [("k", some 100), ("k", some 100), ("k", some 100)])).map
      (fun s =>
        ((s.callers.get? 1).map CallerRec.phase,
         (s.callers.get? 2).map CallerRec.phase,
         (s.callers.get? 1).map CallerRec.seq,
         (s.callers.get? 2).map CallerRec.seq,
         decide (s.now < ((s.callers.get? 1).map CallerRec.deadline).getD 0)))
      = some (some CallerPhase.waiting, some CallerPhase.acquired,
              some 1, some 2, true) := by
  decide

/-- C10: after any completed `acquire` call — returned (`acquired`),
raised `TimeoutError` (`timedOut`) or raised out of `redis.execute`
(`failed`) — the future that call appended is no longer anywhere in
`self.waiters`, and the map binds no key to an empty list: the
`finally` of every loop iteration removes the future and pops empty
entries. -/
theorem C10_waiters_cleanup (dflt : Nat) (specs : List (String × Option Nat))
    (evs : List LockEvent) (s : LockSys)
    (h : runLock evs (initLock dflt specs) = some s) :
    (∀ p ∈ s.waiters, p.2 ≠ []) ∧
    (∀ c r, s.callers.get? c = some r →
      (r.phase = CallerPhase.acquired ∨ r.phase = CallerPhase.timedOut ∨
        r.phase = CallerPhase.failed) →
      ∀ p ∈ s.waiters, c ∉ p.2) := by
  have inv := lockInv_run dflt specs evs s h
  refine ⟨inv.nonempty, ?_⟩
  intro c r hr hdone p hp
  have hocc : countOcc s.waiters c = 0 := by
    rw [inv.occ c r hr]
    rcases hdone with h1 | h1 | h1 <;> simp [h1, activePhase]
  exact not_mem_of_countOcc_zero s.waiters c hocc p hp

/-- The lock scenario used by the C3 counterexample and the C10
witness: three callers of key `k`, each with timeout 100. -/
def lockCfg3 : LockSys :=
  initLock 100 [("k", some 100), ("k", some 100), ("k", some 100)]

/-- Caller 0 acquires; caller 1 arrives and waits; the key is
released; caller 2 arrives and its `SET NX` is processed before the
reader or caller 1 run again. -/
def lockTrace3 : List LockEvent :=
  [LockEvent.arrive 0, LockEvent.procSet 0, LockEvent.arrive 1,
   LockEvent.procSet 1, LockEvent.redisDel "k", LockEvent.redisPub "k",
   LockEvent.arrive 2, LockEvent.procSet 2]

/-- The state reached by `lockTrace3`. -/
def lockState3 : LockSys :=
  { defaultTimeout := 100,
    callers :=
      [{ key := "k", timeout := some 100, phase := CallerPhase.acquired,
         deadline := 100, seq := 0 },
       { key := "k", timeout := some 100, phase := CallerPhase.waiting,
         deadline := 100, seq := 1 },
       { key := "k", timeout := some 100, phase := CallerPhase.acquired,
         deadline := 100, seq := 2 }],
    waiters := [("k", [1])], held := ["k"], pubs := ["k"],
    now := 0, arrivals := 3 }

/-- C10 witness: the cleanup theorem applied to the concrete run
`lockTrace3`. -/
theorem C10_waiters_cleanup_witness :
    runLock lockTrace3 lockCfg3 = some lockState3 ∧
    ((∀ p ∈ lockState3.waiters, p.2 ≠ []) ∧
      (∀ c r, lockState3.callers.get? c = some r →
        (r.phase = CallerPhase.acquired ∨ r.phase = CallerPhase.timedOut ∨
          r.phase = CallerPhase.failed) →
        ∀ p ∈ lockState3.waiters, c ∉ p.2)) :=
  ⟨by decide,
    C10_waiters_cleanup 100 [("k", some 100), ("k", some 100), ("k", some 100)]
      lockTrace3 lockState3 (by decide)⟩

/-- C7: when `asyncio.wait_for` gives up (only possible for a caller
whose future is unresolved and whose deadline `start_time + timeout`
has passed), `acquire` raises `TimeoutError`; the `finally` removes
that caller's future from the per-key queue (afterwards it is in no
list), while no other caller's future is resolved or otherwise
touched, the key is not released, and nothing is published. -/
theorem C7_timeout_cleanup (dflt : Nat) (specs : List (String × Option Nat))
    (evs : List LockEvent) (s s' : LockSys) (c : Nat) (r : CallerRec)
    (hrun : runLock evs (initLock dflt specs) = some s)
    (hr : s.callers.get? c = some r)
    (h : applyEvent (LockEvent.timeoutFire c) s = some s') :
    r.phase = CallerPhase.waiting ∧ r.deadline ≤ s.now ∧
    (s'.callers.get? c).map CallerRec.phase = some CallerPhase.timedOut ∧
    s'.waiters = wremove s.waiters r.key c ∧
    (∀ p ∈ s'.waiters, c ∉ p.2) ∧
    s'.held = s.held ∧ s'.pubs = s.pubs ∧ s'.now = s.now ∧
    (∀ d, d ≠ c → s'.callers.get? d = s.callers.get? d) := by
  have inv' : LockInv s' :=
    lockInv_step s s' (LockEvent.timeoutFire c)
      (lockInv_run dflt specs evs s hrun) h
  cases hph : r.phase with
  | waiting =>
    simp only [applyEvent, ← List.get?_eq_getElem?, hr, hph] at h
    by_cases hdl : r.deadline ≤ s.now
    · rw [if_pos hdl] at h
      injection h with h
      subst h
      refine ⟨rfl, hdl, ?_, rfl, ?_, rfl, rfl, rfl, ?_⟩
      · rw [get?_set_self s.callers c _ r hr]
        rfl
      · intro p hp
        have hocc : countOcc (wremove s.waiters r.key c) c = 0 := by
          have := inv'.occ c { r with phase := CallerPhase.timedOut }
            (get?_set_self s.callers c _ r hr)
          simpa [activePhase] using this
        exact not_mem_of_countOcc_zero _ c hocc p hp
      · intro d hdc
        exact get?_set_ne s.callers c d _ (fun he => hdc he.symm)
    · rw [if_neg hdl] at h
      cases h
  | notArrived => simp [applyEvent, ← List.get?_eq_getElem?, hr, hph] at h
  | sentSet res => simp [applyEvent, ← List.get?_eq_getElem?, hr, hph] at h
  | woken => simp [applyEvent, ← List.get?_eq_getElem?, hr, hph] at h
  | acquired => simp [applyEvent, ← List.get?_eq_getElem?, hr, hph] at h
  | timedOut => simp [applyEvent, ← List.get?_eq_getElem?, hr, hph] at h
  | failed => simp [applyEvent, ← List.get?_eq_getElem?, hr, hph] at h

/-- Two callers of key `k` with timeout 5; caller 0 holds the key,
caller 1 waits, the clock reaches the deadline. -/
def lockCfg7 : LockSys := initLock 90 [("k", some 5), ("k", some 5)]

def lockTrace7 : List LockEvent :=
  [LockEvent.arrive 0, LockEvent.procSet 0, LockEvent.arrive 1,
   LockEvent.procSet 1, LockEvent.tick, LockEvent.tick, LockEvent.tick,
   LockEvent.tick, LockEvent.tick]

/-- The state reached by `lockTrace7`. -/
def lockState7 : LockSys :=
  { defaultTimeout := 90,
    callers :=
      [{ key := "k", timeout := some 5, phase := CallerPhase.acquired,
         deadline := 5, seq := 0 },
       { key := "k", timeout := some 5, phase := CallerPhase.waiting,
         deadline := 5, seq := 1 }],
    waiters := [("k", [1])], held := ["k"], pubs := [],
    now := 5, arrivals := 2 }

/-- The record of the timed-out caller in `lockState7`. -/
def lockRec7 : CallerRec :=
  { key := "k", timeout := some 5, phase := CallerPhase.waiting,
    deadline := 5, seq := 1 }

/-- C7 witness: the timeout cleanup applied to the concrete run
`lockTrace7` with caller 1 timing out. -/
theorem C7_timeout_cleanup_witness :
    (runLock lockTrace7 lockCfg7 = some lockState7 ∧
      lockState7.callers.get? 1 = some lockRec7 ∧
      (applyEvent (LockEvent.timeoutFire 1) lockState7).isSome = true) ∧
    (lockRec7.phase = CallerPhase.waiting ∧ lockRec7.deadline ≤ lockState7.now ∧
      (((applyEvent (LockEvent.timeoutFire 1) lockState7).getD lockState7).callers.get? 1).map
          CallerRec.phase = some CallerPhase.timedOut) := by
  refine ⟨⟨by decide, by decide, by decide⟩, ?_⟩
  obtain ⟨s', hs'⟩ : ∃ s', applyEvent (LockEvent.timeoutFire 1) lockState7 = some s' :=
    ⟨_, rfl⟩
  have hmain := C7_timeout_cleanup 90 [("k", some 5), ("k", some 5)]
    lockTrace7 lockState7 s' 1 lockRec7 (by decide) (by decide) hs'
  refine ⟨hmain.1, hmain.2.1, ?_⟩
  rw [hs']
  exact hmain.2.2.1

theorem wlookup_append_fresh (w : List (String × List Nat)) (k : String)
    (l : List Nat) (h : k ∉ w.map Prod.fst) :
    wlookup (w ++ [(k, l)]) k = some l := by
  induction w with
  | nil => simp [wlookup, List.find?_cons]
  | cons p w ih =>
    rw [List.map_cons] at h
    have hp : ¬(p.1 = k) := fun he => h (he ▸ List.mem_cons_self p.1 _)
    have hp2 : (p.1 == k) = false := by simpa using hp
    rw [List.cons_append, wlookup, List.find?_cons, hp2]
    exact ih (fun hm => h (List.mem_cons_of_mem p.1 hm))

theorem wappend_fresh (k : String) (c : Nat) :
    ∀ (w : List (String × List Nat)), k ∉ w.map Prod.fst →
      wappend w k c = w ++ [(k, [c])] := by
  intro w
  induction w with
  | nil => intro _; rfl
  | cons p w ih =>
    intro h
    rw [List.map_cons] at h
    have hp : ¬(p.1 = k) := fun he => h (he ▸ List.mem_cons_self p.1 _)
    rw [wappend, if_neg hp, List.cons_append,
      ih (fun hm => h (List.mem_cons_of_mem p.1 hm))]

/-- Effect of the per-iteration `finally` on the entry of the removed
head future. -/
theorem wlookup_wremove_head (k : String) (x : Nat) :
    ∀ (w : List (String × List Nat)) (xs : List Nat),
      (w.map Prod.fst).Nodup → wlookup w k = some (x :: xs) →
      wlookup (wremove w k x) k = (if xs.isEmpty then none else some xs) := by
  intro w
  induction w with
  | nil => intro xs _ hl; simp [wlookup] at hl
  | cons p w ih =>
    intro xs hnd hl
    rw [List.map_cons, List.nodup_cons] at hnd
    rw [wlookup, List.find?_cons] at hl
    rw [wremove]
    by_cases hp : p.1 = k
    · have hp2 : (p.1 == k) = true := by simpa using hp
      rw [hp2] at hl
      simp at hl
      rw [if_pos hp]
      rw [hl, List.erase_cons_head]
      by_cases he : xs.isEmpty
      · rw [if_pos he, if_pos he]
        cases hw : wlookup w k with
        | none => rfl
        | some l2 =>
          exfalso
          obtain ⟨q, hq, hqk⟩ : ∃ q ∈ w, q.1 = k := by
            unfold wlookup at hw
            cases hf : w.find? (fun p => p.1 == k) with
            | none => rw [hf] at hw; cases hw
            | some q =>
              have := List.find?_some hf
              exact ⟨q, List.mem_of_find?_eq_some hf, by simpa using this⟩
          exact hnd.1 (hp ▸ hqk ▸ List.mem_map_of_mem Prod.fst hq)
      · rw [if_neg he, if_neg he, wlookup, List.find?_cons]
        simp only [hp2]
        rfl
    · have hp2 : (p.1 == k) = false := by simpa using hp
      rw [hp2] at hl
      rw [if_neg hp, wlookup, List.find?_cons, hp2]
      exact ih xs hnd.2 hl

/-- Effect of a full requeue (`finally` removal plus re-append) on the
entry: the head future moves to the back. -/
theorem wlookup_requeue (k : String) (x : Nat) :
    ∀ (w : List (String × List Nat)) (xs : List Nat),
      (w.map Prod.fst).Nodup → wlookup w k = some (x :: xs) →
      wlookup (wappend (wremove w k x) k x) k = some (xs ++ [x]) := by
  intro w
  induction w with
  | nil => intro xs _ hl; simp [wlookup] at hl
  | cons p w ih =>
    intro xs hnd hl
    rw [List.map_cons, List.nodup_cons] at hnd
    rw [wlookup, List.find?_cons] at hl
    rw [wremove]
    by_cases hp : p.1 = k
    · have hp2 : (p.1 == k) = true := by simpa using hp
      rw [hp2] at hl
      simp at hl
      rw [if_pos hp, hl, List.erase_cons_head]
      have hknotw : k ∉ w.map Prod.fst := hp ▸ hnd.1
      by_cases he : xs.isEmpty
      · rw [if_pos he]
        rw [List.isEmpty_iff] at he
        subst he
        rw [wappend_fresh k x w hknotw]
        exact wlookup_append_fresh w k [x] hknotw
      · rw [if_neg he, wappend, if_pos hp, wlookup, List.find?_cons]
        simp only [hp2]
        rfl
    · have hp2 : (p.1 == k) = false := by simpa using hp
      rw [hp2] at hl
      rw [if_neg hp, wappend, if_neg hp, wlookup, List.find?_cons, hp2]
      exact ih xs hnd.2 hl

/-- Keys after a requeue: a sublist of the old keys followed possibly
by the requeued key, so key distinctness is preserved. -/
theorem keys_requeue_nodup (w : List (String × List Nat)) (k : String) (x : Nat)
    (h : (w.map Prod.fst).Nodup) :
    (((wappend (wremove w k x) k x)).map Prod.fst).Nodup :=
  keys_wappend_nodup _ k x ((keys_wremove_sublist w k x).nodup h)

theorem runLock_append (a b : List LockEvent) (s : LockSys) :
    runLock (a ++ b) s =
      match runLock a s with
      | some s1 => runLock b s1
      | none => none := by
  rw [runLock, List.foldl_append]
  cases hra : runLock a s with
  | none =>
    rw [runLock] at hra
    rw [hra]
    exact runLock_none b
  | some s1 =>
    rw [runLock] at hra
    rw [hra]
    rfl

/-- Waking a list of distinct waiting callers turns exactly them into
`woken`, leaving everyone else alone. -/
theorem wake_all (k : String) :
    ∀ (l : List Nat) (cs : List CallerRec), l.Nodup →
      (∀ c ∈ l, ∃ r, cs.get? c = some r ∧ r.key = k ∧
        r.phase = CallerPhase.waiting) →
      (∀ c ∈ l, ∃ r, (l.foldl wakeOne cs).get? c = some r ∧ r.key = k ∧
        r.phase = CallerPhase.woken) ∧
      (∀ d, d ∉ l → (l.foldl wakeOne cs).get? d = cs.get? d) := by
  intro l
  induction l with
  | nil => intro cs _ _; exact ⟨fun c hc => absurd hc (List.not_mem_nil c), fun d _ => rfl⟩
  | cons c l ih =>
    intro cs hnd hph
    rw [List.nodup_cons] at hnd
    obtain ⟨r, hr, hrk, hrw⟩ := hph c (List.mem_cons_self c l)
    have hw1 : wakeOne cs c = cs.set c { r with phase := CallerPhase.woken } := by
      simp [wakeOne, ← List.get?_eq_getElem?, hr, hrw]
    have hph2 : ∀ d ∈ l, ∃ r2, (wakeOne cs c).get? d = some r2 ∧ r2.key = k ∧
        r2.phase = CallerPhase.waiting := by
      intro d hd
      obtain ⟨r2, hr2, hr2k, hr2w⟩ := hph d (List.mem_cons_of_mem c hd)
      refine ⟨r2, ?_, hr2k, hr2w⟩
      rw [hw1, get?_set_ne cs c d _ (fun he => hnd.1 (he ▸ hd))]
      exact hr2
    obtain ⟨ihm, ihn⟩ := ih (wakeOne cs c) hnd.2 hph2
    rw [List.foldl_cons]
    constructor
    · intro d hd
      cases hd with
      | head =>
        refine ⟨{ r with phase := CallerPhase.woken }, ?_, hrk, rfl⟩
        rw [ihn c hnd.1, hw1]
        exact get?_set_self cs c _ r hr
      | tail _ hd => exact ihm d hd
    · intro d hd
      have hdc : d ≠ c := fun he => hd (he ▸ List.mem_cons_self c l)
      have hdl : d ∉ l := fun hm => hd (List.mem_cons_of_mem c hm)
      rw [ihn d hdl, hw1, get?_set_ne cs c d _ (fun he => hdc he.symm)]

theorem runLock_cons_some {e : LockEvent} {s s1 : LockSys}
    (h : applyEvent e s = some s1) (evs : List LockEvent) :
    runLock (e :: evs) s = runLock evs s1 := by
  rw [runLock_cons, h]

theorem runLock_append_some {a : List LockEvent} {s s1 : LockSys}
    (h : runLock a s = some s1) (b : List LockEvent) :
    runLock (a ++ b) s = runLock b s1 := by
  rw [runLock_append, h]

/-- Running the retry continuations of the woken waiters in wake order
rotates each one to the back of the entry, so after all of them the
entry is back in arrival order with every caller's fresh `SET` in
flight. -/
theorem retry_loop (k : String) :
    ∀ (l₁ l₂ : List Nat) (s : LockSys),
      (s.waiters.map Prod.fst).Nodup →
      wlookup s.waiters k = some (l₁ ++ l₂) →
      (l₁ ++ l₂).Nodup →
      (∀ c ∈ l₁, ∃ r, s.callers.get? c = some r ∧ r.key = k ∧
        r.phase = CallerPhase.woken) →
      (∀ c ∈ l₂, ∃ r, s.callers.get? c = some r ∧ r.key = k ∧
        r.phase = CallerPhase.sentSet false) →
      ∃ s', runLock (l₁.map LockEvent.retry) s = some s' ∧
        (s'.waiters.map Prod.fst).Nodup ∧
        wlookup s'.waiters k = some (l₂ ++ l₁) ∧
        (∀ c ∈ l₂ ++ l₁, ∃ r, s'.callers.get? c = some r ∧ r.key = k ∧
          r.phase = CallerPhase.sentSet false) ∧
        s'.held = s.held ∧ s'.pubs = s.pubs ∧ s'.now = s.now ∧
        (∀ d, d ∉ l₁ → s'.callers.get? d = s.callers.get? d) := by
  intro l₁
  induction l₁ with
  | nil =>
    intro l₂ s hkeys hl hnd hw hs
    refine ⟨s, rfl, hkeys, by simpa using hl, ?_, rfl, rfl, rfl, fun d _ => rfl⟩
    intro c hc
    rw [List.append_nil] at hc
    exact hs c hc
  | cons c l₁ ih =>
    intro l₂ s hkeys hl hnd hw hs
    obtain ⟨r, hr, hrk, hrw⟩ := hw c (List.mem_cons_self c l₁)
    have hnd0 : (c :: (l₁ ++ l₂)).Nodup := by simpa using hnd
    rw [List.nodup_cons] at hnd0
    have hstep : applyEvent (LockEvent.retry c) s = some
        { s with
          callers := s.callers.set c { r with phase := CallerPhase.sentSet false },
          waiters := wappend (wremove s.waiters k c) k c } := by
      simp [applyEvent, ← List.get?_eq_getElem?, hr, hrw, hrk]
    have hl' : wlookup s.waiters k = some (c :: (l₁ ++ l₂)) := by
      simpa using hl
    have hkeys₁ : ((wappend (wremove s.waiters k c) k c).map Prod.fst).Nodup :=
      keys_requeue_nodup s.waiters k c hkeys
    have hl₁ : wlookup (wappend (wremove s.waiters k c) k c) k
        = some (l₁ ++ (l₂ ++ [c])) := by
      rw [← List.append_assoc]
      exact wlookup_requeue k c s.waiters (l₁ ++ l₂) hkeys hl'
    have hnd₁ : (l₁ ++ (l₂ ++ [c])).Nodup := by
      rw [← List.append_assoc]
      exact ((List.perm_append_singleton c (l₁ ++ l₂)).nodup_iff).mpr
        (by rw [List.nodup_cons]; exact hnd0)
    have hw₁ : ∀ d ∈ l₁, ∃ r2,
        (s.callers.set c { r with phase := CallerPhase.sentSet false }).get? d
          = some r2 ∧ r2.key = k ∧ r2.phase = CallerPhase.woken := by
      intro d hd
      obtain ⟨r2, hr2, hr2k, hr2w⟩ := hw d (List.mem_cons_of_mem c hd)
      have hdc : d ≠ c := fun he =>
        hnd0.1 (he ▸ List.mem_append_left l₂ hd)
      exact ⟨r2, by
        rw [get?_set_ne s.callers c d _ (fun he => hdc he.symm)]; exact hr2,
        hr2k, hr2w⟩
    have hs₁ : ∀ d ∈ l₂ ++ [c], ∃ r2,
        (s.callers.set c { r with phase := CallerPhase.sentSet false }).get? d
          = some r2 ∧ r2.key = k ∧ r2.phase = CallerPhase.sentSet false := by
      intro d hd
      rw [List.mem_append] at hd
      rcases hd with hd | hd
      · obtain ⟨r2, hr2, hr2k, hr2w⟩ := hs d hd
        have hdc : d ≠ c := fun he =>
          hnd0.1 (he ▸ List.mem_append_right l₁ hd)
        exact ⟨r2, by
          rw [get?_set_ne s.callers c d _ (fun he => hdc he.symm)]; exact hr2,
          hr2k, hr2w⟩
      · simp at hd
        subst hd
        exact ⟨{ r with phase := CallerPhase.sentSet false },
          get?_set_self s.callers d _ r hr, hrk, rfl⟩
    obtain ⟨s', hrun', hkeys', hl'', hph', hheld', hpubs', hnow', hout'⟩ :=
      ih (l₂ ++ [c])
        { s with
          callers := s.callers.set c { r with phase := CallerPhase.sentSet false },
          waiters := wappend (wremove s.waiters k c) k c }
        hkeys₁ hl₁ hnd₁ hw₁ hs₁
    refine ⟨s', ?_, hkeys', ?_, ?_, hheld', hpubs', hnow', ?_⟩
    · rw [List.map_cons, runLock_cons, hstep]
      exact hrun'
    · rw [hl'']
      simp
    · intro d hd
      refine hph' d ?_
      simp at hd ⊢
      tauto
    · intro d hd
      have hdc : d ≠ c := fun he => hd (he ▸ List.mem_cons_self c l₁)
      have hdl : d ∉ l₁ := fun hm => hd (List.mem_cons_of_mem c hm)
      rw [hout' d hdl,
        get?_set_ne s.callers c d _ (fun he => hdc he.symm)]

/-- Processing the retried `SET`s of the remaining waiters while the
key is held turns each back into a plain waiter without touching the
map. -/
theorem procset_lose_loop (k : String) :
    ∀ (l : List Nat) (s : LockSys), l.Nodup → k ∈ s.held →
      (∀ c ∈ l, ∃ r, s.callers.get? c = some r ∧ r.key = k ∧
        r.phase = CallerPhase.sentSet false) →
      ∃ s', runLock (l.map LockEvent.procSet) s = some s' ∧
        s'.waiters = s.waiters ∧ s'.held = s.held ∧ s'.pubs = s.pubs ∧
        s'.now = s.now ∧
        (∀ c ∈ l, (s'.callers.get? c).map CallerRec.phase =
          some CallerPhase.waiting) ∧
        (∀ d, d ∉ l → s'.callers.get? d = s.callers.get? d) := by
  intro l
  induction l with
  | nil =>
    intro s _ _ _
    exact ⟨s, rfl, rfl, rfl, rfl, rfl,
      fun c hc => absurd hc (List.not_mem_nil c), fun d _ => rfl⟩
  | cons c l ih =>
    intro s hnd hheld hph
    rw [List.nodup_cons] at hnd
    obtain ⟨r, hr, hrk, hrp⟩ := hph c (List.mem_cons_self c l)
    have hstep : applyEvent (LockEvent.procSet c) s = some
        { s with
          callers := s.callers.set c { r with phase := CallerPhase.waiting } } := by
      simp [applyEvent, ← List.get?_eq_getElem?, hr, hrp, hrk, hheld]
    have hph₁ : ∀ d ∈ l, ∃ r2,
        (s.callers.set c { r with phase := CallerPhase.waiting }).get? d
          = some r2 ∧ r2.key = k ∧ r2.phase = CallerPhase.sentSet false := by
      intro d hd
      obtain ⟨r2, hr2, hr2k, hr2w⟩ := hph d (List.mem_cons_of_mem c hd)
      have hdc : d ≠ c := fun he => hnd.1 (he ▸ hd)
      exact ⟨r2, by
        rw [get?_set_ne s.callers c d _ (fun he => hdc he.symm)]; exact hr2,
        hr2k, hr2w⟩
    obtain ⟨s', hrun', hwait', hheld', hpubs', hnow', hph', hout'⟩ :=
      ih { s with
            callers := s.callers.set c { r with phase := CallerPhase.waiting } }
        hnd.2 hheld hph₁
    refine ⟨s', ?_, hwait', hheld', hpubs', hnow', ?_, ?_⟩
    · rw [List.map_cons, runLock_cons, hstep]
      exact hrun'
    · intro d hd
      cases hd with
      | head =>
        rw [hout' c hnd.1, get?_set_self s.callers c _ r hr]
        rfl
      | tail _ hd => exact hph' d hd
    · intro d hd
      have hdc : d ≠ c := fun he => hd (he ▸ List.mem_cons_self c l)
      have hdl : d ∉ l := fun hm => hd (List.mem_cons_of_mem c hm)
      rw [hout' d hdl,
        get?_set_ne s.callers c d _ (fun he => hdc he.symm)]

/-- The canonical cooperative schedule of one `release(k)`: `DEL`,
`PUBLISH`, the reader waking every waiter of `k` in list order, then
each woken continuation and each retried `SET` processed in that same
order, with no other caller interleaved. -/
def canonicalWake (k : String) (l : List Nat) : List LockEvent :=
  LockEvent.redisDel k :: LockEvent.redisPub k :: LockEvent.readerStep ::
    (l.map LockEvent.retry ++ l.map LockEvent.procSet)

/-- C3 amended: waiters of a key queue in arrival order and the reader
wakes all of them in that order on release; when the woken waiters'
continuations and retried `SET`s are processed in wake order with no
other caller's `SET` on the key interleaved (the canonical cooperative
schedule), the earliest waiter acquires the key and the remaining
waiters re-queue behind it in their original order.  (By the barging
counterexample this ordering guarantee does not survive an interleaved
newcomer, so the no-interleaving clause is essential.) -/
theorem C3_release_fifo (s : LockSys) (k : String) (c : Nat) (rest : List Nat)
    (hkeys : (s.waiters.map Prod.fst).Nodup)
    (hlook : wlookup s.waiters k = some (c :: rest))
    (hnodup : (c :: rest).Nodup)
    (hph : ∀ d ∈ c :: rest, ∃ r, s.callers.get? d = some r ∧ r.key = k ∧
      r.phase = CallerPhase.waiting)
    (hpubs : s.pubs = [])
    (hheld : s.held.count k = 1) :
    ∃ s', runLock (canonicalWake k (c :: rest)) s = some s' ∧
      (s'.callers.get? c).map CallerRec.phase = some CallerPhase.acquired ∧
      (∀ d ∈ rest, (s'.callers.get? d).map CallerRec.phase =
        some CallerPhase.waiting) ∧
      wlookup s'.waiters k = (if rest.isEmpty then none else some rest) ∧
      k ∈ s'.held := by
  have hnd0 : c ∉ rest ∧ rest.Nodup := List.nodup_cons.mp hnodup
  -- DEL then PUBLISH
  have hdel : applyEvent (LockEvent.redisDel k) s =
      some { s with held := s.held.erase k } := rfl
  have hpub : applyEvent (LockEvent.redisPub k) { s with held := s.held.erase k } =
      some { s with held := s.held.erase k, pubs := s.pubs ++ [k] } := rfl
  have hknot : k ∉ s.held.erase k := by
    rw [← List.count_eq_zero, List.count_erase_self, hheld]
  -- the reader wakes every waiter of k
  have hguard : (c :: rest).all (unresolvedFut s.callers) = true := by
    rw [List.all_eq_true]
    intro d hd
    obtain ⟨r, hr, _, hrw⟩ := hph d hd
    simp [unresolvedFut, ← List.get?_eq_getElem?, hr, hrw]
  have hreader : applyEvent LockEvent.readerStep
      { s with held := s.held.erase k, pubs := s.pubs ++ [k] } =
      some
        { s with
          held := s.held.erase k
          pubs := []
          callers := (c :: rest).foldl wakeOne s.callers } := by
    simp [applyEvent, hpubs, hlook, hguard]
  obtain ⟨hwokem, hwoken⟩ := wake_all k (c :: rest) s.callers hnodup hph
  -- the retries restore the entry in arrival order
  obtain ⟨s4, hrun4, hkeys4, hl4, hph4, hheld4, hpubs4, hnow4, hout4⟩ :=
    retry_loop k (c :: rest) []
      { s with
        held := s.held.erase k
        pubs := []
        callers := (c :: rest).foldl wakeOne s.callers }
      hkeys (by simpa using hlook) (by simpa using hnodup)
      hwokem (fun d hd => absurd hd (List.not_mem_nil d))
  rw [List.nil_append] at hl4 hph4
  -- the head waiter's SET wins
  obtain ⟨rC, hrC, hrCk, hrCp⟩ := hph4 c (List.mem_cons_self c rest)
  have hknot4 : rC.key ∉ s4.held := by
    rw [hrCk, hheld4]
    exact hknot
  have hstepC : applyEvent (LockEvent.procSet c) s4 = some
      { s4 with
        callers := s4.callers.set c { rC with phase := CallerPhase.acquired },
        waiters := wremove s4.waiters rC.key c,
        held := s4.held ++ [rC.key] } := by
    simp only [applyEvent, ← List.get?_eq_getElem?, hrC, hrCp]
    rw [if_neg hknot4]
  -- the remaining SETs lose
  have hph5 : ∀ d ∈ rest, ∃ r2,
      (s4.callers.set c { rC with phase := CallerPhase.acquired }).get? d
        = some r2 ∧ r2.key = k ∧ r2.phase = CallerPhase.sentSet false := by
    intro d hd
    obtain ⟨r2, hr2, hr2k, hr2w⟩ := hph4 d (List.mem_cons_of_mem c hd)
    have hdc : d ≠ c := fun he => hnd0.1 (he ▸ hd)
    exact ⟨r2, by
      rw [get?_set_ne s4.callers c d _ (fun he => hdc he.symm)]; exact hr2,
      hr2k, hr2w⟩
  obtain ⟨s6, hrun6, hwait6, hheld6, hpubs6, hnow6, hph6, hout6⟩ :=
    procset_lose_loop k rest
      { s4 with
        callers := s4.callers.set c { rC with phase := CallerPhase.acquired },
        waiters := wremove s4.waiters rC.key c,
        held := s4.held ++ [rC.key] }
      hnd0.2 (by simp [hrCk]) hph5
  refine ⟨s6, ?_, ?_, hph6, ?_, ?_⟩
  · rw [canonicalWake, runLock_cons_some hdel, runLock_cons_some hpub,
      runLock_cons_some hreader, runLock_append_some hrun4, List.map_cons,
      runLock_cons_some hstepC, hrun6]
  · rw [hout6 c hnd0.1]
    rw [show ({ s4 with
        callers := s4.callers.set c { rC with phase := CallerPhase.acquired },
        waiters := wremove s4.waiters rC.key c,
        held := s4.held ++ [rC.key] } : LockSys).callers
      = s4.callers.set c { rC with phase := CallerPhase.acquired } from rfl]
    rw [get?_set_self s4.callers c _ rC hrC]
    rfl
  · rw [hwait6]
    rw [show ({ s4 with
        callers := s4.callers.set c { rC with phase := CallerPhase.acquired },
        waiters := wremove s4.waiters rC.key c,
        held := s4.held ++ [rC.key] } : LockSys).waiters
      = wremove s4.waiters rC.key c from rfl]
    rw [hrCk]
    exact wlookup_wremove_head k c s4.waiters rest hkeys4 hl4
  · rw [hheld6]
    simp [hrCk]

def fifoCfg : LockSys :=
  initLock 100 [("k", some 100), ("k", some 100), ("k", some 100)]

/-- Caller 0 acquires the key; callers 1 and 2 arrive in that order,
lose their `SET NX` and wait. -/
def fifoTrace : List LockEvent :=
  [LockEvent.arrive 0, LockEvent.procSet 0, LockEvent.arrive 1,
   LockEvent.procSet 1, LockEvent.arrive 2, LockEvent.procSet 2]

/-- The state reached by `fifoTrace`. -/
def fifoState : LockSys :=
  { defaultTimeout := 100,
    callers :=
      [{ key := "k", timeout := some 100, phase := CallerPhase.acquired,
         deadline := 100, seq := 0 },
       { key := "k", timeout := some 100, phase := CallerPhase.waiting,
         deadline := 100, seq := 1 },
       { key := "k", timeout := some 100, phase := CallerPhase.waiting,
         deadline := 100, seq := 2 }],
    waiters := [("k", [1, 2])], held := ["k"], pubs := [],
    now := 0, arrivals := 3 }

theorem C3_release_fifo_witness :
    runLock fifoTrace fifoCfg = some fifoState ∧
    ∃ s', runLock (canonicalWake "k" (1 :: [2])) fifoState = some s' ∧
      (s'.callers.get? 1).map CallerRec.phase = some CallerPhase.acquired ∧
      (∀ d ∈ [2], (s'.callers.get? d).map CallerRec.phase =
        some CallerPhase.waiting) ∧
      wlookup s'.waiters "k" =
        (if ([2] : List Nat).isEmpty then none else some [2]) ∧
      "k" ∈ s'.held :=
  ⟨by decide,
    C3_release_fifo fifoState "k" 1 [2] (by decide) (by decide) (by decide)
      (by
        intro d hd
        cases hd with
        | head => exact ⟨_, rfl, rfl, rfl⟩
        | tail _ hd =>
          cases hd with
          | head => exact ⟨_, rfl, rfl, rfl⟩
          | tail _ hd => cases hd)
      rfl (by decide)⟩

/-! ### Span lifecycle (ipapp/logger/span.py)

`Span.__init__` stores `parent` and appends the new span to the
parent's `_children`; `Span.skip` sets `_skip` on the span and
recursively on its `_children`; `Span.finish` sets `_finish_stamp`
and, when the span has no parent or its parent is already handled,
runs `_handle_children` over the subtree, emits the span itself to
`logger.handle_span` unless skipped, and marks it handled;
`Span._handle_children` walks the finished children, recursing and
emitting the un-skipped ones, and marks every finished child handled.
Spans are identified by their index in creation order; the emission
log records the `handle_span` calls in order. -/

structure SpanRec where
  parent : Option Nat
  children : List Nat
  skip : Bool
  finished : Bool
  handled : Bool
  deriving DecidableEq, Repr

structure SpanSys where
  spans : List SpanRec
  log : List Nat
  deriving DecidableEq, Repr

/-- `Span.skip` (span.py lines 64-72): set `_skip`, recurse into
`_children`.  Fuel-structural; `fuel = spans.length` is always enough
because a child's index is strictly larger than its parent's. -/
def skipAllF : Nat → List SpanRec → Nat → List SpanRec
  | 0, spans, _ => spans
  | Nat.succ fuel, spans, x =>
    match spans.get? x with
    | none => spans
    | some r =>
      r.children.foldl (fun sp c => skipAllF fuel sp c)
        (spans.set x { r with skip := true })

/-- `Span._handle_children` (span.py lines 303-310) on the pair
(spans, emission log): for each finished child, if it is not skipped,
recurse into it and then emit it; in either case mark it handled. -/
def handle_childrenF : Nat → List SpanRec × List Nat → Nat →
    List SpanRec × List Nat
  | 0, st, _ => st
  | Nat.succ fuel, st, x =>
    match st.1.get? x with
    | none => st
    | some r =>
      r.children.foldl (fun st2 c =>
        match st2.1.get? c with
        | none => st2
        | some rc =>
          if rc.finished then
            if rc.skip then (st2.1.set c { rc with handled := true }, st2.2)
            else
              match (handle_childrenF fuel st2 c).1.get? c with
              | none => handle_childrenF fuel st2 c
              | some rc2 =>
                ((handle_childrenF fuel st2 c).1.set c
                   { rc2 with handled := true },
                 (handle_childrenF fuel st2 c).2 ++ [c])
          else st2) st

inductive SpanEvent where
  | newRoot
  | newChild (p : Nat)
  | skipEv (x : Nat)
  | finishEv (x : Nat)
  deriving DecidableEq, Repr

/-- One span-lifecycle step; `none` when the event is not enabled
(unknown span, or finishing a span whose scoped block already
exited). -/
def newSpan (p : Option Nat) (sk : Bool) : SpanRec :=
  { parent := p, children := [], skip := sk, finished := false,
    handled := false }

def applySpanEvent : SpanEvent → SpanSys → Option SpanSys
  | SpanEvent.newRoot, s =>
    some { s with spans := s.spans ++ [newSpan none false] }
  | SpanEvent.newChild p, s =>
    match s.spans.get? p with
    | none => none
    | some r =>
      some { s with spans :=
        (s.spans.set p { r with children := r.children ++ [s.spans.length] })
          ++ [newSpan (some p) r.skip] }
  | SpanEvent.skipEv x, s =>
    match s.spans.get? x with
    | none => none
    | some _ => some { s with spans := skipAllF s.spans.length s.spans x }
  | SpanEvent.finishEv x, s =>
    match s.spans.get? x with
    | none => none
    | some r =>
      if r.finished then none
      else
        let spans1 := s.spans.set x { r with finished := true }
        let pOk : Bool :=
          match r.parent with
          | none => true
          | some p =>
            match spans1.get? p with
            | some rp => rp.handled
            | none => false
        if pOk then
          let st := handle_childrenF s.spans.length (spans1, s.log) x
          match st.1.get? x with
          | none => none
          | some r2 =>
            some { spans := st.1.set x { r2 with handled := true },
                   log := if r.skip then st.2 else st.2 ++ [x] }
        else some { spans := spans1, log := s.log }

def runSpan (evs : List SpanEvent) (s : SpanSys) : Option SpanSys :=
  evs.foldl (fun acc e => acc.bind (applySpanEvent e)) (some s)

def initSpan : SpanSys := { spans := [], log := [] }

/-- The strict-ancestor chain of `d`, climbing `parent` links; with
`parentLt` the chain strictly decreases, so `fuel = spans.length`
always suffices. -/
def ancChainF : Nat → List SpanRec → Nat → List Nat
  | 0, _, _ => []
  | Nat.succ fuel, spans, d =>
    match spans.get? d with
    | none => []
    | some r =>
      match r.parent with
      | none => []
      | some p => p :: ancChainF fuel spans p

def ancChain (spans : List SpanRec) (d : Nat) : List Nat :=
  ancChainF spans.length spans d

/-- `d` lies in the subtree rooted at `x` (via `parent` links). -/
def descOrSelf (spans : List SpanRec) (d x : Nat) : Prop :=
  d = x ∨ x ∈ ancChain spans d

/-- The root of the trace of `x`: climb `parent` links to the top. -/
def rootIdxF : Nat → List SpanRec → Nat → Nat
  | 0, _, x => x
  | Nat.succ fuel, spans, x =>
    match spans.get? x with
    | none => x
    | some r =>
      match r.parent with
      | none => x
      | some p => rootIdxF fuel spans p

def rootIdx (spans : List SpanRec) (x : Nat) : Nat :=
  rootIdxF spans.length spans x

theorem get?_append_lt {α : Type} (l : List α) (a : α) (i : Nat)
    (h : i < l.length) : (l ++ [a]).get? i = l.get? i := by
  rw [List.get?_eq_getElem?, List.get?_eq_getElem?]
  exact List.getElem?_append_left h

theorem get?_append_len {α : Type} (l : List α) (a : α) :
    (l ++ [a]).get? l.length = some a := by
  rw [List.get?_eq_getElem?]
  simp

theorem get?_append_gt {α : Type} (l : List α) (a : α) (i : Nat)
    (h : l.length < i) : (l ++ [a]).get? i = none := by
  rw [List.get?_eq_getElem?, List.getElem?_eq_none_iff]
  simp
  omega

theorem runSpan_none (evs : List SpanEvent) :
    evs.foldl (fun acc e => acc.bind (applySpanEvent e)) none = none := by
  induction evs with
  | nil => rfl
  | cons e evs ih => simpa using ih

theorem runSpan_cons (e : SpanEvent) (evs : List SpanEvent) (s : SpanSys) :
    runSpan (e :: evs) s =
      match applySpanEvent e s with
      | some s1 => runSpan evs s1
      | none => none := by
  rw [runSpan, List.foldl_cons]
  cases happ : applySpanEvent e s with
  | none => simpa [happ] using runSpan_none evs
  | some s1 => simp [happ, runSpan]

theorem runSpan_cons_some {e : SpanEvent} {s s1 : SpanSys}
    (h : applySpanEvent e s = some s1) (evs : List SpanEvent) :
    runSpan (e :: evs) s = runSpan evs s1 := by
  rw [runSpan_cons, h]

/-- Only the `handled` flags may differ, and only upward (used for
`_handle_children`, which marks children handled and touches nothing
else). -/
def HOnly (a b : List SpanRec) : Prop :=
  a.length = b.length ∧
  ∀ d rd, a.get? d = some rd →
    ∃ hb, b.get? d = some { rd with handled := hb } ∧
      (rd.handled = true → hb = true)

/-- Only the `skip` flags may differ, and only upward (used for
`Span.skip`, which sets skip flags and touches nothing else). -/
def SkipOnly (a b : List SpanRec) : Prop :=
  a.length = b.length ∧
  ∀ d rd, a.get? d = some rd →
    ∃ sb, b.get? d = some { rd with skip := sb } ∧
      (rd.skip = true → sb = true)

theorem honly_refl (a : List SpanRec) : HOnly a a :=
  ⟨rfl, fun d rd h => ⟨rd.handled, h, fun hh => hh⟩⟩

theorem honly_trans {a b c : List SpanRec} (h1 : HOnly a b) (h2 : HOnly b c) :
    HOnly a c := by
  refine ⟨h1.1.trans h2.1, fun d rd h => ?_⟩
  obtain ⟨hb, hb1, hb2⟩ := h1.2 d rd h
  obtain ⟨hc, hc1, hc2⟩ := h2.2 d _ hb1
  exact ⟨hc, hc1, fun hh => hc2 (hb2 hh)⟩

theorem skipOnly_refl (a : List SpanRec) : SkipOnly a a :=
  ⟨rfl, fun d rd h => ⟨rd.skip, h, fun hh => hh⟩⟩

theorem skipOnly_trans {a b c : List SpanRec} (h1 : SkipOnly a b)
    (h2 : SkipOnly b c) : SkipOnly a c := by
  refine ⟨h1.1.trans h2.1, fun d rd h => ?_⟩
  obtain ⟨hb, hb1, hb2⟩ := h1.2 d rd h
  obtain ⟨hc, hc1, hc2⟩ := h2.2 d _ hb1
  exact ⟨hc, hc1, fun hh => hc2 (hb2 hh)⟩

theorem honly_get?_none {a b : List SpanRec} (h : HOnly a b) (d : Nat)
    (hd : a.get? d = none) : b.get? d = none := by
  rw [List.get?_eq_getElem?, List.getElem?_eq_none_iff] at hd ⊢
  rw [← h.1]
  exact hd

theorem get?_lt_length {α : Type} (l : List α) (i : Nat) (a : α)
    (h : l.get? i = some a) : i < l.length := by
  rw [List.get?_eq_getElem?] at h
  by_contra hc
  rw [List.getElem?_eq_none_iff.mpr (by omega)] at h
  exact Option.noConfusion h

theorem ancChainF_stable (spans : List SpanRec)
    (hlt : ∀ i r p, spans.get? i = some r → r.parent = some p → p < i) :
    ∀ fuel1 d fuel2, d < fuel1 → d < fuel2 →
      ancChainF fuel1 spans d = ancChainF fuel2 spans d := by
  intro fuel1
  induction fuel1 with
  | zero => intro d fuel2 h1 _; omega
  | succ f1 ih =>
    intro d fuel2 h1 h2
    cases fuel2 with
    | zero => omega
    | succ f2 =>
      cases hd : spans.get? d with
      | none => simp [ancChainF, ← List.get?_eq_getElem?, hd]
      | some r =>
        cases hp : r.parent with
        | none => simp [ancChainF, ← List.get?_eq_getElem?, hd, hp]
        | some p =>
          have hpd := hlt d r p hd hp
          simp only [ancChainF, ← List.get?_eq_getElem?, hd, hp]
          rw [ih p f2 (by omega) (by omega)]

theorem anc_lt (spans : List SpanRec)
    (hlt : ∀ i r p, spans.get? i = some r → r.parent = some p → p < i) :
    ∀ fuel d p, p ∈ ancChainF fuel spans d → p < d := by
  intro fuel
  induction fuel with
  | zero => intro d p h; simp [ancChainF] at h
  | succ f ih =>
    intro d p h
    cases hd : spans.get? d with
    | none => simp [ancChainF, ← List.get?_eq_getElem?, hd] at h
    | some r =>
      cases hp : r.parent with
      | none => simp [ancChainF, ← List.get?_eq_getElem?, hd, hp] at h
      | some q =>
        simp only [ancChainF, ← List.get?_eq_getElem?, hd, hp, List.mem_cons] at h
        rcases h with h | h
        · subst h; exact hlt d r p hd hp
        · exact (ih q p h).trans (hlt d r q hd hp)

theorem ancChain_lt (spans : List SpanRec)
    (hlt : ∀ i r p, spans.get? i = some r → r.parent = some p → p < i)
    (d p : Nat) (h : p ∈ ancChain spans d) : p < d :=
  anc_lt spans hlt spans.length d p h

theorem ancChain_none (spans : List SpanRec) (d : Nat)
    (hd : spans.get? d = none) : ancChain spans d = [] := by
  rw [ancChain]
  cases hL : spans.length with
  | zero => rfl
  | succ n => simp [ancChainF, ← List.get?_eq_getElem?, hd]

theorem ancChain_root (spans : List SpanRec) (d : Nat) (r : SpanRec)
    (hd : spans.get? d = some r) (hp : r.parent = none) :
    ancChain spans d = [] := by
  rw [ancChain]
  cases hL : spans.length with
  | zero => rfl
  | succ n => simp [ancChainF, ← List.get?_eq_getElem?, hd, hp]

theorem ancChain_unfold (spans : List SpanRec)
    (hlt : ∀ i r p, spans.get? i = some r → r.parent = some p → p < i)
    (d : Nat) (r : SpanRec) (p : Nat)
    (hd : spans.get? d = some r) (hp : r.parent = some p) :
    ancChain spans d = p :: ancChain spans p := by
  have hdL : d < spans.length := get?_lt_length spans d r hd
  have hpd : p < d := hlt d r p hd hp
  rw [ancChain, ancChain]
  cases hL : spans.length with
  | zero => omega
  | succ n =>
    rw [show ancChainF (Nat.succ n) spans d = p :: ancChainF n spans p from by
      simp only [ancChainF, ← List.get?_eq_getElem?, hd, hp]]
    rw [ancChainF_stable spans hlt n p (Nat.succ n) (by omega) (by omega)]

theorem anc_trans (spans : List SpanRec)
    (hlt : ∀ i r p, spans.get? i = some r → r.parent = some p → p < i) :
    ∀ d x y, x ∈ ancChain spans d → y ∈ ancChain spans x →
      y ∈ ancChain spans d := by
  intro d
  induction d using Nat.strong_induction_on with
  | _ d ih =>
    intro x y hx hy
    cases hd : spans.get? d with
    | none => rw [ancChain_none spans d hd] at hx; cases hx
    | some r =>
      cases hq : r.parent with
      | none => rw [ancChain_root spans d r hd hq] at hx; cases hx
      | some q =>
        rw [ancChain_unfold spans hlt d r q hd hq] at hx ⊢
        rcases List.mem_cons.mp hx with h | h
        · subst h; exact List.mem_cons_of_mem _ hy
        · exact List.mem_cons_of_mem _ (ih q (hlt d r q hd hq) x y h hy)

theorem anc_linear (spans : List SpanRec)
    (hlt : ∀ i r p, spans.get? i = some r → r.parent = some p → p < i) :
    ∀ d x y, x ∈ ancChain spans d → y ∈ ancChain spans d →
      x = y ∨ x ∈ ancChain spans y ∨ y ∈ ancChain spans x := by
  intro d
  induction d using Nat.strong_induction_on with
  | _ d ih =>
    intro x y hx hy
    cases hd : spans.get? d with
    | none => rw [ancChain_none spans d hd] at hx; cases hx
    | some r =>
      cases hq : r.parent with
      | none => rw [ancChain_root spans d r hd hq] at hx; cases hx
      | some q =>
        rw [ancChain_unfold spans hlt d r q hd hq] at hx hy
        rcases List.mem_cons.mp hx with h1 | h1 <;>
          rcases List.mem_cons.mp hy with h2 | h2
        · left; rw [h1, h2]
        · right; right; rw [h1]; exact h2
        · right; left; rw [h2]; exact h1
        · exact ih q (hlt d r q hd hq) x y h1 h2

/-- Subtrees of distinct children of the same node are disjoint. -/
theorem sibling_disjoint (spans : List SpanRec)
    (hlt : ∀ i r p, spans.get? i = some r → r.parent = some p → p < i)
    (c e x : Nat) (rc re : SpanRec)
    (hc : spans.get? c = some rc) (hcp : rc.parent = some x)
    (he : spans.get? e = some re) (hep : re.parent = some x)
    (hne : c ≠ e) (d : Nat)
    (hdc : descOrSelf spans d c) (hde : descOrSelf spans d e) : False := by
  have hxc : x < c := hlt c rc x hc hcp
  have hxe : x < e := hlt e re x he hep
  rcases hdc with hdc | hdc <;> rcases hde with hde | hde
  · exact hne (hdc ▸ hde ▸ rfl)
  · subst hdc
    rw [ancChain_unfold spans hlt d rc x hc hcp] at hde
    rcases List.mem_cons.mp hde with h | h
    · omega
    · have := ancChain_lt spans hlt x e h
      omega
  · subst hde
    rw [ancChain_unfold spans hlt d re x he hep] at hdc
    rcases List.mem_cons.mp hdc with h | h
    · omega
    · have := ancChain_lt spans hlt x c h
      omega
  · rcases anc_linear spans hlt d c e hdc hde with h | h | h
    · exact hne h
    · rw [ancChain_unfold spans hlt e re x he hep] at h
      rcases List.mem_cons.mp h with h | h
      · omega
      · have := ancChain_lt spans hlt x c h
        omega
    · rw [ancChain_unfold spans hlt c rc x hc hcp] at h
      rcases List.mem_cons.mp h with h | h
      · omega
      · have := ancChain_lt spans hlt x e h
        omega

/-- Every strict descendant of `x` lies in the subtree of one of the
children of `x`. -/
theorem desc_child (spans : List SpanRec)
    (hlt : ∀ i r p, spans.get? i = some r → r.parent = some p → p < i) :
    ∀ d x, x ∈ ancChain spans d →
      ∃ c rc, spans.get? c = some rc ∧ rc.parent = some x ∧
        descOrSelf spans d c := by
  intro d
  induction d using Nat.strong_induction_on with
  | _ d ih =>
    intro x hx
    cases hd : spans.get? d with
    | none => rw [ancChain_none spans d hd] at hx; cases hx
    | some r =>
      cases hq : r.parent with
      | none => rw [ancChain_root spans d r hd hq] at hx; cases hx
      | some q =>
        rw [ancChain_unfold spans hlt d r q hd hq] at hx
        rcases List.mem_cons.mp hx with h | h
        · exact ⟨d, r, hd, h ▸ hq, Or.inl rfl⟩
        · obtain ⟨c, rc, hc, hcp, hdesc⟩ := ih q (hlt d r q hd hq) x h
          refine ⟨c, rc, hc, hcp, ?_⟩
          rcases hdesc with h2 | h2
          · subst h2
            exact Or.inr (by
              rw [ancChain_unfold spans hlt d r q hd hq]
              exact List.mem_cons_self q _)
          · exact Or.inr (by
              rw [ancChain_unfold spans hlt d r q hd hq]
              exact List.mem_cons_of_mem _ h2)

/-- The ancestor chain only depends on the `parent` fields. -/
theorem ancChainF_congr (a b : List SpanRec)
    (hpar : ∀ d ra, a.get? d = some ra →
      ∃ rb, b.get? d = some rb ∧ rb.parent = ra.parent)
    (hnone : ∀ d, a.get? d = none → b.get? d = none) :
    ∀ fuel d, ancChainF fuel a d = ancChainF fuel b d := by
  intro fuel
  induction fuel with
  | zero => intro d; rfl
  | succ f ih =>
    intro d
    cases hd : a.get? d with
    | none => simp [ancChainF, ← List.get?_eq_getElem?, hd, hnone d hd]
    | some ra =>
      obtain ⟨rb, hb, hbp⟩ := hpar d ra hd
      cases hp : ra.parent with
      | none => simp [ancChainF, ← List.get?_eq_getElem?, hd, hb, hbp, hp]
      | some p =>
        simp only [ancChainF, ← List.get?_eq_getElem?, hd, hb, hbp, hp]
        rw [ih p]

theorem ancChain_congr (a b : List SpanRec) (hlen : a.length = b.length)
    (hpar : ∀ d ra, a.get? d = some ra →
      ∃ rb, b.get? d = some rb ∧ rb.parent = ra.parent)
    (hnone : ∀ d, a.get? d = none → b.get? d = none)
    (d : Nat) : ancChain a d = ancChain b d := by
  rw [ancChain, ancChain, hlen, ancChainF_congr a b hpar hnone]

theorem descOrSelf_congr (a b : List SpanRec) (hlen : a.length = b.length)
    (hpar : ∀ d ra, a.get? d = some ra →
      ∃ rb, b.get? d = some rb ∧ rb.parent = ra.parent)
    (hnone : ∀ d, a.get? d = none → b.get? d = none)
    (d x : Nat) : descOrSelf a d x ↔ descOrSelf b d x := by
  rw [descOrSelf, descOrSelf, ancChain_congr a b hlen hpar hnone]

/-- Tree-shape and handling invariants of the span store. -/
structure SpanWF (spans : List SpanRec) : Prop where
  parentLt : ∀ i r p, spans.get? i = some r → r.parent = some p → p < i
  parentMem : ∀ i r p, spans.get? i = some r → r.parent = some p →
    ∃ rp, spans.get? p = some rp ∧ i ∈ rp.children
  childMem : ∀ i r c, spans.get? i = some r → c ∈ r.children →
    ∃ rc, spans.get? c = some rc ∧ rc.parent = some i
  childNodup : ∀ i r, spans.get? i = some r → r.children.Nodup
  handledUp : ∀ i r p rp, spans.get? i = some r → r.handled = true →
    r.parent = some p → spans.get? p = some rp → rp.handled = true
  handledFin : ∀ i r, spans.get? i = some r → r.handled = true →
    r.finished = true

/-- Reachable-state invariant: tree shape plus the emission log. -/
structure SpanInv (s : SpanSys) : Prop where
  wf : SpanWF s.spans
  logNodup : s.log.Nodup
  logHandled : ∀ x ∈ s.log, ∃ r, s.spans.get? x = some r ∧ r.handled = true

theorem rootIdxF_stable (spans : List SpanRec)
    (hlt : ∀ i r p, spans.get? i = some r → r.parent = some p → p < i) :
    ∀ fuel1 d fuel2, d < fuel1 → d < fuel2 →
      rootIdxF fuel1 spans d = rootIdxF fuel2 spans d := by
  intro fuel1
  induction fuel1 with
  | zero => intro d fuel2 h1 _; omega
  | succ f1 ih =>
    intro d fuel2 h1 h2
    cases fuel2 with
    | zero => omega
    | succ f2 =>
      cases hd : spans.get? d with
      | none => simp [rootIdxF, ← List.get?_eq_getElem?, hd]
      | some r =>
        cases hp : r.parent with
        | none => simp [rootIdxF, ← List.get?_eq_getElem?, hd, hp]
        | some p =>
          have hpd := hlt d r p hd hp
          simp only [rootIdxF, ← List.get?_eq_getElem?, hd, hp]
          rw [ih p f2 (by omega) (by omega)]

theorem rootIdx_self (spans : List SpanRec) (d : Nat) (r : SpanRec)
    (hd : spans.get? d = some r) (hp : r.parent = none) :
    rootIdx spans d = d := by
  rw [rootIdx]
  cases hL : spans.length with
  | zero => rfl
  | succ n => simp [rootIdxF, ← List.get?_eq_getElem?, hd, hp]

theorem rootIdx_unfold (spans : List SpanRec)
    (hlt : ∀ i r p, spans.get? i = some r → r.parent = some p → p < i)
    (d : Nat) (r : SpanRec) (p : Nat)
    (hd : spans.get? d = some r) (hp : r.parent = some p) :
    rootIdx spans d = rootIdx spans p := by
  have hdL : d < spans.length := get?_lt_length spans d r hd
  have hpd : p < d := hlt d r p hd hp
  rw [rootIdx, rootIdx]
  cases hL : spans.length with
  | zero => omega
  | succ n =>
    rw [show rootIdxF (Nat.succ n) spans d = rootIdxF n spans p from by
      simp only [rootIdxF, ← List.get?_eq_getElem?, hd, hp]]
    exact rootIdxF_stable spans hlt n p (Nat.succ n) (by omega) (by omega)

/-- A handled span's trace root exists, is parentless and finished. -/
theorem root_handled (spans : List SpanRec) (wf : SpanWF spans) :
    ∀ d rd, spans.get? d = some rd → rd.handled = true →
      ∃ rr, spans.get? (rootIdx spans d) = some rr ∧ rr.parent = none ∧
        rr.finished = true ∧ rr.handled = true := by
  intro d
  induction d using Nat.strong_induction_on with
  | _ d ih =>
    intro rd hd hh
    cases hp : rd.parent with
    | none =>
      rw [rootIdx_self spans d rd hd hp]
      exact ⟨rd, hd, hp, wf.handledFin d rd hd hh, hh⟩
    | some p =>
      obtain ⟨rp, hgp, _⟩ := wf.parentMem d rd p hd hp
      have hph : rp.handled = true := wf.handledUp d rd p rp hd hh hp hgp
      rw [rootIdx_unfold spans wf.parentLt d rd p hd hp]
      exact ih p (wf.parentLt d rd p hd hp) rp hgp hph

/-- Handledness propagates to every ancestor. -/
theorem anc_handled (spans : List SpanRec) (wf : SpanWF spans) :
    ∀ d rd, spans.get? d = some rd → rd.handled = true →
      ∀ y, y ∈ ancChain spans d →
        ∃ ry, spans.get? y = some ry ∧ ry.handled = true := by
  intro d
  induction d using Nat.strong_induction_on with
  | _ d ih =>
    intro rd hd hh y hy
    cases hp : rd.parent with
    | none => rw [ancChain_root spans d rd hd hp] at hy; cases hy
    | some p =>
      obtain ⟨rp, hgp, _⟩ := wf.parentMem d rd p hd hp
      have hph : rp.handled = true := wf.handledUp d rd p rp hd hh hp hgp
      rw [ancChain_unfold spans wf.parentLt d rd p hd hp] at hy
      rcases List.mem_cons.mp hy with h | h
      · subst h; exact ⟨rp, hgp, hph⟩
      · exact ih p (wf.parentLt d rd p hd hp) rp hgp hph y h

/-- No strict descendant of an unhandled span is handled. -/
theorem desc_unhandled (spans : List SpanRec) (wf : SpanWF spans)
    (x : Nat) (rx : SpanRec) (hx : spans.get? x = some rx)
    (hxh : rx.handled = false) :
    ∀ d rd, spans.get? d = some rd → x ∈ ancChain spans d →
      rd.handled = false := by
  intro d rd hd hanc
  by_contra hc
  rw [Bool.not_eq_false] at hc
  obtain ⟨ry, hy, hyh⟩ := anc_handled spans wf d rd hd hc x hanc
  rw [hx] at hy
  injection hy with hy
  rw [← hy] at hyh
  rw [hyh] at hxh
  exact Bool.noConfusion hxh

/-- Two stores with the same tree structure (lengths, parents and
children lists agree pointwise). -/
def StructEq (a b : List SpanRec) : Prop :=
  a.length = b.length ∧
  (∀ d, a.get? d = none → b.get? d = none) ∧
  ∀ d ra, a.get? d = some ra → ∃ rb, b.get? d = some rb ∧
    rb.parent = ra.parent ∧ rb.children = ra.children

theorem skipOnly_get?_none {a b : List SpanRec} (h : SkipOnly a b) (d : Nat)
    (hd : a.get? d = none) : b.get? d = none := by
  rw [List.get?_eq_getElem?, List.getElem?_eq_none_iff] at hd ⊢
  rw [← h.1]
  exact hd

theorem skipOnly_structEq {a b : List SpanRec} (h : SkipOnly a b) :
    StructEq a b := by
  refine ⟨h.1, fun d hd => skipOnly_get?_none h d hd, fun d ra hd => ?_⟩
  obtain ⟨sb, hb, _⟩ := h.2 d ra hd
  exact ⟨_, hb, rfl, rfl⟩

theorem honly_structEq {a b : List SpanRec} (h : HOnly a b) :
    StructEq a b := by
  refine ⟨h.1, fun d hd => honly_get?_none h d hd, fun d ra hd => ?_⟩
  obtain ⟨hb, hb1, _⟩ := h.2 d ra hd
  exact ⟨_, hb1, rfl, rfl⟩

theorem structEq_back {a b : List SpanRec} (h : StructEq a b) (d : Nat)
    (rb : SpanRec) (hb : b.get? d = some rb) :
    ∃ ra, a.get? d = some ra ∧ ra.parent = rb.parent ∧
      ra.children = rb.children := by
  cases ha : a.get? d with
  | none => rw [h.2.1 d ha] at hb; exact Option.noConfusion hb
  | some ra =>
    obtain ⟨rb', hb', hp, hc⟩ := h.2.2 d ra ha
    rw [hb] at hb'
    injection hb' with hb'
    subst hb'
    exact ⟨ra, rfl, hp.symm, hc.symm⟩

theorem StructEq.parentLt {a b : List SpanRec} (h : StructEq a b)
    (hlt : ∀ i r p, a.get? i = some r → r.parent = some p → p < i) :
    ∀ i r p, b.get? i = some r → r.parent = some p → p < i := by
  intro i r p hi hp
  obtain ⟨ra, hga, hpa, _⟩ := structEq_back h i r hi
  exact hlt i ra p hga (hpa.trans hp)

theorem StructEq.parentMem {a b : List SpanRec} (h : StructEq a b)
    (hpm : ∀ i r p, a.get? i = some r → r.parent = some p →
      ∃ rp, a.get? p = some rp ∧ i ∈ rp.children) :
    ∀ i r p, b.get? i = some r → r.parent = some p →
      ∃ rp, b.get? p = some rp ∧ i ∈ rp.children := by
  intro i r p hi hp
  obtain ⟨ra, hga, hpa, _⟩ := structEq_back h i r hi
  obtain ⟨rp, hgp, hmem⟩ := hpm i ra p hga (hpa.trans hp)
  obtain ⟨rpb, hgpb, _, hcb⟩ := h.2.2 p rp hgp
  exact ⟨rpb, hgpb, hcb ▸ hmem⟩

theorem StructEq.childMem {a b : List SpanRec} (h : StructEq a b)
    (hcm : ∀ i r c, a.get? i = some r → c ∈ r.children →
      ∃ rc, a.get? c = some rc ∧ rc.parent = some i) :
    ∀ i r c, b.get? i = some r → c ∈ r.children →
      ∃ rc, b.get? c = some rc ∧ rc.parent = some i := by
  intro i r c hi hc
  obtain ⟨ra, hga, _, hca⟩ := structEq_back h i r hi
  obtain ⟨rc, hgc, hpc⟩ := hcm i ra c hga (hca ▸ hc)
  obtain ⟨rcb, hgcb, hpb, _⟩ := h.2.2 c rc hgc
  exact ⟨rcb, hgcb, hpb.trans hpc⟩

theorem StructEq.childNodup {a b : List SpanRec} (h : StructEq a b)
    (hcn : ∀ i r, a.get? i = some r → r.children.Nodup) :
    ∀ i r, b.get? i = some r → r.children.Nodup := by
  intro i r hi
  obtain ⟨ra, hga, _, hca⟩ := structEq_back h i r hi
  exact hca ▸ hcn i ra hga

theorem StructEq.ancChain {a b : List SpanRec} (h : StructEq a b) (d : Nat) :
    ancChain a d = ancChain b d :=
  ancChain_congr a b h.1
    (fun d ra hd => (h.2.2 d ra hd).imp fun _ hp => ⟨hp.1, hp.2.1⟩)
    h.2.1 d

theorem StructEq.descOrSelf {a b : List SpanRec} (h : StructEq a b)
    (d x : Nat) : descOrSelf a d x ↔ descOrSelf b d x := by
  rw [Ipapp.descOrSelf, Ipapp.descOrSelf, h.ancChain]

theorem skipOnly_set (spans : List SpanRec) (x : Nat) (r : SpanRec)
    (hx : spans.get? x = some r) :
    SkipOnly spans (spans.set x { r with skip := true }) := by
  refine ⟨(List.length_set spans x _).symm, fun d rd hd => ?_⟩
  rcases eq_or_ne d x with he | he
  · subst he
    rw [hx] at hd
    injection hd with hd
    subst hd
    exact ⟨true, get?_set_self spans d _ r hx, fun _ => rfl⟩
  · exact ⟨rd.skip, by
      rw [get?_set_ne spans x d _ (fun h2 => he h2.symm)]
      exact hd, fun hh => hh⟩

theorem skipOnly_foldl (fuel : Nat)
    (h : ∀ sp c, SkipOnly sp (skipAllF fuel sp c)) :
    ∀ (l : List Nat) (sp : List SpanRec),
      SkipOnly sp (l.foldl (fun sp c => skipAllF fuel sp c) sp) := by
  intro l
  induction l with
  | nil => exact fun sp => skipOnly_refl sp
  | cons c cs ih =>
    intro sp
    rw [List.foldl_cons]
    exact skipOnly_trans (h sp c) (ih _)

theorem skipOnly_skipAll :
    ∀ (fuel : Nat) (sp : List SpanRec) (x : Nat),
      SkipOnly sp (skipAllF fuel sp x) := by
  intro fuel
  induction fuel with
  | zero => exact fun sp x => skipOnly_refl sp
  | succ fuel ih =>
    intro sp x
    cases hx : sp.get? x with
    | none =>
      rw [show skipAllF (Nat.succ fuel) sp x = sp from by
        simp [skipAllF, ← List.get?_eq_getElem?, hx]]
      exact skipOnly_refl sp
    | some r =>
      rw [show skipAllF (Nat.succ fuel) sp x =
          r.children.foldl (fun sp c => skipAllF fuel sp c)
            (sp.set x { r with skip := true }) from by
        simp [skipAllF, ← List.get?_eq_getElem?, hx]]
      exact skipOnly_trans (skipOnly_set sp x r hx)
        (skipOnly_foldl fuel (fun sp c => ih sp c) r.children _)

/-- `Span.skip` marks every span of the subtree (the span itself and
all its descendants). -/
theorem skipAll_marks :
    ∀ (fuel : Nat) (spans : List SpanRec) (x : Nat),
      (∀ i r p, spans.get? i = some r → r.parent = some p → p < i) →
      (∀ i r p, spans.get? i = some r → r.parent = some p →
        ∃ rp, spans.get? p = some rp ∧ i ∈ rp.children) →
      spans.length ≤ fuel + x →
      ∀ d rd, spans.get? d = some rd → descOrSelf spans d x →
        ∃ rd', (skipAllF fuel spans x).get? d = some rd' ∧
          rd'.skip = true := by
  intro fuel
  induction fuel with
  | zero =>
    intro spans x hlt _ hfuel d rd hd hdesc
    exfalso
    have hdL : d < spans.length := get?_lt_length spans d rd hd
    rcases hdesc with h | h
    · omega
    · have := ancChain_lt spans hlt d x h
      omega
  | succ fuel ih =>
    intro spans x hlt hpm hfuel d rd hd hdesc
    have hxval : ∃ rx, spans.get? x = some rx := by
      rcases hdesc with h | h
      · exact ⟨rd, h ▸ hd⟩
      · obtain ⟨c, rc, hc, hcp, _⟩ := desc_child spans hlt d x h
        obtain ⟨rp, hgp, _⟩ := hpm c rc x hc hcp
        exact ⟨rp, hgp⟩
    obtain ⟨rx, hx⟩ := hxval
    rw [show skipAllF (Nat.succ fuel) spans x =
        rx.children.foldl (fun sp c => skipAllF fuel sp c)
          (spans.set x { rx with skip := true }) from by
      simp [skipAllF, ← List.get?_eq_getElem?, hx]]
    rcases hdesc with hdx | hdx
    · subst hdx
      rw [hx] at hd
      injection hd with hd
      subst hd
      obtain ⟨sb, hb, hmono⟩ :=
        (skipOnly_foldl fuel (fun sp c => skipOnly_skipAll fuel sp c)
          rx.children (spans.set d { rx with skip := true })).2 d
          { rx with skip := true }
          (get?_set_self spans d _ rx hx)
      exact ⟨_, hb, hmono rfl⟩
    · obtain ⟨c, rc, hc, hcp, hdc⟩ := desc_child spans hlt d x hdx
      have hcmem : c ∈ rx.children := by
        obtain ⟨rp, hgp, hmem⟩ := hpm c rc x hc hcp
        rw [hx] at hgp
        injection hgp with hgp
        subst hgp
        exact hmem
      have hxc : x < c := hlt c rc x hc hcp
      have hso0 : SkipOnly spans (spans.set x { rx with skip := true }) :=
        skipOnly_set spans x rx hx
      -- fold over the children reaches the child `c` covering `d`
      have hfold : ∀ (l : List Nat) (sp : List SpanRec), c ∈ l →
          SkipOnly spans sp →
          ∃ rd', (l.foldl (fun sp c => skipAllF fuel sp c) sp).get? d =
            some rd' ∧ rd'.skip = true := by
        intro l
        induction l with
        | nil => intro sp hc2 _; cases hc2
        | cons c2 cs ihl =>
          intro sp hc2 hso
          rw [List.foldl_cons]
          rcases List.mem_cons.mp hc2 with he | he
          · subst he
            -- apply the outer induction hypothesis at the child
            obtain ⟨rd0, hrd0, _⟩ := hso.2 d rd hd
            obtain ⟨rd1, hrd1, hskip1⟩ :=
              ih sp c ((skipOnly_structEq hso).parentLt hlt)
                ((skipOnly_structEq hso).parentMem hpm)
                (by rw [← hso.1]; omega) d _ hrd0
                (((skipOnly_structEq hso).descOrSelf d c).mp hdc)
            obtain ⟨sb, hb, hmono⟩ :=
              (skipOnly_foldl fuel
                (fun sp c => skipOnly_skipAll fuel sp c) cs
                (skipAllF fuel sp c)).2 d rd1 hrd1
            exact ⟨_, hb, hmono hskip1⟩
          · exact ihl _ he (skipOnly_trans hso (skipOnly_skipAll fuel sp c2))
      exact hfold rx.children _ hcmem hso0

/-- The loop body of `_handle_children` for one child `c`. -/
def hcStep (fuel : Nat) (st2 : List SpanRec × List Nat) (c : Nat) :
    List SpanRec × List Nat :=
  match st2.1.get? c with
  | none => st2
  | some rc =>
    if rc.finished then
      if rc.skip then (st2.1.set c { rc with handled := true }, st2.2)
      else
        match (handle_childrenF fuel st2 c).1.get? c with
        | none => handle_childrenF fuel st2 c
        | some rc2 =>
          ((handle_childrenF fuel st2 c).1.set c { rc2 with handled := true },
           (handle_childrenF fuel st2 c).2 ++ [c])
    else st2

theorem handle_childrenF_succ (fuel : Nat) (st : List SpanRec × List Nat)
    (x : Nat) :
    handle_childrenF (Nat.succ fuel) st x =
      match st.1.get? x with
      | none => st
      | some r => r.children.foldl (hcStep fuel) st := rfl

theorem honly_set_handled (sp : List SpanRec) (c : Nat) (rc : SpanRec)
    (hc : sp.get? c = some rc) :
    HOnly sp (sp.set c { rc with handled := true }) := by
  refine ⟨(List.length_set sp c _).symm, fun d rd hd => ?_⟩
  rcases eq_or_ne d c with he | he
  · subst he
    rw [hc] at hd
    injection hd with hd
    subst hd
    exact ⟨true, get?_set_self sp d _ rc hc, fun _ => rfl⟩
  · exact ⟨rd.handled, by
      rw [get?_set_ne sp c d _ (fun h2 => he h2.symm)]
      exact hd, fun hh => hh⟩

theorem not_self_anc (spans : List SpanRec)
    (hlt : ∀ i r p, spans.get? i = some r → r.parent = some p → p < i)
    (c : Nat) : c ∉ ancChain spans c := by
  intro h
  have := ancChain_lt spans hlt c c h
  omega

theorem child_anc (spans : List SpanRec)
    (hlt : ∀ i r p, spans.get? i = some r → r.parent = some p → p < i)
    (c x : Nat) (rc : SpanRec) (hc : spans.get? c = some rc)
    (hp : rc.parent = some x) : x ∈ ancChain spans c := by
  rw [ancChain_unfold spans hlt c rc x hc hp]
  exact List.mem_cons_self x _

theorem desc_strict_of_child (spans : List SpanRec)
    (hlt : ∀ i r p, spans.get? i = some r → r.parent = some p → p < i)
    (c x d : Nat) (rc : SpanRec) (hc : spans.get? c = some rc)
    (hp : rc.parent = some x) (hd : descOrSelf spans d c) :
    x ∈ ancChain spans d := by
  rcases hd with h | h
  · subst h; exact child_anc spans hlt d x rc hc hp
  · exact anc_trans spans hlt d c x h (child_anc spans hlt c x rc hc hp)

/-- Per-child contract of the `_handle_children` loop body: the log
grows by a block of fresh emissions inside the subtree of `c`, only
`handled` flags change (monotonically), nothing outside the subtree of
`c` is touched, every newly handled span is finished with its parent
the sweep node or an emitted span, and `c` itself is emitted when it
is finished and not skipped. -/
def StepOK (spans : List SpanRec) (x c : Nat)
    (st st' : List SpanRec × List Nat) : Prop :=
  ∃ dl : List Nat, st'.2 = st.2 ++ dl ∧ dl.Nodup ∧
    (∀ d ∈ dl, descOrSelf spans d c ∧
      ∃ rd, spans.get? d = some rd ∧ rd.skip = false ∧ rd.finished = true) ∧
    (∀ d ∈ dl, ∃ rd', st'.1.get? d = some rd' ∧ rd'.handled = true) ∧
    HOnly st.1 st'.1 ∧
    (∀ d rd, st.1.get? d = some rd → ¬ descOrSelf spans d c →
      st'.1.get? d = some rd) ∧
    (∀ d rd rd', st.1.get? d = some rd → rd.handled = false →
      st'.1.get? d = some rd' → rd'.handled = true →
      (∃ rdo, spans.get? d = some rdo ∧ rdo.finished = true) ∧
      ∃ y, rd.parent = some y ∧ (y = x ∨ y ∈ dl)) ∧
    (∀ rc, spans.get? c = some rc → rc.finished = true → rc.skip = false →
      c ∈ dl)

/-- Whole-sweep contract of `_handle_children` at a given fuel. -/
def SweepSpec (fuel : Nat) : Prop :=
  ∀ (spans : List SpanRec) (log : List Nat) (x : Nat),
    (∀ i r p, spans.get? i = some r → r.parent = some p → p < i) →
    (∀ i r p, spans.get? i = some r → r.parent = some p →
      ∃ rp, spans.get? p = some rp ∧ i ∈ rp.children) →
    (∀ i r c, spans.get? i = some r → c ∈ r.children →
      ∃ rc, spans.get? c = some rc ∧ rc.parent = some i) →
    (∀ i r, spans.get? i = some r → r.children.Nodup) →
    (∀ d rd, spans.get? d = some rd → x ∈ ancChain spans d →
      rd.handled = false) →
    spans.length ≤ fuel + x →
    ∃ dl : List Nat,
      (handle_childrenF fuel (spans, log) x).2 = log ++ dl ∧ dl.Nodup ∧
      (∀ d ∈ dl, x ∈ ancChain spans d ∧
        ∃ rd, spans.get? d = some rd ∧ rd.skip = false ∧
          rd.finished = true) ∧
      (∀ d ∈ dl, ∃ rd',
        (handle_childrenF fuel (spans, log) x).1.get? d = some rd' ∧
        rd'.handled = true) ∧
      HOnly spans (handle_childrenF fuel (spans, log) x).1 ∧
      (∀ d rd, spans.get? d = some rd → x ∉ ancChain spans d →
        (handle_childrenF fuel (spans, log) x).1.get? d = some rd) ∧
      (∀ d rd rd', spans.get? d = some rd → rd.handled = false →
        (handle_childrenF fuel (spans, log) x).1.get? d = some rd' →
        rd'.handled = true →
        rd.finished = true ∧
        ∃ y, rd.parent = some y ∧ (y = x ∨ y ∈ dl)) ∧
      (∀ rx, spans.get? x = some rx → ∀ c ∈ rx.children,
        ∀ rc, spans.get? c = some rc → rc.finished = true →
          rc.skip = false → c ∈ dl)

theorem sweep_zero : SweepSpec 0 := by
  intro spans log x hlt _ _ _ _ hfuel
  refine ⟨[], by simp [handle_childrenF], List.nodup_nil,
    fun d hd => absurd hd (List.not_mem_nil d),
    fun d hd => absurd hd (List.not_mem_nil d),
    honly_refl spans,
    fun d rd hd _ => hd,
    fun d rd rd' hd hh hd' hh' => ?_,
    fun rx hx => ?_⟩
  · rw [show handle_childrenF 0 (spans, log) x = (spans, log) from rfl] at hd'
    rw [hd] at hd'
    injection hd' with hd'
    subst hd'
    rw [hh] at hh'
    exact Bool.noConfusion hh'
  · exfalso
    have := get?_lt_length spans x rx hx
    omega

theorem hcStep_spec (fuel : Nat) (IH : SweepSpec fuel)
    (spans : List SpanRec) (x c : Nat)
    (hlt : ∀ i r p, spans.get? i = some r → r.parent = some p → p < i)
    (hpm : ∀ i r p, spans.get? i = some r → r.parent = some p →
      ∃ rp, spans.get? p = some rp ∧ i ∈ rp.children)
    (hcm : ∀ i r c2, spans.get? i = some r → c2 ∈ r.children →
      ∃ rc, spans.get? c2 = some rc ∧ rc.parent = some i)
    (hcn : ∀ i r, spans.get? i = some r → r.children.Nodup)
    (hund : ∀ d rd, spans.get? d = some rd → x ∈ ancChain spans d →
      rd.handled = false)
    (rc0 : SpanRec) (hc0 : spans.get? c = some rc0)
    (hp0 : rc0.parent = some x)
    (st : List SpanRec × List Nat)
    (hsp : HOnly spans st.1)
    (huntouched : ∀ d rd, spans.get? d = some rd → descOrSelf spans d c →
      st.1.get? d = some rd)
    (hfuel : spans.length ≤ fuel + c) :
    StepOK spans x c st (hcStep fuel st c) := by
  have hxc : x < c := hlt c rc0 x hc0 hp0
  have hstc : st.1.get? c = some rc0 := huntouched c rc0 hc0 (Or.inl rfl)
  have hget : ∀ d rd, st.1.get? d = some rd → descOrSelf spans d c →
      spans.get? d = some rd := by
    intro d rd hd hdesc
    cases hgd : spans.get? d with
    | none => rw [honly_get?_none hsp d hgd] at hd; exact Option.noConfusion hd
    | some rdo =>
      have := huntouched d rdo hgd hdesc
      rw [hd] at this
      injection this with this
      rw [this]
  cases hfin : rc0.finished with
  | false =>
    have hred : hcStep fuel st c = st := by
      simp [hcStep, ← List.get?_eq_getElem?, hstc, hfin]
    rw [hred]
    refine ⟨[], (List.append_nil st.2).symm, List.nodup_nil,
      fun d hd => absurd hd (List.not_mem_nil d),
      fun d hd => absurd hd (List.not_mem_nil d),
      honly_refl st.1,
      fun d rd hd _ => hd,
      fun d rd rd' hd hh hd' hh' => ?_,
      fun rc hc hfin2 _ => ?_⟩
    · rw [hd] at hd'
      injection hd' with hd'
      subst hd'
      rw [hh] at hh'
      exact Bool.noConfusion hh'
    · exfalso
      rw [hc0] at hc
      injection hc with hc
      subst hc
      rw [hfin] at hfin2
      exact Bool.noConfusion hfin2
  | true =>
    cases hskip : rc0.skip with
    | true =>
      have hred : hcStep fuel st c =
          (st.1.set c { rc0 with handled := true }, st.2) := by
        simp [hcStep, ← List.get?_eq_getElem?, hstc, hfin, hskip]
      rw [hred]
      refine ⟨[], (List.append_nil st.2).symm, List.nodup_nil,
        fun d hd => absurd hd (List.not_mem_nil d),
        fun d hd => absurd hd (List.not_mem_nil d),
        honly_set_handled st.1 c rc0 hstc,
        fun d rd hd hnd => ?_,
        fun d rd rd' hd hh hd' hh' => ?_,
        fun rc hc hfin2 hskip2 => ?_⟩
      · have hdc : d ≠ c := fun he => hnd (he ▸ Or.inl rfl)
        rw [get?_set_ne st.1 c d _ (fun h2 => hdc h2.symm)]
        exact hd
      · rcases eq_or_ne d c with he | he
        · subst he
          rw [hstc] at hd
          injection hd with hd
          subst hd
          exact ⟨⟨rc0, hc0, hfin⟩, x, hp0, Or.inl rfl⟩
        · rw [get?_set_ne st.1 c d _ (fun h2 => he h2.symm), hd] at hd'
          injection hd' with hd'
          subst hd'
          rw [hh] at hh'
          exact absurd hh' Bool.noConfusion
      · exfalso
        rw [hc0] at hc
        injection hc with hc
        subst hc
        rw [hskip] at hskip2
        exact Bool.noConfusion hskip2
    | false =>
      -- the recursive sweep of the subtree of `c`
      have hse : StructEq spans st.1 := honly_structEq hsp
      have hanc : ∀ d, ancChain spans d = ancChain st.1 d :=
        fun d => hse.ancChain d
      obtain ⟨dlin, hlog, hnd, hfacts, hhnd, hho, hunt, hnew, hemit⟩ :=
        IH st.1 st.2 c (hse.parentLt hlt) (hse.parentMem hpm)
          (hse.childMem hcm) (hse.childNodup hcn)
          (by
            intro d rd hd hcanc
            rw [← hanc] at hcanc
            have hdesc : descOrSelf spans d c := Or.inr hcanc
            have hgd := hget d rd hd hdesc
            exact hund d rd hgd
              (desc_strict_of_child spans hlt c x d rc0 hc0 hp0 hdesc))
          (by rw [← hse.1]; omega)
      have hinner_c : (handle_childrenF fuel st c).1.get? c =
          some rc0 :=
        hunt c rc0 hstc (by rw [← hanc]; exact not_self_anc spans hlt c)
      have hlog2 : (handle_childrenF fuel st c).2 = st.2 ++ dlin := hlog
      have hhnd2 : ∀ d ∈ dlin, ∃ rd',
          (handle_childrenF fuel st c).1.get? d = some rd' ∧
          rd'.handled = true := hhnd
      have hho2 : HOnly st.1 (handle_childrenF fuel st c).1 := hho
      have hunt2 : ∀ d rd, st.1.get? d = some rd → c ∉ ancChain st.1 d →
          (handle_childrenF fuel st c).1.get? d = some rd := hunt
      have hnew2 : ∀ d rd rd', st.1.get? d = some rd → rd.handled = false →
          (handle_childrenF fuel st c).1.get? d = some rd' →
          rd'.handled = true →
          rd.finished = true ∧
          ∃ y, rd.parent = some y ∧ (y = c ∨ y ∈ dlin) := hnew
      have hred : hcStep fuel st c =
          ((handle_childrenF fuel st c).1.set c { rc0 with handled := true },
           (handle_childrenF fuel st c).2 ++ [c]) := by
        simp [hcStep, ← List.get?_eq_getElem?, hstc, hfin, hskip, hinner_c]
      rw [hred]
      have hcnotin : c ∉ dlin := by
        intro hcmem
        obtain ⟨hcanc, _⟩ := hfacts c hcmem
        rw [← hanc] at hcanc
        exact not_self_anc spans hlt c hcanc
      refine ⟨dlin ++ [c], ?_, ?_, ?_, ?_, ?_, ?_, ?_, ?_⟩
      · show (handle_childrenF fuel st c).2 ++ [c] = st.2 ++ (dlin ++ [c])
        rw [hlog2, List.append_assoc]
      · exact List.Nodup.append hnd (List.nodup_singleton c)
          (fun a ha hb => by
            rw [List.mem_singleton] at hb
            exact hcnotin (hb ▸ ha))
      · intro d hd
        rcases List.mem_append.mp hd with hd | hd
        · obtain ⟨hcanc, rd, hrd, hsk, hfn⟩ := hfacts d hd
          rw [← hanc] at hcanc
          exact ⟨Or.inr hcanc, rd, hget d rd hrd (Or.inr hcanc), hsk, hfn⟩
        · rw [List.mem_singleton] at hd
          subst hd
          exact ⟨Or.inl rfl, rc0, hc0, hskip, hfin⟩
      · intro d hd
        rcases List.mem_append.mp hd with hd | hd
        · obtain ⟨rd', hrd', hh'⟩ := hhnd2 d hd
          have hdc : d ≠ c := fun he => hcnotin (he ▸ hd)
          exact ⟨rd', by
            rw [get?_set_ne _ c d _ (fun h2 => hdc h2.symm)]
            exact hrd', hh'⟩
        · rw [List.mem_singleton] at hd
          subst hd
          exact ⟨{ rc0 with handled := true },
            get?_set_self _ d _ rc0 hinner_c, rfl⟩
      · exact honly_trans hho2 (honly_set_handled _ c rc0 hinner_c)
      · intro d rd hd hnd2
        have hdc : d ≠ c := fun he => hnd2 (he ▸ Or.inl rfl)
        rw [get?_set_ne _ c d _ (fun h2 => hdc h2.symm)]
        refine hunt2 d rd hd ?_
        rw [← hanc]
        exact fun hcanc => hnd2 (Or.inr hcanc)
      · intro d rd rd' hd hh hd' hh'
        rcases eq_or_ne d c with he | he
        · subst he
          rw [hstc] at hd
          injection hd with hd
          subst hd
          exact ⟨⟨rc0, hc0, hfin⟩, x, hp0, Or.inl rfl⟩
        · rw [get?_set_ne _ c d _ (fun h2 => he h2.symm)] at hd'
          obtain ⟨hfo, y, hy, hyc⟩ := hnew2 d rd rd' hd hh hd' hh'
          refine ⟨?_, y, hy, Or.inr ?_⟩
          · cases hgd : spans.get? d with
            | none =>
              rw [honly_get?_none hsp d hgd] at hd
              exact Option.noConfusion hd
            | some rdm =>
              obtain ⟨hb, hb1, _⟩ := hsp.2 d rdm hgd
              rw [hd] at hb1
              injection hb1 with hb1
              subst hb1
              exact ⟨rdm, rfl, hfo⟩
          · rcases hyc with hyc | hyc
            · exact List.mem_append_right dlin (hyc ▸ List.mem_singleton_self c)
            · exact List.mem_append_left [c] hyc
      · intro rc hc hfin2 hskip2
        exact List.mem_append_right dlin (List.mem_singleton_self c)

theorem sweep_fold (fuel : Nat) (IH : SweepSpec fuel)
    (spans : List SpanRec) (x : Nat) (rx : SpanRec)
    (hx : spans.get? x = some rx)
    (hlt : ∀ i r p, spans.get? i = some r → r.parent = some p → p < i)
    (hpm : ∀ i r p, spans.get? i = some r → r.parent = some p →
      ∃ rp, spans.get? p = some rp ∧ i ∈ rp.children)
    (hcm : ∀ i r c2, spans.get? i = some r → c2 ∈ r.children →
      ∃ rc, spans.get? c2 = some rc ∧ rc.parent = some i)
    (hcn : ∀ i r, spans.get? i = some r → r.children.Nodup)
    (hund : ∀ d rd, spans.get? d = some rd → x ∈ ancChain spans d →
      rd.handled = false)
    (hfuel : spans.length ≤ Nat.succ fuel + x) :
    ∀ (todo : List Nat) (st : List SpanRec × List Nat),
      todo.Nodup →
      (∀ c2 ∈ todo, c2 ∈ rx.children) →
      HOnly spans st.1 →
      (∀ c2 ∈ todo, ∀ d rd, spans.get? d = some rd →
        descOrSelf spans d c2 → st.1.get? d = some rd) →
      ∃ dl : List Nat,
        (todo.foldl (hcStep fuel) st).2 = st.2 ++ dl ∧ dl.Nodup ∧
        (∀ d ∈ dl, (∃ c2 ∈ todo, descOrSelf spans d c2) ∧
          ∃ rd, spans.get? d = some rd ∧ rd.skip = false ∧
            rd.finished = true) ∧
        (∀ d ∈ dl, ∃ rd',
          (todo.foldl (hcStep fuel) st).1.get? d = some rd' ∧
          rd'.handled = true) ∧
        HOnly st.1 (todo.foldl (hcStep fuel) st).1 ∧
        (∀ d rd, st.1.get? d = some rd →
          (∀ c2 ∈ todo, ¬ descOrSelf spans d c2) →
          (todo.foldl (hcStep fuel) st).1.get? d = some rd) ∧
        (∀ d rd rd', st.1.get? d = some rd → rd.handled = false →
          (todo.foldl (hcStep fuel) st).1.get? d = some rd' →
          rd'.handled = true →
          (∃ rdo, spans.get? d = some rdo ∧ rdo.finished = true) ∧
          ∃ y, rd.parent = some y ∧ (y = x ∨ y ∈ dl)) ∧
        (∀ c2 ∈ todo, ∀ rc, spans.get? c2 = some rc → rc.finished = true →
          rc.skip = false → c2 ∈ dl) := by
  intro todo
  induction todo with
  | nil =>
    intro st _ _ _ _
    refine ⟨[], (List.append_nil st.2).symm, List.nodup_nil,
      fun d hd => absurd hd (List.not_mem_nil d),
      fun d hd => absurd hd (List.not_mem_nil d),
      honly_refl st.1,
      fun d rd hd _ => hd,
      fun d rd rd' hd hh hd' hh' => ?_,
      fun c2 hc2 => absurd hc2 (List.not_mem_nil c2)⟩
    have hd2 : st.1.get? d = some rd' := hd'
    rw [hd] at hd2
    injection hd2 with hd2
    subst hd2
    rw [hh] at hh'
    exact Bool.noConfusion hh'
  | cons c cs ihl =>
    intro st hnd htodo hho huntouch
    rw [List.nodup_cons] at hnd
    obtain ⟨rc0, hc0, hp0⟩ := hcm x rx c hx (htodo c (List.mem_cons_self c cs))
    have hxc : x < c := hlt c rc0 x hc0 hp0
    obtain ⟨dc, hlogc, hndc, hfactsc, hhndc, hhoc, huntc, hnewc, hemitc⟩ :=
      hcStep_spec fuel IH spans x c hlt hpm hcm hcn hund rc0 hc0 hp0 st hho
        (huntouch c (List.mem_cons_self c cs)) (by omega)
    have hdisj : ∀ c2 ∈ cs, ∀ d, descOrSelf spans d c2 →
        ¬ descOrSelf spans d c := by
      intro c2 hc2 d hdesc2 hdesc
      obtain ⟨rc2, hc2g, hp2⟩ := hcm x rx c2 hx (htodo c2 (List.mem_cons_of_mem c hc2))
      exact sibling_disjoint spans hlt c c2 x rc0 rc2 hc0 hp0 hc2g hp2
        (fun he => hnd.1 (he ▸ hc2)) d hdesc hdesc2
    obtain ⟨dcs, hlogcs, hndcs, hfactscs, hhndcs, hhocs, huntcs, hnewcs,
        hemitcs⟩ :=
      ihl (hcStep fuel st c) hnd.2 (fun c2 hc2 => htodo c2 (List.mem_cons_of_mem c hc2))
        (honly_trans hho hhoc)
        (by
          intro c2 hc2 d rd hrd hdesc2
          exact huntc d rd
            (huntouch c2 (List.mem_cons_of_mem c hc2) d rd hrd hdesc2)
            (hdisj c2 hc2 d hdesc2))
    rw [List.foldl_cons]
    refine ⟨dc ++ dcs, ?_, ?_, ?_, ?_, honly_trans hhoc hhocs, ?_, ?_, ?_⟩
    · rw [hlogcs, hlogc, List.append_assoc]
    · refine List.Nodup.append hndc hndcs (fun a ha hb => ?_)
      obtain ⟨hdesc, _⟩ := hfactsc a ha
      obtain ⟨⟨c2, hc2, hdesc2⟩, _⟩ := hfactscs a hb
      exact hdisj c2 hc2 a hdesc2 hdesc
    · intro d hd
      rcases List.mem_append.mp hd with hd | hd
      · obtain ⟨hdesc, hrec⟩ := hfactsc d hd
        exact ⟨⟨c, List.mem_cons_self c cs, hdesc⟩, hrec⟩
      · obtain ⟨⟨c2, hc2, hdesc2⟩, hrec⟩ := hfactscs d hd
        exact ⟨⟨c2, List.mem_cons_of_mem c hc2, hdesc2⟩, hrec⟩
    · intro d hd
      rcases List.mem_append.mp hd with hd | hd
      · obtain ⟨rd', hrd', hh'⟩ := hhndc d hd
        obtain ⟨hb, hb1, hmono⟩ := hhocs.2 d rd' hrd'
        exact ⟨_, hb1, hmono hh'⟩
      · exact hhndcs d hd
    · intro d rd hd hnone
      exact huntcs d rd
        (huntc d rd hd (hnone c (List.mem_cons_self c cs)))
        (fun c2 hc2 => hnone c2 (List.mem_cons_of_mem c hc2))
    · intro d rd rd' hd hh hd' hh'
      obtain ⟨hb, hb1, _⟩ := hhoc.2 d rd hd
      cases hbv : hb with
      | true =>
        obtain ⟨hrdo, y, hy, hyc⟩ :=
          hnewc d rd { rd with handled := hb } hd hh hb1 hbv
        refine ⟨hrdo, y, hy, ?_⟩
        rcases hyc with hyc | hyc
        · exact Or.inl hyc
        · exact Or.inr (List.mem_append_left dcs hyc)
      | false =>
        subst hbv
        obtain ⟨hrdo, y, hy, hyc⟩ :=
          hnewcs d { rd with handled := false } rd' hb1 rfl hd' hh'
        refine ⟨hrdo, y, hy, ?_⟩
        rcases hyc with hyc | hyc
        · exact Or.inl hyc
        · exact Or.inr (List.mem_append_right dc hyc)
    · intro c2 hc2 rc hgc hfin2 hskip2
      rcases List.mem_cons.mp hc2 with he | he
      · subst he
        exact List.mem_append_left dcs (hemitc rc hgc hfin2 hskip2)
      · exact List.mem_append_right dc (hemitcs c2 he rc hgc hfin2 hskip2)

theorem sweep_succ (fuel : Nat) (IH : SweepSpec fuel) :
    SweepSpec (Nat.succ fuel) := by
  intro spans log x hlt hpm hcm hcn hund hfuel
  cases hx : spans.get? x with
  | none =>
    have heq : handle_childrenF (Nat.succ fuel) (spans, log) x =
        (spans, log) := by
      rw [handle_childrenF_succ]
      simp [← List.get?_eq_getElem?, hx]
    rw [heq]
    refine ⟨[], (List.append_nil log).symm, List.nodup_nil,
      fun d hd => absurd hd (List.not_mem_nil d),
      fun d hd => absurd hd (List.not_mem_nil d),
      honly_refl spans,
      fun d rd hd _ => hd,
      fun d rd rd' hd hh hd' hh' => ?_,
      fun rx hgx => Option.noConfusion hgx⟩
    rw [hd] at hd'
    injection hd' with hd'
    subst hd'
    rw [hh] at hh'
    exact Bool.noConfusion hh'
  | some rx =>
    have heq : handle_childrenF (Nat.succ fuel) (spans, log) x =
        rx.children.foldl (hcStep fuel) (spans, log) := by
      rw [handle_childrenF_succ]
      simp [← List.get?_eq_getElem?, hx]
    obtain ⟨dl, hlog, hnd, hfacts, hhnd, hho, hunt, hnew, hemit⟩ :=
      sweep_fold fuel IH spans x rx hx hlt hpm hcm hcn hund hfuel
        rx.children (spans, log) (hcn x rx hx) (fun c2 a => a)
        (honly_refl spans) (fun c2 _ d rd hrd _ => hrd)
    rw [heq]
    refine ⟨dl, hlog, hnd, ?_, hhnd, hho, ?_, ?_, ?_⟩
    · intro d hd
      obtain ⟨⟨c2, hc2, hdesc2⟩, hrec⟩ := hfacts d hd
      obtain ⟨rc2, hgc2, hp2⟩ := hcm x rx c2 hx hc2
      exact ⟨desc_strict_of_child spans hlt c2 x d rc2 hgc2 hp2 hdesc2, hrec⟩
    · intro d rd hd hnone
      refine hunt d rd hd (fun c2 hc2 hdesc2 => ?_)
      obtain ⟨rc2, hgc2, hp2⟩ := hcm x rx c2 hx hc2
      exact hnone (desc_strict_of_child spans hlt c2 x d rc2 hgc2 hp2 hdesc2)
    · intro d rd rd' hd hh hd' hh'
      obtain ⟨⟨rdo, hrdo, hfo⟩, y, hy, hyc⟩ := hnew d rd rd' hd hh hd' hh'
      rw [hd] at hrdo
      injection hrdo with hrdo
      subst hrdo
      exact ⟨hfo, y, hy, hyc⟩
    · intro rx2 hgx c2 hc2 rc hgc hfin2 hskip2
      injection hgx with hgx
      subst hgx
      exact hemit c2 hc2 rc hgc hfin2 hskip2

theorem sweep_all : ∀ fuel, SweepSpec fuel := by
  intro fuel
  induction fuel with
  | zero => exact sweep_zero
  | succ f ih => exact sweep_succ f ih

theorem skipOnly_back {a b : List SpanRec} (h : SkipOnly a b) (i : Nat)
    (ri : SpanRec) (hb : b.get? i = some ri) :
    ∃ ra sb, a.get? i = some ra ∧ ri = { ra with skip := sb } := by
  cases ha : a.get? i with
  | none => rw [skipOnly_get?_none h i ha] at hb; exact Option.noConfusion hb
  | some ra =>
    obtain ⟨sb, hb', _⟩ := h.2 i ra ha
    rw [hb] at hb'
    injection hb' with hb'
    exact ⟨ra, sb, rfl, hb'⟩

theorem honly_back {a b : List SpanRec} (h : HOnly a b) (i : Nat)
    (ri : SpanRec) (hb : b.get? i = some ri) :
    ∃ ra hb2, a.get? i = some ra ∧ ri = { ra with handled := hb2 } ∧
      (ra.handled = true → hb2 = true) := by
  cases ha : a.get? i with
  | none => rw [honly_get?_none h i ha] at hb; exact Option.noConfusion hb
  | some ra =>
    obtain ⟨hb2, hb', hmono⟩ := h.2 i ra ha
    rw [hb] at hb'
    injection hb' with hb'
    exact ⟨ra, hb2, rfl, hb', hmono⟩

theorem spanWF_skipOnly {a b : List SpanRec} (h : SkipOnly a b)
    (wf : SpanWF a) : SpanWF b where
  parentLt := (skipOnly_structEq h).parentLt wf.parentLt
  parentMem := (skipOnly_structEq h).parentMem wf.parentMem
  childMem := (skipOnly_structEq h).childMem wf.childMem
  childNodup := (skipOnly_structEq h).childNodup wf.childNodup
  handledUp := by
    intro i ri p rp hi hh hp hgp
    obtain ⟨ra, sb, hga, he⟩ := skipOnly_back h i ri hi
    obtain ⟨rap, sbp, hgap, hep⟩ := skipOnly_back h p rp hgp
    subst he
    subst hep
    exact wf.handledUp i ra p rap hga hh hp hgap
  handledFin := by
    intro i ri hi hh
    obtain ⟨ra, sb, hga, he⟩ := skipOnly_back h i ri hi
    subst he
    exact wf.handledFin i ra hga hh

theorem spanStep_skip (x : Nat) (s s' : SpanSys) (hinv : SpanInv s)
    (hstep : applySpanEvent (SpanEvent.skipEv x) s = some s') :
    SpanInv s' ∧ s'.log = s.log ∧
    (∀ d rd, s.spans.get? d = some rd → rd.skip = true →
      ∃ rd', s'.spans.get? d = some rd' ∧ rd'.skip = true) := by
  cases hx : s.spans.get? x with
  | none =>
    rw [show applySpanEvent (SpanEvent.skipEv x) s = none from by
      simp [applySpanEvent, ← List.get?_eq_getElem?, hx]] at hstep
    exact Option.noConfusion hstep
  | some r =>
    rw [show applySpanEvent (SpanEvent.skipEv x) s =
        some { s with spans := skipAllF s.spans.length s.spans x } from by
      simp [applySpanEvent, ← List.get?_eq_getElem?, hx]] at hstep
    injection hstep with hstep
    subst hstep
    have hso : SkipOnly s.spans (skipAllF s.spans.length s.spans x) :=
      skipOnly_skipAll s.spans.length s.spans x
    refine ⟨⟨spanWF_skipOnly hso hinv.wf, hinv.logNodup, ?_⟩, rfl, ?_⟩
    · intro z hz
      obtain ⟨rz, hgz, hhz⟩ := hinv.logHandled z hz
      obtain ⟨sb, hb, _⟩ := hso.2 z rz hgz
      exact ⟨_, hb, hhz⟩
    · intro d rd hgd hsk
      obtain ⟨sb, hb, hmono⟩ := hso.2 d rd hgd
      exact ⟨_, hb, hmono hsk⟩

theorem get?_snoc_cases {α : Type} (l : List α) (a : α) (i : Nat)
    (r : α) (h : (l ++ [a]).get? i = some r) :
    (i < l.length ∧ l.get? i = some r) ∨ (i = l.length ∧ r = a) := by
  rcases Nat.lt_trichotomy i l.length with hlt | heq | hgt
  · rw [get?_append_lt l a i hlt] at h
    exact Or.inl ⟨hlt, h⟩
  · subst heq
    rw [get?_append_len l a] at h
    injection h with h
    exact Or.inr ⟨rfl, h.symm⟩
  · rw [get?_append_gt l a i hgt] at h
    exact Option.noConfusion h

theorem spanStep_newRoot (s s' : SpanSys) (hinv : SpanInv s)
    (hstep : applySpanEvent SpanEvent.newRoot s = some s') :
    SpanInv s' ∧ s'.log = s.log ∧
    (∀ d rd, s.spans.get? d = some rd → rd.skip = true →
      ∃ rd', s'.spans.get? d = some rd' ∧ rd'.skip = true) := by
  injection hstep with hstep
  subst hstep
  have hold : ∀ i (ri : SpanRec), s.spans.get? i = some ri →
      (s.spans ++ [newSpan none false]).get? i = some ri := by
    intro i ri hi
    rw [get?_append_lt _ _ i (get?_lt_length s.spans i ri hi)]
    exact hi
  refine ⟨⟨⟨?_, ?_, ?_, ?_, ?_, ?_⟩, hinv.logNodup, ?_⟩, rfl,
    fun d rd hgd hsk => ⟨rd, hold d rd hgd, hsk⟩⟩
  · intro i ri p hi hp
    rcases get?_snoc_cases _ _ i ri hi with ⟨hlt, hg⟩ | ⟨_, he⟩
    · exact hinv.wf.parentLt i ri p hg hp
    · subst he; exact Option.noConfusion hp
  · intro i ri p hi hp
    rcases get?_snoc_cases _ _ i ri hi with ⟨hlt, hg⟩ | ⟨_, he⟩
    · obtain ⟨rp, hgp, hmem⟩ := hinv.wf.parentMem i ri p hg hp
      exact ⟨rp, hold p rp hgp, hmem⟩
    · subst he; exact Option.noConfusion hp
  · intro i ri c hi hc
    rcases get?_snoc_cases _ _ i ri hi with ⟨hlt, hg⟩ | ⟨_, he⟩
    · obtain ⟨rc, hgc, hpc⟩ := hinv.wf.childMem i ri c hg hc
      exact ⟨rc, hold c rc hgc, hpc⟩
    · subst he; exact absurd hc (List.not_mem_nil c)
  · intro i ri hi
    rcases get?_snoc_cases _ _ i ri hi with ⟨hlt, hg⟩ | ⟨_, he⟩
    · exact hinv.wf.childNodup i ri hg
    · subst he; exact List.nodup_nil
  · intro i ri p rp hi hh hp hgp
    rcases get?_snoc_cases _ _ i ri hi with ⟨hlt, hg⟩ | ⟨_, he⟩
    · rcases get?_snoc_cases _ _ p rp hgp with ⟨hltp, hgp2⟩ | ⟨_, hep⟩
      · exact hinv.wf.handledUp i ri p rp hg hh hp hgp2
      · subst hep
        obtain ⟨rp2, hgp3, _⟩ := hinv.wf.parentMem i ri p hg hp
        have := get?_lt_length s.spans p rp2 hgp3
        omega
    · subst he; exact Bool.noConfusion hh
  · intro i ri hi hh
    rcases get?_snoc_cases _ _ i ri hi with ⟨hlt, hg⟩ | ⟨_, he⟩
    · exact hinv.wf.handledFin i ri hg hh
    · subst he; exact Bool.noConfusion hh
  · intro z hz
    obtain ⟨rz, hgz, hhz⟩ := hinv.logHandled z hz
    exact ⟨rz, hold z rz hgz, hhz⟩

theorem structEq_trans {a b c : List SpanRec} (h1 : StructEq a b)
    (h2 : StructEq b c) : StructEq a c := by
  refine ⟨h1.1.trans h2.1, fun d hd => h2.2.1 d (h1.2.1 d hd),
    fun d ra hd => ?_⟩
  obtain ⟨rb, hb, hp, hc⟩ := h1.2.2 d ra hd
  obtain ⟨rc, hcg, hp2, hc2⟩ := h2.2.2 d rb hb
  exact ⟨rc, hcg, hp2.trans hp, hc2.trans hc⟩

theorem structEq_set_handled (sp : List SpanRec) (x : Nat) (rc : SpanRec)
    (h : sp.get? x = some rc) :
    StructEq sp (sp.set x { rc with handled := true }) := by
  refine ⟨(List.length_set sp x _).symm, fun d hd => ?_, fun d ra hd => ?_⟩
  · rcases eq_or_ne d x with he | he
    · subst he; rw [h] at hd; exact Option.noConfusion hd
    · rw [get?_set_ne sp x d _ (fun h2 => he h2.symm)]; exact hd
  · rcases eq_or_ne d x with he | he
    · subst he
      rw [h] at hd
      injection hd with hd
      subst hd
      exact ⟨_, get?_set_self sp d _ rc h, rfl, rfl⟩
    · exact ⟨ra, by
        rw [get?_set_ne sp x d _ (fun h2 => he h2.symm)]; exact hd, rfl, rfl⟩

theorem spanStep_newChild (p : Nat) (s s' : SpanSys) (hinv : SpanInv s)
    (hstep : applySpanEvent (SpanEvent.newChild p) s = some s') :
    SpanInv s' ∧ s'.log = s.log ∧
    (∀ d rd, s.spans.get? d = some rd → rd.skip = true →
      ∃ rd', s'.spans.get? d = some rd' ∧ rd'.skip = true) := by
  cases hp : s.spans.get? p with
  | none =>
    rw [show applySpanEvent (SpanEvent.newChild p) s = none from by
      simp [applySpanEvent, ← List.get?_eq_getElem?, hp]] at hstep
    exact Option.noConfusion hstep
  | some r =>
    rw [show applySpanEvent (SpanEvent.newChild p) s =
        some { s with spans :=
          (s.spans.set p { r with children := r.children ++ [s.spans.length] })
            ++ [newSpan (some p) r.skip] } from by
      simp [applySpanEvent, ← List.get?_eq_getElem?, hp]] at hstep
    injection hstep with hstep
    subst hstep
    have hpL : p < s.spans.length := get?_lt_length s.spans p r hp
    have hsetlen : (s.spans.set p
        { r with children := r.children ++ [s.spans.length] }).length
        = s.spans.length := List.length_set s.spans p _
    have hlookp : ((s.spans.set p
        { r with children := r.children ++ [s.spans.length] })
          ++ [newSpan (some p) r.skip]).get? p =
        some { r with children := r.children ++ [s.spans.length] } := by
      rw [get?_append_lt _ _ p (by omega)]
      exact get?_set_self s.spans p _ r hp
    have hlookL : ((s.spans.set p
        { r with children := r.children ++ [s.spans.length] })
          ++ [newSpan (some p) r.skip]).get? s.spans.length =
        some (newSpan (some p) r.skip) := by
      have h0 := get?_append_len (s.spans.set p
        { r with children := r.children ++ [s.spans.length] })
        (newSpan (some p) r.skip)
      rw [hsetlen] at h0
      exact h0
    have hlook : ∀ i, i ≠ p → i ≠ s.spans.length →
        ((s.spans.set p
          { r with children := r.children ++ [s.spans.length] })
            ++ [newSpan (some p) r.skip]).get? i = s.spans.get? i := by
      intro i hip hiL
      rcases Nat.lt_or_ge i s.spans.length with hlt | hge
      · rw [get?_append_lt _ _ i (by omega)]
        exact get?_set_ne s.spans p i _ (fun he => hip he.symm)
      · rw [get?_append_gt _ _ i (by omega)]
        symm
        rw [List.get?_eq_getElem?, List.getElem?_eq_none_iff]
        omega
    -- classify a successful lookup in the new store
    have hcases : ∀ i (ri : SpanRec),
        ((s.spans.set p
          { r with children := r.children ++ [s.spans.length] })
            ++ [newSpan (some p) r.skip]).get? i = some ri →
        (i = p ∧ ri = { r with children := r.children ++ [s.spans.length] }) ∨
        (i = s.spans.length ∧ ri = newSpan (some p) r.skip) ∨
        (i ≠ p ∧ i ≠ s.spans.length ∧ s.spans.get? i = some ri) := by
      intro i ri hi
      rcases eq_or_ne i p with he | he
      · subst he
        rw [hlookp] at hi
        injection hi with hi
        exact Or.inl ⟨rfl, hi.symm⟩
      · rcases eq_or_ne i s.spans.length with heL | heL
        · subst heL
          rw [hlookL] at hi
          injection hi with hi
          exact Or.inr (Or.inl ⟨rfl, hi.symm⟩)
        · rw [hlook i he heL] at hi
          exact Or.inr (Or.inr ⟨he, heL, hi⟩)
    have hvalid : ∀ i (ri : SpanRec), s.spans.get? i = some ri →
        i < s.spans.length := fun i ri hi => get?_lt_length s.spans i ri hi
    refine ⟨⟨⟨?_, ?_, ?_, ?_, ?_, ?_⟩, hinv.logNodup, ?_⟩, rfl, ?_⟩
    · -- parentLt
      intro i ri q hi hq
      rcases hcases i ri hi with ⟨he, hre⟩ | ⟨he, hre⟩ | ⟨_, _, hg⟩
      · subst he; subst hre
        exact hinv.wf.parentLt i r q hp hq
      · subst he; subst hre
        injection hq with hq
        omega
      · exact hinv.wf.parentLt i ri q hg hq
    · -- parentMem
      intro i ri q hi hq
      rcases hcases i ri hi with ⟨he, hre⟩ | ⟨he, hre⟩ | ⟨hip, hiL, hg⟩
      · subst he; subst hre
        obtain ⟨rq, hgq, hmem⟩ := hinv.wf.parentMem i r q hp hq
        have hqi : q < i := hinv.wf.parentLt i r q hp hq
        have hqL : q < s.spans.length := hvalid q rq hgq
        rw [← hlook q (by omega) (by omega)] at hgq
        exact ⟨rq, hgq, hmem⟩
      · subst he; subst hre
        injection hq with hq
        subst hq
        exact ⟨_, hlookp, List.mem_append_right _ (List.mem_singleton_self _)⟩
      · obtain ⟨rq, hgq, hmem⟩ := hinv.wf.parentMem i ri q hg hq
        rcases eq_or_ne q p with heq | heq
        · subst heq
          rw [hp] at hgq
          injection hgq with hgq
          subst hgq
          exact ⟨_, hlookp, List.mem_append_left _ hmem⟩
        · have hqL : q < s.spans.length := hvalid q rq hgq
          rw [← hlook q heq (by omega)] at hgq
          exact ⟨rq, hgq, hmem⟩
    · -- childMem
      intro i ri c hi hc
      rcases hcases i ri hi with ⟨he, hre⟩ | ⟨he, hre⟩ | ⟨hip, hiL, hg⟩
      · subst he; subst hre
        rcases List.mem_append.mp hc with hc | hc
        · obtain ⟨rc, hgc, hpc⟩ := hinv.wf.childMem i r c hp hc
          have hci : i < c := hinv.wf.parentLt c rc i hgc hpc
          have hcL : c < s.spans.length := hvalid c rc hgc
          rw [← hlook c (by omega) (by omega)] at hgc
          exact ⟨rc, hgc, hpc⟩
        · rw [List.mem_singleton] at hc
          subst hc
          exact ⟨_, hlookL, rfl⟩
      · subst he; subst hre
        exact absurd hc (List.not_mem_nil c)
      · obtain ⟨rc, hgc, hpc⟩ := hinv.wf.childMem i ri c hg hc
        rcases eq_or_ne c p with heq | heq
        · subst heq
          rw [hp] at hgc
          injection hgc with hgc
          subst hgc
          exact ⟨_, hlookp, hpc⟩
        · have hcL : c < s.spans.length := hvalid c rc hgc
          rw [← hlook c heq (by omega)] at hgc
          exact ⟨rc, hgc, hpc⟩
    · -- childNodup
      intro i ri hi
      rcases hcases i ri hi with ⟨he, hre⟩ | ⟨he, hre⟩ | ⟨_, _, hg⟩
      · subst he; subst hre
        refine List.Nodup.append (hinv.wf.childNodup i r hp)
          (List.nodup_singleton _) (fun a ha hb => ?_)
        rw [List.mem_singleton] at hb
        subst hb
        obtain ⟨rc, hgc, _⟩ := hinv.wf.childMem i r _ hp ha
        have := hvalid _ rc hgc
        omega
      · subst he; subst hre
        exact List.nodup_nil
      · exact hinv.wf.childNodup i ri hg
    · -- handledUp
      intro i ri q rq hi hh hq hgq
      rcases hcases i ri hi with ⟨he, hre⟩ | ⟨he, hre⟩ | ⟨hip, hiL, hg⟩
      · subst he; subst hre
        have hqi : q < i := hinv.wf.parentLt i r q hp hq
        obtain ⟨rq0, hgq0, _⟩ := hinv.wf.parentMem i r q hp hq
        have hqL : q < s.spans.length := hvalid q rq0 hgq0
        rw [hlook q (by omega) (by omega)] at hgq
        exact hinv.wf.handledUp i r q rq hp hh hq hgq
      · subst he; subst hre
        exact Bool.noConfusion hh
      · rcases eq_or_ne q p with heq | heq
        · subst heq
          rw [hlookp] at hgq
          injection hgq with hgq
          subst hgq
          exact hinv.wf.handledUp i ri q r hg hh hq hp
        · have hqi : q < i := hinv.wf.parentLt i ri q hg hq
          have hiv : i < s.spans.length := hvalid i ri hg
          rw [hlook q heq (by omega)] at hgq
          exact hinv.wf.handledUp i ri q rq hg hh hq hgq
    · -- handledFin
      intro i ri hi hh
      rcases hcases i ri hi with ⟨he, hre⟩ | ⟨he, hre⟩ | ⟨_, _, hg⟩
      · subst he; subst hre
        exact hinv.wf.handledFin i r hp hh
      · subst he; subst hre
        exact Bool.noConfusion hh
      · exact hinv.wf.handledFin i ri hg hh
    · -- logHandled
      intro z hz
      obtain ⟨rz, hgz, hhz⟩ := hinv.logHandled z hz
      rcases eq_or_ne z p with heq | heq
      · subst heq
        rw [hp] at hgz
        injection hgz with hgz
        subst hgz
        exact ⟨_, hlookp, hhz⟩
      · have hzL : z < s.spans.length := hvalid z rz hgz
        rw [← hlook z heq (by omega)] at hgz
        exact ⟨rz, hgz, hhz⟩
    · -- skip flags never drop
      intro d rd hgd hsk
      rcases eq_or_ne d p with heq | heq
      · subst heq
        rw [hp] at hgd
        injection hgd with hgd
        subst hgd
        exact ⟨_, hlookp, hsk⟩
      · have hdL : d < s.spans.length := hvalid d rd hgd
        refine ⟨rd, ?_, hsk⟩
        rw [hlook d heq (by omega)]
        exact hgd

theorem finish_guard_true (x : Nat) (s s' : SpanSys) (hinv : SpanInv s)
    (r : SpanRec) (hx : s.spans.get? x = some r) (hfin : r.finished = false)
    (hrh : r.handled = false)
    (hs1x : (s.spans.set x { r with finished := true }).get? x =
      some { r with finished := true })
    (hs1o : ∀ i, i ≠ x →
      (s.spans.set x { r with finished := true }).get? i = s.spans.get? i)
    (hse1 : StructEq s.spans (s.spans.set x { r with finished := true }))
    (wf1 : SpanWF (s.spans.set x { r with finished := true }))
    (hpok : (match r.parent with
      | none => true
      | some p =>
        match (s.spans.set x { r with finished := true }).get? p with
        | some rp => rp.handled
        | none => false) = true)
    (hpfact : r.parent = none ∨ ∃ q rq, r.parent = some q ∧ q ≠ x ∧
      s.spans.get? q = some rq ∧ rq.handled = true)
    (hstep : applySpanEvent (SpanEvent.finishEv x) s = some s') :
    SpanInv s' ∧
    (∀ z ∈ s'.log, z ∈ s.log ∨
      ∃ r2, s.spans.get? z = some r2 ∧ r2.skip = false ∧
        r2.handled = false) ∧
    (r.parent = none →
      ∀ c rc, c ∈ r.children → s.spans.get? c = some rc →
        rc.finished = true → rc.skip = false → c ∈ s'.log) ∧
    (∀ p rp, r.skip = false → r.parent = some p → s.spans.get? p = some rp →
      rp.handled = true → x ∈ s'.log) ∧
    (∀ d rd, s.spans.get? d = some rd → rd.skip = true →
      ∃ rd', s'.spans.get? d = some rd' ∧ rd'.skip = true) := by
  -- run the subtree sweep specification
  obtain ⟨dl, hlog, hnd, hfacts, hhnd, hho, hunt, hnew, hemit⟩ :=
    sweep_all s.spans.length (s.spans.set x { r with finished := true })
      s.log x wf1.parentLt wf1.parentMem wf1.childMem wf1.childNodup
      (desc_unhandled _ wf1 x { r with finished := true } hs1x hrh)
      (by rw [List.length_set]; omega)
  have hstx : (handle_childrenF s.spans.length
      (s.spans.set x { r with finished := true }, s.log) x).1.get? x =
      some { r with finished := true } :=
    hunt x _ hs1x (not_self_anc _ wf1.parentLt x)
  rw [show applySpanEvent (SpanEvent.finishEv x) s =
      some
        { spans :=
            ((handle_childrenF s.spans.length
              (s.spans.set x { r with finished := true }, s.log) x).1.set x
              ({ r with finished := true, handled := true } : SpanRec))
          log :=
            if r.skip then
              (handle_childrenF s.spans.length
                (s.spans.set x { r with finished := true }, s.log) x).2
            else
              (handle_childrenF s.spans.length
                (s.spans.set x { r with finished := true }, s.log) x).2
              ++ [x] } from by
    simp [applySpanEvent, ← List.get?_eq_getElem?, hx, hfin, hpok, hstx]] at hstep
  injection hstep with hstep
  subst hstep
  have hfinx : ((handle_childrenF s.spans.length
      (s.spans.set x { r with finished := true }, s.log) x).1.set x
      { r with finished := true, handled := true }).get? x =
      some { r with finished := true, handled := true } :=
    get?_set_self _ x _ _ hstx
  have hfino : ∀ i, i ≠ x →
      ((handle_childrenF s.spans.length
        (s.spans.set x { r with finished := true }, s.log) x).1.set x
        { r with finished := true, handled := true }).get? i =
      (handle_childrenF s.spans.length
        (s.spans.set x { r with finished := true }, s.log) x).1.get? i :=
    fun i hi => get?_set_ne _ x i _ (fun h2 => hi h2.symm)
  -- facts about the emitted block
  have hdlx : ∀ d ∈ dl, d ≠ x := by
    intro d hd he
    subst he
    exact not_self_anc _ wf1.parentLt d (hfacts d hd).1
  have hdl_unh : ∀ d ∈ dl, ∃ rd, s.spans.get? d = some rd ∧
      rd.skip = false ∧ rd.finished = true ∧ rd.handled = false := by
    intro d hd
    obtain ⟨hanc, rd, hgd, hsk, hfn⟩ := hfacts d hd
    have hh := desc_unhandled _ wf1 x { r with finished := true } hs1x hrh
      d rd hgd hanc
    rw [hs1o d (hdlx d hd)] at hgd
    exact ⟨rd, hgd, hsk, hfn, hh⟩
  have hdl_notlog : ∀ d ∈ dl, d ∉ s.log := by
    intro d hd hmem
    obtain ⟨rd, hgd, _, _, hh⟩ := hdl_unh d hd
    obtain ⟨rd2, hgd2, hh2⟩ := hinv.logHandled d hmem
    rw [hgd] at hgd2
    injection hgd2 with hgd2
    subst hgd2
    rw [hh] at hh2
    exact Bool.noConfusion hh2
  have hxnotlog : x ∉ s.log := by
    intro hmem
    obtain ⟨rz, hgz, hhz⟩ := hinv.logHandled x hmem
    rw [hx] at hgz
    injection hgz with hgz
    subst hgz
    rw [hrh] at hhz
    exact Bool.noConfusion hhz
  have hndfull : (s.log ++ dl).Nodup :=
    List.Nodup.append hinv.logNodup hnd
      (fun a ha hb => hdl_notlog a hb ha)
  -- membership in the final log
  have hlogsub : ∀ z, z ∈ (handle_childrenF s.spans.length
      (s.spans.set x { r with finished := true }, s.log) x).2 →
      z ∈ (if r.skip then
          (handle_childrenF s.spans.length
            (s.spans.set x { r with finished := true }, s.log) x).2
        else
          (handle_childrenF s.spans.length
            (s.spans.set x { r with finished := true }, s.log) x).2
          ++ [x]) := by
    intro z hz
    rcases eq_or_ne r.skip true with hsk | hsk
    · rw [if_pos hsk]
      exact hz
    · rw [if_neg hsk]
      exact List.mem_append_left _ hz
  have hlogcases : ∀ z, z ∈ (if r.skip then
        (handle_childrenF s.spans.length
          (s.spans.set x { r with finished := true }, s.log) x).2
      else
        (handle_childrenF s.spans.length
          (s.spans.set x { r with finished := true }, s.log) x).2
        ++ [x]) →
      z ∈ s.log ∨ z ∈ dl ∨ (z = x ∧ r.skip = false) := by
    intro z hz
    rcases eq_or_ne r.skip true with hsk | hsk
    · rw [if_pos hsk] at hz
      rw [hlog] at hz
      rcases List.mem_append.mp hz with h | h
      · exact Or.inl h
      · exact Or.inr (Or.inl h)
    · rw [if_neg hsk] at hz
      have hskf : r.skip = false := by simpa using hsk
      rcases List.mem_append.mp hz with h | h
      · rw [hlog] at h
        rcases List.mem_append.mp h with h | h
        · exact Or.inl h
        · exact Or.inr (Or.inl h)
      · rw [List.mem_singleton] at h
        exact Or.inr (Or.inr ⟨h, hskf⟩)
  -- the final store satisfies the tree invariants
  have hsefinal : StructEq s.spans
      ((handle_childrenF s.spans.length
        (s.spans.set x { r with finished := true }, s.log) x).1.set x
        { r with finished := true, handled := true }) :=
    structEq_trans (structEq_trans hse1 (honly_structEq hho))
      (structEq_set_handled _ x _ hstx)
  refine ⟨⟨⟨hsefinal.parentLt hinv.wf.parentLt,
      hsefinal.parentMem hinv.wf.parentMem,
      hsefinal.childMem hinv.wf.childMem,
      hsefinal.childNodup hinv.wf.childNodup, ?_, ?_⟩, ?_, ?_⟩, ?_, ?_, ?_, ?_⟩
  · -- handledUp
    intro i ri q rq hgi hh hq hgrq
    rcases eq_or_ne i x with he | he
    · subst he
      rw [hfinx] at hgi
      injection hgi with hgi
      subst hgi
      rcases hpfact with hpn | ⟨q2, rq2, hpq2, hq2x, hgq2, hq2h⟩
      · rw [show ({ r with finished := true, handled := true } :
          SpanRec).parent = r.parent from rfl, hpn] at hq
        exact Option.noConfusion hq
      · rw [show ({ r with finished := true, handled := true } :
          SpanRec).parent = r.parent from rfl, hpq2] at hq
        injection hq with hq
        subst hq
        rw [hfino q2 hq2x] at hgrq
        have hgq1 : (s.spans.set i { r with finished := true }).get? q2 =
            some rq2 := by rw [hs1o q2 hq2x]; exact hgq2
        obtain ⟨hb, hb1, hmono⟩ := hho.2 q2 rq2 hgq1
        rw [hgrq] at hb1
        injection hb1 with hb1
        subst hb1
        rw [show ({ rq2 with handled := hb } : SpanRec).handled = hb from rfl]
        exact hmono hq2h
    · have hqi : q < i := hsefinal.parentLt hinv.wf.parentLt i ri q hgi hq
      rw [hfino i he] at hgi
      obtain ⟨ra, hb2, hga1, hei, hmono⟩ := honly_back hho i ri hgi
      have hgai : s.spans.get? i = some ra := by
        rw [← hs1o i he]; exact hga1
      cases hah : ra.handled with
      | true =>
        have hqra : ra.parent = some q := by
          rw [hei] at hq
          exact hq
        obtain ⟨rq0, hgq0, _⟩ := hinv.wf.parentMem i ra q hgai hqra
        have hrq0h : rq0.handled = true :=
          hinv.wf.handledUp i ra q rq0 hgai hah hqra hgq0
        have hqx : q ≠ x := by
          intro heq
          subst heq
          rw [hx] at hgq0
          injection hgq0 with hgq0
          subst hgq0
          rw [hrh] at hrq0h
          exact Bool.noConfusion hrq0h
        rw [hfino q hqx] at hgrq
        have hgq1 : (s.spans.set x { r with finished := true }).get? q =
            some rq0 := by rw [hs1o q hqx]; exact hgq0
        obtain ⟨hb, hb1, hmono2⟩ := hho.2 q rq0 hgq1
        rw [hgrq] at hb1
        injection hb1 with hb1
        subst hb1
        exact hmono2 hrq0h
      | false =>
        obtain ⟨hafin, y, hy, hyc⟩ := hnew i ra ri hga1 hah hgi hh
        have hyq : y = q := by
          rw [hei] at hq
          rw [hy] at hq
          injection hq
        subst hyq
        rcases hyc with hyc | hyc
        · subst hyc
          rw [hfinx] at hgrq
          injection hgrq with hgrq
          subst hgrq
          rfl
        · have hynx : y ≠ x := hdlx y hyc
          obtain ⟨ry, hry, hryh⟩ := hhnd y hyc
          rw [hfino y hynx, hry] at hgrq
          injection hgrq with hgrq
          subst hgrq
          exact hryh
  · -- handledFin
    intro i ri hgi hh
    rcases eq_or_ne i x with he | he
    · subst he
      rw [hfinx] at hgi
      injection hgi with hgi
      subst hgi
      rfl
    · rw [hfino i he] at hgi
      obtain ⟨ra, hb2, hga1, hei, hmono⟩ := honly_back hho i ri hgi
      have hgai : s.spans.get? i = some ra := by
        rw [← hs1o i he]; exact hga1
      cases hah : ra.handled with
      | true =>
        have := hinv.wf.handledFin i ra hgai hah
        rw [hei]
        exact this
      | false =>
        obtain ⟨hafin, _, _, _⟩ := hnew i ra ri hga1 hah hgi hh
        rw [hei]
        exact hafin
  · -- logNodup
    rcases eq_or_ne r.skip true with hsk | hsk
    · rw [if_pos hsk, hlog]
      exact hndfull
    · rw [if_neg hsk, hlog]
      refine List.Nodup.append hndfull (List.nodup_singleton x)
        (fun a ha hb => ?_)
      rw [List.mem_singleton] at hb
      subst hb
      rcases List.mem_append.mp ha with h | h
      · exact hxnotlog h
      · exact hdlx a h rfl
  · -- logHandled
    intro z hz
    rcases hlogcases z hz with h | h | ⟨hzx, _⟩
    · obtain ⟨rz, hgz, hhz⟩ := hinv.logHandled z h
      have hzx : z ≠ x := fun he => hxnotlog (he ▸ h)
      have hgz1 : (s.spans.set x { r with finished := true }).get? z =
          some rz := by rw [hs1o z hzx]; exact hgz
      obtain ⟨hb, hb1, hmono⟩ := hho.2 z rz hgz1
      refine ⟨{ rz with handled := hb }, ?_, hmono hhz⟩
      rw [hfino z hzx]
      exact hb1
    · obtain ⟨rz, hrz, hrzh⟩ := hhnd z h
      refine ⟨rz, ?_, hrzh⟩
      rw [hfino z (hdlx z h)]
      exact hrz
    · subst hzx
      exact ⟨_, hfinx, rfl⟩
  · -- every new emission was unskipped and unhandled before the step
    intro z hz
    rcases hlogcases z hz with h | h | ⟨hzx, hskipf⟩
    · exact Or.inl h
    · obtain ⟨rd, hgd, hsk, _, hh⟩ := hdl_unh z h
      exact Or.inr ⟨rd, hgd, hsk, hh⟩
    · subst hzx
      exact Or.inr ⟨r, hx, hskipf, hrh⟩
  · -- a root finish delivers every finished un-skipped child
    intro hpn c rc hcmem hgc hcfin hcskip
    obtain ⟨rc2, hgc2, hpc2⟩ := hinv.wf.childMem x r c hx hcmem
    rw [hgc] at hgc2
    injection hgc2 with hgc2
    subst hgc2
    have hcx : c ≠ x := by
      have := hinv.wf.parentLt c rc x hgc hpc2
      omega
    have hgc1 : (s.spans.set x { r with finished := true }).get? c =
        some rc := by rw [hs1o c hcx]; exact hgc
    have hcdl : c ∈ dl :=
      hemit { r with finished := true } hs1x c hcmem rc hgc1 hcfin hcskip
    refine hlogsub c ?_
    rw [hlog]
    exact List.mem_append_right _ hcdl
  · -- an un-skipped span whose parent is handled delivers itself
    intro p rp hskipf hparp hgp hrph
    show x ∈ (if r.skip then _ else _ ++ [x])
    rw [hskipf, if_neg (fun h2 => Bool.noConfusion h2)]
    exact List.mem_append_right _ (List.mem_singleton_self x)
  · -- skip flags never drop
    intro d rd hgd hsk
    rcases eq_or_ne d x with he | he
    · subst he
      rw [hx] at hgd
      injection hgd with hgd
      subst hgd
      exact ⟨_, hfinx, hsk⟩
    · have h1 : (s.spans.set x { r with finished := true }).get? d =
          some rd := by rw [hs1o d he]; exact hgd
      obtain ⟨hb, hb1, _⟩ := hho.2 d rd h1
      refine ⟨{ rd with handled := hb }, ?_, hsk⟩
      rw [hfino d he]
      exact hb1

theorem spanStep_finish (x : Nat) (s s' : SpanSys) (hinv : SpanInv s)
    (hstep : applySpanEvent (SpanEvent.finishEv x) s = some s') :
    SpanInv s' ∧
    (∀ z ∈ s'.log, z ∈ s.log ∨
      ∃ r, s.spans.get? z = some r ∧ r.skip = false ∧ r.handled = false) ∧
    (∀ r, s.spans.get? x = some r → r.parent = none →
      ∀ c rc, c ∈ r.children → s.spans.get? c = some rc →
        rc.finished = true → rc.skip = false → c ∈ s'.log) ∧
    (∀ r p rp, s.spans.get? x = some r → r.skip = false →
      r.parent = some p → s.spans.get? p = some rp → rp.handled = true →
      x ∈ s'.log) ∧
    (∀ d rd, s.spans.get? d = some rd → rd.skip = true →
      ∃ rd', s'.spans.get? d = some rd' ∧ rd'.skip = true) := by
  cases hx : s.spans.get? x with
  | none =>
    rw [show applySpanEvent (SpanEvent.finishEv x) s = none from by
      simp [applySpanEvent, ← List.get?_eq_getElem?, hx]] at hstep
    exact Option.noConfusion hstep
  | some r =>
    cases hfin : r.finished with
    | true =>
      rw [show applySpanEvent (SpanEvent.finishEv x) s = none from by
        simp [applySpanEvent, ← List.get?_eq_getElem?, hx, hfin]] at hstep
      exact Option.noConfusion hstep
    | false =>
      have hrh : r.handled = false := by
        cases hrh : r.handled with
        | false => rfl
        | true =>
          have := hinv.wf.handledFin x r hx hrh
          rw [hfin] at this
          exact Bool.noConfusion this
      have hs1x : (s.spans.set x { r with finished := true }).get? x =
          some { r with finished := true } := get?_set_self s.spans x _ r hx
      have hs1o : ∀ i, i ≠ x →
          (s.spans.set x { r with finished := true }).get? i =
          s.spans.get? i :=
        fun i hi => get?_set_ne s.spans x i _ (fun h2 => hi h2.symm)
      have hse1 : StructEq s.spans (s.spans.set x { r with finished := true }) := by
        refine ⟨(List.length_set s.spans x _).symm, fun d hd => ?_,
          fun d ra hd => ?_⟩
        · rcases eq_or_ne d x with he | he
          · subst he; rw [hx] at hd; exact Option.noConfusion hd
          · rw [hs1o d he]; exact hd
        · rcases eq_or_ne d x with he | he
          · subst he
            rw [hx] at hd
            injection hd with hd
            subst hd
            exact ⟨_, hs1x, rfl, rfl⟩
          · exact ⟨ra, by rw [hs1o d he]; exact hd, rfl, rfl⟩
      have wf1 : SpanWF (s.spans.set x { r with finished := true }) := by
        refine ⟨hse1.parentLt hinv.wf.parentLt, hse1.parentMem hinv.wf.parentMem,
          hse1.childMem hinv.wf.childMem, hse1.childNodup hinv.wf.childNodup,
          ?_, ?_⟩
        · intro i ri q rq hgi hh hq hgrq
          rcases eq_or_ne i x with he | he
          · subst he
            rw [hs1x] at hgi
            injection hgi with hgi
            subst hgi
            rw [show ({ r with finished := true } : SpanRec).handled
              = r.handled from rfl, hrh] at hh
            exact Bool.noConfusion hh
          · rw [hs1o i he] at hgi
            rcases eq_or_ne q x with heq | heq
            · subst heq
              rw [hs1x] at hgrq
              injection hgrq with hgrq
              subst hgrq
              rw [show ({ r with finished := true } : SpanRec).handled
                = r.handled from rfl]
              exact hinv.wf.handledUp i ri q r hgi hh hq hx
            · rw [hs1o q heq] at hgrq
              exact hinv.wf.handledUp i ri q rq hgi hh hq hgrq
        · intro i ri hgi hh
          rcases eq_or_ne i x with he | he
          · subst he
            rw [hs1x] at hgi
            injection hgi with hgi
            subst hgi
            rfl
          · rw [hs1o i he] at hgi
            exact hinv.wf.handledFin i ri hgi hh
      -- guard evaluation
      cases hpar : r.parent with
      | some q =>
        have hqx : q < x := hinv.wf.parentLt x r q hx hpar
        obtain ⟨rq, hgq, _⟩ := hinv.wf.parentMem x r q hx hpar
        have hgq1 : (s.spans.set x { r with finished := true }).get? q =
            some rq := by rw [hs1o q (by omega)]; exact hgq
        cases hqh : rq.handled with
        | false =>
          -- the finish is recorded but nothing is handled or emitted
          have hpokf : (match r.parent with
              | none => true
              | some p =>
                match (s.spans.set x { r with finished := true }).get? p with
                | some rp => rp.handled
                | none => false) = false := by
            rw [hpar] at hgq1 ⊢
            show (match (s.spans.set x
              { parent := some q, children := r.children, skip := r.skip,
                finished := true, handled := r.handled }).get? q with
              | some rp => rp.handled
              | none => false) = false
            rw [hgq1]
            exact hqh
          rw [show applySpanEvent (SpanEvent.finishEv x) s =
              some { spans := s.spans.set x { r with finished := true },
                     log := s.log } from by
            simp [applySpanEvent, ← List.get?_eq_getElem?, hx, hfin,
              hpokf]] at hstep
          injection hstep with hstep
          subst hstep
          refine ⟨⟨wf1, hinv.logNodup, ?_⟩, ?_, ?_, ?_, ?_⟩
          · intro z hz
            obtain ⟨rz, hgz, hhz⟩ := hinv.logHandled z hz
            rcases eq_or_ne z x with he | he
            · subst he
              rw [hx] at hgz
              injection hgz with hgz
              subst hgz
              rw [hrh] at hhz
              exact Bool.noConfusion hhz
            · exact ⟨rz, by rw [hs1o z he]; exact hgz, hhz⟩
          · intro z hz
            exact Or.inl hz
          · intro r2 hgr2 hpn
            injection hgr2 with hgr2
            subst hgr2
            rw [hpar] at hpn
            exact Option.noConfusion hpn
          · intro r2 p rp hgr2 _ hparp hgp hrph
            injection hgr2 with hgr2
            subst hgr2
            rw [hpar] at hparp
            injection hparp with hparp
            subst hparp
            rw [hgq] at hgp
            injection hgp with hgp
            subst hgp
            rw [hqh] at hrph
            exact Bool.noConfusion hrph
          · intro d rd hgd hsk
            rcases eq_or_ne d x with he | he
            · subst he
              rw [hx] at hgd
              injection hgd with hgd
              subst hgd
              exact ⟨_, hs1x, hsk⟩
            · refine ⟨rd, ?_, hsk⟩
              rw [hs1o d he]
              exact hgd
        | true =>
          have hpok : (match r.parent with
              | none => true
              | some p =>
                match (s.spans.set x { r with finished := true }).get? p with
                | some rp => rp.handled
                | none => false) = true := by
            rw [hpar] at hgq1 ⊢
            show (match (s.spans.set x
              { parent := some q, children := r.children, skip := r.skip,
                finished := true, handled := r.handled }).get? q with
              | some rp => rp.handled
              | none => false) = true
            rw [hgq1]
            exact hqh
          obtain ⟨hinv2, hemission, hroot, hself, hskipm⟩ :=
            finish_guard_true x s s' hinv r hx hfin hrh hs1x hs1o hse1 wf1
              hpok (Or.inr ⟨q, rq, hpar, by omega, hgq, hqh⟩) hstep
          refine ⟨hinv2, hemission, ?_, ?_, hskipm⟩
          · intro r2 hgr2 hpn c rc hcmem hgc hcfin hcskip
            injection hgr2 with hgr2
            subst hgr2
            exact hroot hpn c rc hcmem hgc hcfin hcskip
          · intro r2 p2 rp hgr2 hskipf hparp hgp hrph
            injection hgr2 with hgr2
            subst hgr2
            exact hself p2 rp hskipf hparp hgp hrph
      | none =>
        have hpok : (match r.parent with
            | none => true
            | some p =>
              match (s.spans.set x { r with finished := true }).get? p with
              | some rp => rp.handled
              | none => false) = true := by
          simp [hpar]
        obtain ⟨hinv2, hemission, hroot, hself, hskipm⟩ :=
          finish_guard_true x s s' hinv r hx hfin hrh hs1x hs1o hse1 wf1
            hpok (Or.inl hpar) hstep
        refine ⟨hinv2, hemission, ?_, ?_, hskipm⟩
        · intro r2 hgr2 hpn c rc hcmem hgc hcfin hcskip
          injection hgr2 with hgr2
          subst hgr2
          exact hroot hpn c rc hcmem hgc hcfin hcskip
        · intro r2 p2 rp hgr2 hskipf hparp hgp hrph
          injection hgr2 with hgr2
          subst hgr2
          exact hself p2 rp hskipf hparp hgp hrph

/-- Every lifecycle step preserves the invariant; every new emission
was un-skipped and un-handled before the step; a root finish delivers
its finished un-skipped children; an un-skipped span finishing under a
handled parent delivers itself; set skip flags never drop. -/
theorem spanStep_main (e : SpanEvent) (s s' : SpanSys) (hinv : SpanInv s)
    (hstep : applySpanEvent e s = some s') :
    SpanInv s' ∧
    (∀ z ∈ s'.log, z ∈ s.log ∨
      ∃ r, s.spans.get? z = some r ∧ r.skip = false ∧ r.handled = false) ∧
    (∀ x r, e = SpanEvent.finishEv x → s.spans.get? x = some r →
      r.parent = none →
      ∀ c rc, c ∈ r.children → s.spans.get? c = some rc →
        rc.finished = true → rc.skip = false → c ∈ s'.log) ∧
    (∀ x r p rp, e = SpanEvent.finishEv x → s.spans.get? x = some r →
      r.skip = false → r.parent = some p → s.spans.get? p = some rp →
      rp.handled = true → x ∈ s'.log) ∧
    (∀ d rd, s.spans.get? d = some rd → rd.skip = true →
      ∃ rd', s'.spans.get? d = some rd' ∧ rd'.skip = true) := by
  cases e with
  | newRoot =>
    obtain ⟨hinv2, hlogeq, hskipm⟩ := spanStep_newRoot s s' hinv hstep
    exact ⟨hinv2, fun z hz => Or.inl (hlogeq ▸ hz),
      fun x r he => SpanEvent.noConfusion he,
      fun x r p rp he => SpanEvent.noConfusion he, hskipm⟩
  | newChild p =>
    obtain ⟨hinv2, hlogeq, hskipm⟩ := spanStep_newChild p s s' hinv hstep
    exact ⟨hinv2, fun z hz => Or.inl (hlogeq ▸ hz),
      fun x r he => SpanEvent.noConfusion he,
      fun x r p2 rp he => SpanEvent.noConfusion he, hskipm⟩
  | skipEv x =>
    obtain ⟨hinv2, hlogeq, hskipm⟩ := spanStep_skip x s s' hinv hstep
    exact ⟨hinv2, fun z hz => Or.inl (hlogeq ▸ hz),
      fun x2 r he => SpanEvent.noConfusion he,
      fun x2 r p rp he => SpanEvent.noConfusion he, hskipm⟩
  | finishEv x =>
    obtain ⟨hinv2, hem, hroot, hself, hskipm⟩ :=
      spanStep_finish x s s' hinv hstep
    refine ⟨hinv2, hem, ?_, ?_, hskipm⟩
    · intro x2 r he
      injection he with he
      subst he
      exact hroot r
    · intro x2 r p rp he
      injection he with he
      subst he
      exact hself r p rp

theorem spanInv_init : SpanInv initSpan := by
  refine ⟨⟨?_, ?_, ?_, ?_, ?_, ?_⟩, List.nodup_nil, ?_⟩
  · intro i r p hi
    exact absurd hi (by intro h; exact Option.noConfusion h)
  · intro i r p hi
    exact absurd hi (by intro h; exact Option.noConfusion h)
  · intro i r c hi
    exact absurd hi (by intro h; exact Option.noConfusion h)
  · intro i r hi
    exact absurd hi (by intro h; exact Option.noConfusion h)
  · intro i r p rp hi
    exact absurd hi (by intro h; exact Option.noConfusion h)
  · intro i r hi
    exact absurd hi (by intro h; exact Option.noConfusion h)
  · intro z hz
    exact absurd hz (List.not_mem_nil z)

/-- Every reachable span-system state satisfies the invariant. -/
theorem spanInv_run : ∀ (evs : List SpanEvent) (s0 s : SpanSys),
    SpanInv s0 → runSpan evs s0 = some s → SpanInv s := by
  intro evs
  induction evs with
  | nil =>
    intro s0 s h0 h
    rw [runSpan] at h
    simp at h
    subst h
    exact h0
  | cons e evs ih =>
    intro s0 s h0 h
    rw [runSpan_cons] at h
    cases happ : applySpanEvent e s0 with
    | none => rw [happ] at h; exact Option.noConfusion h
    | some s1 =>
      rw [happ] at h
      exact ih s1 s (spanStep_main e s0 s1 h0 happ).1 h

/-- C1: in every run of the span lifecycle, each span is emitted to
`Logger.handle_span` at most once (the emission log of every reachable
state has no duplicates); every emitted span's trace root is finished;
at the step that emits a span, that span's skip flag is unset and it was
not yet handled; a root's `finish` delivers every already-finished
un-skipped direct child; and an un-skipped span that finishes when its
parent is already handled delivers itself. -/
theorem C1_handle_span_once (evs : List SpanEvent) (e : SpanEvent)
    (s s' : SpanSys) (hrun : runSpan evs initSpan = some s)
    (hstep : applySpanEvent e s = some s') :
    s'.log.Nodup ∧
    (∀ z ∈ s'.log, ∃ rr, s'.spans.get? (rootIdx s'.spans z) = some rr ∧
      rr.parent = none ∧ rr.finished = true) ∧
    (∀ z ∈ s'.log, z ∉ s.log →
      ∃ r, s.spans.get? z = some r ∧ r.skip = false ∧ r.handled = false) ∧
    (∀ x r, e = SpanEvent.finishEv x → s.spans.get? x = some r →
      r.parent = none →
      ∀ c rc, c ∈ r.children → s.spans.get? c = some rc →
        rc.finished = true → rc.skip = false → c ∈ s'.log) ∧
    (∀ x r p rp, e = SpanEvent.finishEv x → s.spans.get? x = some r →
      r.skip = false → r.parent = some p → s.spans.get? p = some rp →
      rp.handled = true → x ∈ s'.log) := by
  have hinv := spanInv_run evs initSpan s spanInv_init hrun
  obtain ⟨hinv2, hem, hroot, hself, _⟩ := spanStep_main e s s' hinv hstep
  refine ⟨hinv2.logNodup, ?_, ?_, hroot, hself⟩
  · intro z hz
    obtain ⟨rz, hgz, hhz⟩ := hinv2.logHandled z hz
    obtain ⟨rr, hgr, hpn, hfn, _⟩ :=
      root_handled s'.spans hinv2.wf z rz hgz hhz
    exact ⟨rr, hgr, hpn, hfn⟩
  · intro z hz hznot
    rcases hem z hz with h | h
    · exact absurd h hznot
    · exact h

/-- Root span 0 with child 1; the child finishes before the root. -/
def spanTrace1 : List SpanEvent :=
  [SpanEvent.newRoot, SpanEvent.newChild 0, SpanEvent.finishEv 1]

/-- The state reached by `spanTrace1`: nothing emitted yet. -/
def spanState1 : SpanSys :=
  { spans :=
      [{ parent := none, children := [1], skip := false,
         finished := false, handled := false },
       { parent := some 0, children := [], skip := false,
         finished := true, handled := false }],
    log := [] }

/-- After the root finishes: the child is delivered by the root's
finish, then the root itself; both handled. -/
def spanState1F : SpanSys :=
  { spans :=
      [{ parent := none, children := [1], skip := false,
         finished := true, handled := true },
       { parent := some 0, children := [], skip := false,
         finished := true, handled := true }],
    log := [1, 0] }

theorem C1_handle_span_once_witness :
    runSpan spanTrace1 initSpan = some spanState1 ∧
    applySpanEvent (SpanEvent.finishEv 0) spanState1 = some spanState1F ∧
    (spanState1F.log.Nodup ∧
     (∀ z ∈ spanState1F.log, ∃ rr,
        spanState1F.spans.get? (rootIdx spanState1F.spans z) = some rr ∧
        rr.parent = none ∧ rr.finished = true) ∧
     (∀ z ∈ spanState1F.log, z ∉ spanState1.log →
        ∃ r, spanState1.spans.get? z = some r ∧ r.skip = false ∧
          r.handled = false) ∧
     (∀ x r, SpanEvent.finishEv 0 = SpanEvent.finishEv x →
        spanState1.spans.get? x = some r → r.parent = none →
        ∀ c rc, c ∈ r.children → spanState1.spans.get? c = some rc →
          rc.finished = true → rc.skip = false → c ∈ spanState1F.log) ∧
     (∀ x r p rp, SpanEvent.finishEv 0 = SpanEvent.finishEv x →
        spanState1.spans.get? x = some r → r.skip = false →
        r.parent = some p → spanState1.spans.get? p = some rp →
        rp.handled = true → x ∈ spanState1F.log)) :=
  ⟨by decide, by decide,
    C1_handle_span_once spanTrace1 (SpanEvent.finishEv 0) spanState1
      spanState1F (by decide) (by decide)⟩

/-- C8: skipping a span in any reachable state marks the span and every
span in its subtree as skipped; a child created under a skipped parent
is created with the skip flag set; and no lifecycle step ever clears a
set skip flag (so spans skipped earlier stay skipped). -/
theorem C8_skip_propagation (evs : List SpanEvent) (s : SpanSys)
    (hrun : runSpan evs initSpan = some s) :
    (∀ x s', applySpanEvent (SpanEvent.skipEv x) s = some s' →
      ∀ d rd, descOrSelf s.spans d x → s'.spans.get? d = some rd →
        rd.skip = true) ∧
    (∀ p r, s.spans.get? p = some r → r.skip = true →
      ∀ s', applySpanEvent (SpanEvent.newChild p) s = some s' →
        ∃ rc, s'.spans.get? s.spans.length = some rc ∧ rc.skip = true ∧
          rc.parent = some p) ∧
    (∀ e s', applySpanEvent e s = some s' →
      ∀ d rd, s.spans.get? d = some rd → rd.skip = true →
        ∃ rd', s'.spans.get? d = some rd' ∧ rd'.skip = true) := by
  have hinv := spanInv_run evs initSpan s spanInv_init hrun
  refine ⟨?_, ?_, ?_⟩
  · intro x s' hstep d rd hdesc hgd
    cases hx : s.spans.get? x with
    | none =>
      rw [show applySpanEvent (SpanEvent.skipEv x) s = none from by
        simp [applySpanEvent, ← List.get?_eq_getElem?, hx]] at hstep
      exact Option.noConfusion hstep
    | some rx =>
      rw [show applySpanEvent (SpanEvent.skipEv x) s =
          some { s with spans := skipAllF s.spans.length s.spans x } from by
        simp [applySpanEvent, ← List.get?_eq_getElem?, hx]] at hstep
      injection hstep with hstep
      subst hstep
      have hso : SkipOnly s.spans (skipAllF s.spans.length s.spans x) :=
        skipOnly_skipAll s.spans.length s.spans x
      cases hgd0 : s.spans.get? d with
      | none =>
        rw [skipOnly_get?_none hso d hgd0] at hgd
        exact Option.noConfusion hgd
      | some rd0 =>
        obtain ⟨rd1, hrd1, hsk1⟩ := skipAll_marks s.spans.length s.spans x
          hinv.wf.parentLt hinv.wf.parentMem (by omega) d rd0 hgd0 hdesc
        rw [hgd] at hrd1
        injection hrd1 with hrd1
        subst hrd1
        exact hsk1
  · intro p r hgp hskip s' hstep
    rw [show applySpanEvent (SpanEvent.newChild p) s =
        some { s with spans :=
          (s.spans.set p { r with children := r.children ++ [s.spans.length] })
            ++ [newSpan (some p) r.skip] } from by
      simp [applySpanEvent, ← List.get?_eq_getElem?, hgp]] at hstep
    injection hstep with hstep
    subst hstep
    have h0 := get?_append_len
      (s.spans.set p { r with children := r.children ++ [s.spans.length] })
      (newSpan (some p) r.skip)
    rw [List.length_set] at h0
    exact ⟨newSpan (some p) r.skip, h0, by rw [show (newSpan (some p) r.skip).skip = r.skip from rfl, hskip], rfl⟩
  · intro e s' hstep d rd hgd hsk
    exact (spanStep_main e s s' hinv hstep).2.2.2.2 d rd hgd hsk

/-- Root 0 with children 1 and 2 in a reachable state for the C8
witness. -/
def spanTrace8 : List SpanEvent :=
  [SpanEvent.newRoot, SpanEvent.newChild 0, SpanEvent.newChild 0]

/-- The state reached by `spanTrace8`. -/
def spanState8 : SpanSys :=
  { spans :=
      [{ parent := none, children := [1, 2], skip := false,
         finished := false, handled := false },
       { parent := some 0, children := [], skip := false,
         finished := false, handled := false },
       { parent := some 0, children := [], skip := false,
         finished := false, handled := false }],
    log := [] }

theorem C8_skip_propagation_witness :
    runSpan spanTrace8 initSpan = some spanState8 ∧
    ((∀ x s', applySpanEvent (SpanEvent.skipEv x) spanState8 = some s' →
        ∀ d rd, descOrSelf spanState8.spans d x →
          s'.spans.get? d = some rd → rd.skip = true) ∧
     (∀ p r, spanState8.spans.get? p = some r → r.skip = true →
        ∀ s', applySpanEvent (SpanEvent.newChild p) spanState8 = some s' →
          ∃ rc, s'.spans.get? spanState8.spans.length = some rc ∧
            rc.skip = true ∧ rc.parent = some p) ∧
     (∀ e s', applySpanEvent e spanState8 = some s' →
        ∀ d rd, spanState8.spans.get? d = some rd → rd.skip = true →
          ∃ rd', s'.spans.get? d = some rd' ∧ rd'.skip = true)) :=
  ⟨by decide, C8_skip_propagation spanTrace8 spanState8 (by decide)⟩

end Ipapp
